import Mathlib

/-!
The task store of the To-Do app (`src/server/todoStore.js`).

A shallow embedding of the durable record store and of the request handler
that creates records (`src/server/index.js`).

Modelling conventions.

* The three files the store touches (`tasks.json`, `tasks.backup.json`,
  `tasks.json.tmp`) are the fields of `Files`; a missing file is `none`.
* File text is classified by what the code can observe of it (`Raw`): blank,
  rejected by `JSON.parse`, or parsed to a value (`JData`).
* Every `fs` call consumes one entry of `World.faults`; `true` makes the call
  reject without effect, an exhausted schedule means no injected failure.
* Every `new Date()` consumes one reading of `World.clock`.
* A JavaScript function that may throw returns `Except JsError α × World`.
* Ids are the integers that are JavaScript numbers; `Math.max(...) + 1` is
  the sum of such numbers (`jsAddOne`), exact only between `-twoPow53` and
  `twoPow53`. Timestamps are milliseconds since the epoch (their ISO-8601
  text is an injective rendering of that number).
* Each store operation is the critical section that `withFileLock` runs for
  the holder of the gate; console output and timer delays have no effect on
  the state and are left out.
* The gate is the machine `AsyncMutex` over its flag and its queue, with
  callers named by numbers; `GateLog` records its use, `lockedSection` and
  `withFileLock` run an operation under it, and `Sys` is the store with
  several calls in flight, whose events are the arrival of a call at the gate
  and the completion of the running operation.
* A process that is terminated is one in which only a given number of file
  calls complete (`Live`, `saveLive`).
* The handlers of `POST /api/todos` and `GET /api/todos` are `postTodos` and
  `getTodos`; the text of an error message enters only through the test
  `mentionsJSON`.
-/

namespace TodoStore

/-! ## Data model -/

/-- Timestamps: milliseconds since the epoch, rendered by `toISOString`. -/
abbrev Time := Nat

/-- One persisted task entry. -/
structure Task where
  id : Int
  title : String
  completed : Bool
  createdAt : Time
  updatedAt : Time
  deriving DecidableEq, Repr

/-- What `JSON.parse` may return, as far as the store inspects it. -/
inductive JData where
  /-- The value `null`. -/
  | null
  /-- Any other value without a `tasks` array: a scalar, an array, an object
  whose `tasks` property is missing, falsy or not an array. -/
  | other
  /-- An object whose `tasks` property is an array of records. -/
  | tasks (ts : List Task)
  deriving DecidableEq, Repr

/-- File text, classified by what the store can observe of it. -/
inductive Raw where
  /-- The test `!raw || raw.trim() === ''` holds. -/
  | blank
  /-- Text with content on which `JSON.parse` throws. -/
  | malformed
  /-- Text that `JSON.parse` turns into the given value. -/
  | json (d : JData)
  deriving DecidableEq, Repr

/-- Errors a step of the store can throw. -/
inductive JsError where
  /-- A rejected `fs` promise. -/
  | fsError
  /-- Thrown by `JSON.parse`. -/
  | parseError
  /-- Property access on `null`. -/
  | typeError
  /-- The error `new Error('Empty file')`. -/
  | emptyFile
  /-- The error `new Error('Invalid data structure')`. -/
  | invalidStructure
  /-- The error `new Error('Temp file validation failed')`. -/
  | tempValidation
  deriving DecidableEq, Repr

/-- The paths the store uses. -/
inductive Path where
  /-- The path `DATA_FILE`. -/
  | data
  /-- The path `BACKUP_FILE`. -/
  | backup
  /-- The path `DATA_FILE + '.tmp'`. -/
  | tmp
  deriving DecidableEq, Repr

/-- Content of the three files; `none` is a file that does not exist. -/
structure Files where
  data : Option Raw
  backup : Option Raw
  tmp : Option Raw
  deriving DecidableEq, Repr

/-- Content found at a path. -/
def Files.get (f : Files) : Path → Option Raw
  | .data => f.data
  | .backup => f.backup
  | .tmp => f.tmp

/-- Replace the content at a path. -/
def Files.set (f : Files) (p : Path) (c : Option Raw) : Files :=
  match p with
  | .data => { f with data := c }
  | .backup => { f with backup := c }
  | .tmp => { f with tmp := c }

/-- The store's environment: files, outcome schedule of the coming `fs` calls,
and the clock with the number of readings taken so far. -/
structure World where
  files : Files
  faults : List Bool
  clock : Nat → Time
  reads : Nat

/-- Result of a step that may throw, with the state it leaves. -/
abbrev Outcome (α : Type) := Except JsError α × World

/-! ## Built-ins -/

/-- Take the outcome scheduled for the next `fs` call. -/
def World.nextFault (w : World) : Bool × World :=
  (w.faults.headD false, { w with faults := w.faults.tail })

/-- The call `new Date().toISOString()`. -/
def now (w : World) : Time × World :=
  (w.clock w.reads, { w with reads := w.reads + 1 })

/-- The call `fs.access(p)`. -/
def access (p : Path) (w : World) : Outcome Unit :=
  match w.nextFault with
  | (true, w1) => (.error .fsError, w1)
  | (false, w1) =>
    match w1.files.get p with
    | some _ => (.ok (), w1)
    | none => (.error .fsError, w1)

/-- The call `fs.readFile(p, 'utf8')`. -/
def readFile (p : Path) (w : World) : Outcome Raw :=
  match w.nextFault with
  | (true, w1) => (.error .fsError, w1)
  | (false, w1) =>
    match w1.files.get p with
    | some raw => (.ok raw, w1)
    | none => (.error .fsError, w1)

/-- The call `fs.writeFile(p, raw, 'utf8')`. -/
def writeFile (p : Path) (raw : Raw) (w : World) : Outcome Unit :=
  match w.nextFault with
  | (true, w1) => (.error .fsError, w1)
  | (false, w1) => (.ok (), { w1 with files := w1.files.set p (some raw) })

/-- The call `fs.copyFile(src, dst)`. -/
def copyFile (src dst : Path) (w : World) : Outcome Unit :=
  match w.nextFault with
  | (true, w1) => (.error .fsError, w1)
  | (false, w1) =>
    match w1.files.get src with
    | some raw => (.ok (), { w1 with files := w1.files.set dst (some raw) })
    | none => (.error .fsError, w1)

/-- The call `fs.unlink(p)`. -/
def unlink (p : Path) (w : World) : Outcome Unit :=
  match w.nextFault with
  | (true, w1) => (.error .fsError, w1)
  | (false, w1) =>
    match w1.files.get p with
    | some _ => (.ok (), { w1 with files := w1.files.set p none })
    | none => (.error .fsError, w1)

/-- The call `fs.rename(src, dst)`. -/
def rename (src dst : Path) (w : World) : Outcome Unit :=
  match w.nextFault with
  | (true, w1) => (.error .fsError, w1)
  | (false, w1) =>
    match w1.files.get src with
    | some raw =>
      (.ok (), { w1 with files := (w1.files.set dst (some raw)).set src none })
    | none => (.error .fsError, w1)

/-- The call `fs.mkdir(dir, { recursive: true })` on the store's directory. -/
def mkdir (w : World) : Outcome Unit :=
  match w.nextFault with
  | (true, w1) => (.error .fsError, w1)
  | (false, w1) => (.ok (), w1)

/-- The test `!raw || raw.trim() === ''`. -/
def isBlank : Raw → Bool
  | .blank => true
  | _ => false

/-- The call `JSON.parse(raw)`. -/
def jsonParse : Raw → Except JsError JData
  | .blank => .error .parseError
  | .malformed => .error .parseError
  | .json d => .ok d

/-- The call `JSON.stringify({ tasks }, null, 2)`. -/
def stringify (tasks : List Task) : Raw :=
  .json (.tasks tasks)

/-- The test `!data.tasks || !Array.isArray(data.tasks)`, which throws on
`null`; `.ok (some ts)` is the case where the test is false. -/
def tasksField : JData → Except JsError (Option (List Task))
  | .null => .error .typeError
  | .other => .ok none
  | .tasks ts => .ok (some ts)

/-- White space and line terminators, the characters `trim` strips. -/
def isJsSpace (c : Char) : Bool :=
  let n := c.toNat
  n = 0x09 || n = 0x0A || n = 0x0B || n = 0x0C || n = 0x0D || n = 0x20
    || n = 0xA0 || n = 0x1680 || (0x2000 ≤ n && n ≤ 0x200A) || n = 0x2028
    || n = 0x2029 || n = 0x202F || n = 0x205F || n = 0x3000 || n = 0xFEFF

/-- The method `String.prototype.trim`. -/
def trim (s : String) : String :=
  ⟨((s.data.dropWhile isJsSpace).reverse.dropWhile isJsSpace).reverse⟩

/-! ## Durable reader -/

/-- The function `restoreFromBackup`. -/
def restoreFromBackup (w : World) : Bool × World :=
  match access .backup w with
  | (.error _, w1) => (false, w1)
  | (.ok _, w1) =>
    match readFile .backup w1 with
    | (.error _, w2) => (false, w2)
    | (.ok backupContent, w2) =>
      if isBlank backupContent then (false, w2)
      else
        match jsonParse backupContent with
        | .error _ => (false, w2)
        | .ok data =>
          match tasksField data with
          | .ok (some _) =>
            match copyFile .backup .data w2 with
            | (.ok _, w3) => (true, w3)
            | (.error _, w3) => (false, w3)
          | _ => (false, w2)

/-- The `try` block of `ensureFile`. -/
def ensureFileCheck (w : World) : Outcome Unit :=
  match access .data w with
  | (.error e, w1) => (.error e, w1)
  | (.ok _, w1) =>
    match readFile .data w1 with
    | (.error e, w2) => (.error e, w2)
    | (.ok raw, w2) =>
      if isBlank raw then (.error .emptyFile, w2)
      else
        match jsonParse raw with
        | .error e => (.error e, w2)
        | .ok data =>
          match tasksField data with
          | .error e => (.error e, w2)
          | .ok none => (.error .invalidStructure, w2)
          | .ok (some _) => (.ok (), w2)

/-- The function `ensureFile`. -/
def ensureFile (w : World) : Outcome Unit :=
  match ensureFileCheck w with
  | (.ok _, w1) => (.ok (), w1)
  | (.error _, w1) =>
    match mkdir w1 with
    | (.error e, w2) => (.error e, w2)
    | (.ok _, w2) => writeFile .data (stringify []) w2

/-- What `_loadInternal` does on content it cannot use, the same code in each
of its four places: before the last attempt try the backup and `continue`
(`.ok none`), on the last attempt write an empty collection and return `[]`. -/
def recover (attempt : Nat) (w : World) : Outcome (Option (List Task)) :=
  if attempt < 2 then
    match restoreFromBackup w with
    | (_, w1) => (.ok none, w1)
  else
    match writeFile .data (stringify []) w with
    | (.ok _, w1) => (.ok (some []), w1)
    | (.error e, w1) => (.error e, w1)

/-- The `try` block of one iteration of the loop of `_loadInternal`. -/
def loadTry (attempt : Nat) (w : World) : Outcome (Option (List Task)) :=
  match readFile .data w with
  | (.error e, w1) => (.error e, w1)
  | (.ok raw, w1) =>
    if isBlank raw then recover attempt w1
    else
      match jsonParse raw with
      | .error _ => recover attempt w1
      | .ok data =>
        match data with
        | .tasks ts => (.ok (some ts), w1)
        | _ => recover attempt w1

/-- One iteration of the loop of `_loadInternal`: the `try` block and its
`catch`; `.ok none` is `continue`, `.ok (some ts)` is `return ts`. -/
def loadAttempt (attempt : Nat) (w : World) : Outcome (Option (List Task)) :=
  match loadTry attempt w with
  | (.error _, w1) => recover attempt w1
  | r => r

/-- The loop `for (let attempt = 0; attempt < 3; attempt++)` of
`_loadInternal`, over the attempts still to run, and the fallback after it. -/
def loadLoop : List Nat → World → Outcome (List Task)
  | [], w => (.ok [], w)
  | attempt :: rest, w =>
    match loadAttempt attempt w with
    | (.ok (some ts), w1) => (.ok ts, w1)
    | (.ok none, w1) => loadLoop rest w1
    | (.error e, w1) => (.error e, w1)

/-- The function `_loadInternal`. -/
def _loadInternal (w : World) : Outcome (List Task) :=
  match ensureFile w with
  | (.error e, w1) => (.error e, w1)
  | (.ok _, w1) => loadLoop [0, 1, 2] w1

/-- The function `load`. -/
def load (w : World) : Outcome (List Task) :=
  _loadInternal w

/-- The function `getAll`, the store's list operation. -/
def getAll (w : World) : Outcome (List Task) :=
  load w

/-! ## Durable writer -/

/-- The function `createBackup`. -/
def createBackup (w : World) : World :=
  match access .data w with
  | (.error _, w1) => w1
  | (.ok _, w1) =>
    match readFile .data w1 with
    | (.error _, w2) => w2
    | (.ok raw, w2) =>
      if isBlank raw then w2
      else
        match jsonParse raw with
        | .error _ => w2
        | .ok _ => (copyFile .data .backup w2).2

/-- The inner `try`/`catch` of `_saveInternal` that removes the target file
before the rename; a failure of either call is swallowed. -/
def unlinkTarget (w : World) : World :=
  match access .data w with
  | (.error _, w1) => w1
  | (.ok _, w1) => (unlink .data w1).2

/-- The `try` block of one iteration of the loop of `_saveInternal`. -/
def saveTry (tasks : List Task) (w : World) : Outcome Unit :=
  let w1 := createBackup w
  let dataToSave := stringify tasks
  match jsonParse dataToSave with
  | .error e => (.error e, w1)
  | .ok _ =>
    match writeFile .tmp dataToSave w1 with
    | (.error e, w2) => (.error e, w2)
    | (.ok _, w2) =>
      match readFile .tmp w2 with
      | (.error e, w3) => (.error e, w3)
      | (.ok tempContent, w3) =>
        match jsonParse tempContent with
        | .error e => (.error e, w3)
        | .ok verifyData =>
          match tasksField verifyData with
          | .error e => (.error e, w3)
          | .ok none => (.error .tempValidation, w3)
          | .ok (some _) =>
            let w4 := unlinkTarget w3
            match rename .tmp .data w4 with
            | (.error e, w5) => (.error e, w5)
            | (.ok _, w5) =>
              match readFile .data w5 with
              | (.error e, w6) => (.error e, w6)
              | (.ok finalContent, w6) =>
                match jsonParse finalContent with
                | .error e => (.error e, w6)
                | .ok _ => (.ok (), w6)

/-- One iteration of the loop of `_saveInternal`: the `try` block and its
`catch`; `.ok true` is `return`, `.ok false` is `continue`. -/
def saveAttempt (tasks : List Task) (attempt : Nat) (w : World) : Outcome Bool :=
  match saveTry tasks w with
  | (.ok _, w1) => (.ok true, w1)
  | (.error e, w1) =>
    let w2 := (unlink .tmp w1).2
    if attempt < 2 then (.ok false, w2) else (.error e, w2)

/-- The loop `for (let attempt = 0; attempt < 3; attempt++)` of
`_saveInternal`, over the attempts still to run. -/
def saveLoop (tasks : List Task) : List Nat → World → Outcome Unit
  | [], w => (.ok (), w)
  | attempt :: rest, w =>
    match saveAttempt tasks attempt w with
    | (.ok true, w1) => (.ok (), w1)
    | (.ok false, w1) => saveLoop tasks rest w1
    | (.error e, w1) => (.error e, w1)

/-- The function `_saveInternal`. -/
def _saveInternal (tasks : List Task) (w : World) : Outcome Unit :=
  saveLoop tasks [0, 1, 2] w

/-! ## Record operations -/

/-- The call `Math.max(x, ...xs)` on integers. -/
def mathMax (x : Int) (xs : List Int) : Int :=
  xs.foldl max x

/-- The number 2 ^ 53: every integer from `-twoPow53` to `twoPow53` is a
JavaScript number, and beyond them only every second integer (then every
fourth, and so on) is one. -/
def twoPow53 : Int := 9007199254740992

/-- The sum `x + 1` of JavaScript numbers, for `x` a number that is an
integer. The sum is exact where `x + 1` is a number, from `-twoPow53` up to
`twoPow53 - 1`. Elsewhere it is the number nearest to the exact sum: up to
magnitude 2 ^ 54 the numbers are the even integers, the exact sum lies midway
between `x` and `x + 2`, and the tie goes to the one whose half is even;
beyond, `x` itself is nearest. -/
def jsAddOne (x : Int) : Int :=
  if -twoPow53 ≤ x ∧ x < twoPow53 then x + 1
  else if x.natAbs ≤ 2 * twoPow53.natAbs ∧ (x.natAbs / 2) % 2 = 1 then x + 2
  else x

/-- The function `nextId`. -/
def nextId (tasks : List Task) : Int :=
  match tasks.map (fun t => t.id) with
  | [] => 1
  | x :: xs => jsAddOne (mathMax x xs)

/-- The method `findIndex`; `none` is the result `-1`. -/
def findIndex (p : Task → Bool) : List Task → Option Nat
  | [] => none
  | t :: ts => if p t then some 0 else (findIndex p ts).map (· + 1)

/-- The argument of `create`: an object whose `title` may be missing. -/
structure NewTask where
  title : Option String
  deriving DecidableEq, Repr

/-- The expression `task.title?.trim() || 'Untitled Task'`. -/
def newTitle (task : NewTask) : String :=
  match task.title with
  | none => "Untitled Task"
  | some s => if trim s = "" then "Untitled Task" else trim s

/-- The function `create`. -/
def create (task : NewTask) (w : World) : Outcome Task :=
  match _loadInternal w with
  | (.error e, w1) => (.error e, w1)
  | (.ok tasks, w1) =>
    let (createdAt, w2) := now w1
    let (updatedAt, w3) := now w2
    let newTask : Task :=
      { id := nextId tasks
        title := newTitle task
        completed := false
        createdAt := createdAt
        updatedAt := updatedAt }
    match _saveInternal (tasks ++ [newTask]) w3 with
    | (.error e, w4) => (.error e, w4)
    | (.ok _, w4) => (.ok newTask, w4)

/-- A value a request can put in a field of a patch. -/
inductive JsVal where
  /-- The value `null`. -/
  | null
  /-- A boolean. -/
  | bool (b : Bool)
  /-- An integer-valued number. -/
  | num (n : Int)
  /-- A string. -/
  | str (s : String)
  deriving DecidableEq, Repr

/-- Truthiness, the value of `!!v`. -/
def JsVal.truthy : JsVal → Bool
  | .null => false
  | .bool b => b
  | .num n => n != 0
  | .str s => s != ""

/-- The method `toString` of a value that has one. -/
def JsVal.toStr : JsVal → String
  | .null => ""
  | .bool b => if b then "true" else "false"
  | .num n => toString n
  | .str s => s

/-- The argument `updates` of `update`; `none` is a key that is absent or
`undefined`. -/
structure Patch where
  title : Option JsVal
  completed : Option JsVal
  deriving DecidableEq, Repr

/-- The expression `(updates.title || '').toString().trim() || prev.title`. -/
def patchedTitle (v : JsVal) (prev : String) : String :=
  let s := trim (if v.truthy then v.toStr else "")
  if s = "" then prev else s

/-- The object literal assigned to `tasks[idx]` in `update`. -/
def applyPatch (prev : Task) (updates : Patch) (updatedAt : Time) : Task :=
  { prev with
    title := match updates.title with
      | some v => patchedTitle v prev.title
      | none => prev.title
    completed := match updates.completed with
      | some v => v.truthy
      | none => prev.completed
    updatedAt := updatedAt }

/-- The function `update`; `none` is the result `null`. -/
def update (id : Int) (updates : Patch) (w : World) : Outcome (Option Task) :=
  match _loadInternal w with
  | (.error e, w1) => (.error e, w1)
  | (.ok tasks, w1) =>
    match findIndex (fun t => t.id == id) tasks with
    | none => (.ok none, w1)
    | some idx =>
      match tasks[idx]? with
      -- `idx` is an index of `tasks`: this case does not occur
      | none => (.ok none, w1)
      | some prev =>
        let (updatedAt, w2) := now w1
        let updated := applyPatch prev updates updatedAt
        match _saveInternal (tasks.set idx updated) w2 with
        | (.error e, w3) => (.error e, w3)
        | (.ok _, w3) => (.ok (some updated), w3)

/-- The function `remove`. -/
def remove (id : Int) (w : World) : Outcome Bool :=
  match _loadInternal w with
  | (.error e, w1) => (.error e, w1)
  | (.ok tasks, w1) =>
    match findIndex (fun t => t.id == id) tasks with
    | none => (.ok false, w1)
    | some idx =>
      match _saveInternal (tasks.eraseIdx idx) w1 with
      | (.error e, w2) => (.error e, w2)
      | (.ok _, w2) => (.ok true, w2)

/-! ## The handler that creates records (`src/server/index.js`) -/

/-- Status and payload of a response of `POST /api/todos`. -/
structure Response where
  status : Nat
  task : Option Task
  deriving DecidableEq, Repr

/-- The handler `app.post('/api/todos', ...)`, on the `title` of the request
body (`none` when the body or the key is missing). -/
def postTodos (title : Option JsVal) (w : World) : Response × World :=
  match title with
  | none => (⟨400, none⟩, w)
  | some v =>
    if !v.truthy then (⟨400, none⟩, w)
    else
      match v with
      | .str s =>
        if trim s = "" then (⟨400, none⟩, w)
        else
          match create ⟨some s⟩ w with
          | (.ok task, w1) => (⟨201, some task⟩, w1)
          | (.error _, w1) => (⟨500, none⟩, w1)
      | _ => (⟨500, none⟩, w)

/-! ## Runs of operations -/

/-- The records the primary file holds; none when it is not a collection. -/
def persisted (w : World) : List Task :=
  match w.files.data with
  | some (.json (.tasks ts)) => ts
  | _ => []

/-- A mutating call to the store. -/
inductive Op where
  /-- A call of `create`. -/
  | create (task : NewTask)
  /-- A call of `update`. -/
  | update (id : Int) (updates : Patch)
  /-- A call of `remove`. -/
  | remove (id : Int)
  deriving DecidableEq, Repr

/-- State after one call, whatever it returned. -/
def Op.run : Op → World → World
  | .create task, w => (TodoStore.create task w).2
  | .update id updates, w => (TodoStore.update id updates w).2
  | .remove id, w => (TodoStore.remove id w).2

/-- State after a sequence of calls, one after the other. -/
def runOps : List Op → World → World
  | [], w => w
  | op :: ops, w => runOps ops (op.run w)

/-- The state a load leaves when no call fails. -/
def loaded (w : World) : World :=
  { w with files := { w.files with data := some (stringify (persisted w)) } }

/-- The state a save of `ts` leaves when no call fails and the primary file
parses. -/
def saved (ts : List Task) (w : World) : World :=
  { w with files := ⟨some (stringify ts), w.files.data, none⟩ }

/-- The ids of a collection, in order. -/
def ids (c : List Task) : List Int :=
  c.map (fun t => t.id)

/-- Content that, when it is a collection, has records satisfying `P`. -/
def ContentSat (P : List Task → Prop) (c : Option Raw) : Prop :=
  ∀ l, c = some (.json (.tasks l)) → P l

/-- Both the primary and the backup file satisfy `ContentSat P`. -/
def Inv2 (P : List Task → Prop) (f : Files) : Prop :=
  ContentSat P f.data ∧ ContentSat P f.backup

/-- All three files satisfy `ContentSat P`. -/
def Inv3 (P : List Task → Prop) (f : Files) : Prop :=
  ContentSat P f.data ∧ ContentSat P f.backup ∧ ContentSat P f.tmp

/-- The ids of a collection are pairwise distinct. -/
def Distinct (l : List Task) : Prop :=
  (ids l).Pairwise (fun a b => a ≠ b)

/-- The number of `create` calls in a sequence of calls. -/
def creates : List Op → Nat
  | [] => 0
  | .create _ :: ops => creates ops + 1
  | .update _ _ :: ops => creates ops
  | .remove _ :: ops => creates ops

/-- The ids of a collection leave room for `k` more records: `k` is at most
`twoPow53`, no id is below `-twoPow53`, and every id is at least `k` below
`twoPow53`, so that `k` sums `Math.max(...) + 1` in a row are all exact. -/
def Room (k : Nat) (l : List Task) : Prop :=
  (k : Int) ≤ twoPow53 ∧ ∀ t ∈ l, -twoPow53 ≤ t.id ∧ t.id + k ≤ twoPow53

/-- The state in which attempt `i` of a save starts when every attempt before
it has failed: the state the `catch` of the attempt before leaves after its
try to remove the temporary file. -/
def attemptStart (tasks : List Task) (w : World) : Nat → World
  | 0 => w
  | i + 1 => (unlink .tmp (saveTry tasks (attemptStart tasks w i)).2).2

/-- The ids that the `create` calls of a sequence of calls return, in the
order of the calls. -/
def createdIds : List Op → World → List Int
  | [], _ => []
  | .create task :: ops, w =>
    match (create task w).1 with
    | .ok r => r.id :: createdIds ops (create task w).2
    | .error _ => createdIds ops (create task w).2
  | .update id updates :: ops, w => createdIds ops (update id updates w).2
  | .remove id :: ops, w => createdIds ops (remove id w).2

/-- File content that is absent or a collection. -/
def Shaped (c : Option Raw) : Prop :=
  c = none ∨ ∃ l, c = some (.json (.tasks l))

/-- The primary and the backup file both satisfy `Q`. -/
def Each2 (Q : Option Raw → Prop) (f : Files) : Prop :=
  Q f.data ∧ Q f.backup

/-- The three files all satisfy `Q`. -/
def Each3 (Q : Option Raw → Prop) (f : Files) : Prop :=
  Q f.data ∧ Q f.backup ∧ Q f.tmp

/-! ## A save in a process that is terminated -/

/-- A run in a process that is terminated once a given number of its file
calls have completed. -/
inductive Live (α : Type) where
  /-- The process was terminated; it left the state `w`. -/
  | dead (w : World)
  /-- The code returned `r` in state `w`; `k` more file calls can complete. -/
  | alive (r : α) (w : World) (k : Nat)

/-- A file call in a process in which `k` more file calls can complete. -/
def callLive {α : Type} (op : World → Outcome α) (k : Nat) (w : World) :
    Live (Except JsError α) :=
  match k with
  | 0 => .dead w
  | k + 1 => .alive (op w).1 (op w).2 k

/-- The function `createBackup` in such a process. -/
def createBackupLive (k : Nat) (w : World) : Live Unit :=
  match callLive (access .data) k w with
  | .dead w1 => .dead w1
  | .alive (.error _) w1 k1 => .alive () w1 k1
  | .alive (.ok _) w1 k1 =>
    match callLive (readFile .data) k1 w1 with
    | .dead w2 => .dead w2
    | .alive (.error _) w2 k2 => .alive () w2 k2
    | .alive (.ok raw) w2 k2 =>
      if isBlank raw then .alive () w2 k2
      else
        match jsonParse raw with
        | .error _ => .alive () w2 k2
        | .ok _ =>
          match callLive (copyFile .data .backup) k2 w2 with
          | .dead w3 => .dead w3
          | .alive _ w3 k3 => .alive () w3 k3

/-- The removal of the target file before the rename, in such a process. -/
def unlinkTargetLive (k : Nat) (w : World) : Live Unit :=
  match callLive (access .data) k w with
  | .dead w1 => .dead w1
  | .alive (.error _) w1 k1 => .alive () w1 k1
  | .alive (.ok _) w1 k1 =>
    match callLive (unlink .data) k1 w1 with
    | .dead w2 => .dead w2
    | .alive _ w2 k2 => .alive () w2 k2

/-- The `try` block of one iteration of the loop of `_saveInternal`, in such a
process. -/
def saveTryLive (tasks : List Task) (k : Nat) (w : World) : Live (Except JsError Unit) :=
  match createBackupLive k w with
  | .dead w1 => .dead w1
  | .alive _ w1 k1 =>
    let dataToSave := stringify tasks
    match jsonParse dataToSave with
    | .error e => .alive (.error e) w1 k1
    | .ok _ =>
      match callLive (writeFile .tmp dataToSave) k1 w1 with
      | .dead w2 => .dead w2
      | .alive (.error e) w2 k2 => .alive (.error e) w2 k2
      | .alive (.ok _) w2 k2 =>
        match callLive (readFile .tmp) k2 w2 with
        | .dead w3 => .dead w3
        | .alive (.error e) w3 k3 => .alive (.error e) w3 k3
        | .alive (.ok tempContent) w3 k3 =>
          match jsonParse tempContent with
          | .error e => .alive (.error e) w3 k3
          | .ok verifyData =>
            match tasksField verifyData with
            | .error e => .alive (.error e) w3 k3
            | .ok none => .alive (.error .tempValidation) w3 k3
            | .ok (some _) =>
              match unlinkTargetLive k3 w3 with
              | .dead w4 => .dead w4
              | .alive _ w4 k4 =>
                match callLive (rename .tmp .data) k4 w4 with
                | .dead w5 => .dead w5
                | .alive (.error e) w5 k5 => .alive (.error e) w5 k5
                | .alive (.ok _) w5 k5 =>
                  match callLive (readFile .data) k5 w5 with
                  | .dead w6 => .dead w6
                  | .alive (.error e) w6 k6 => .alive (.error e) w6 k6
                  | .alive (.ok finalContent) w6 k6 =>
                    match jsonParse finalContent with
                    | .error e => .alive (.error e) w6 k6
                    | .ok _ => .alive (.ok ()) w6 k6

/-- One iteration of the loop of `_saveInternal`, in such a process. -/
def saveAttemptLive (tasks : List Task) (attempt : Nat) (k : Nat) (w : World) :
    Live (Except JsError Bool) :=
  match saveTryLive tasks k w with
  | .dead w1 => .dead w1
  | .alive (.ok _) w1 k1 => .alive (.ok true) w1 k1
  | .alive (.error e) w1 k1 =>
    match callLive (unlink .tmp) k1 w1 with
    | .dead w2 => .dead w2
    | .alive _ w2 k2 =>
      if attempt < 2 then .alive (.ok false) w2 k2 else .alive (.error e) w2 k2

/-- The loop of `_saveInternal`, in such a process. -/
def saveLoopLive (tasks : List Task) : List Nat → Nat → World → Live (Except JsError Unit)
  | [], k, w => .alive (.ok ()) w k
  | attempt :: rest, k, w =>
    match saveAttemptLive tasks attempt k w with
    | .dead w1 => .dead w1
    | .alive (.ok true) w1 k1 => .alive (.ok ()) w1 k1
    | .alive (.ok false) w1 k1 => saveLoopLive tasks rest k1 w1
    | .alive (.error e) w1 k1 => .alive (.error e) w1 k1

/-- The function `_saveInternal` in a process that is terminated once `k` of
its file calls have completed. -/
def saveLive (tasks : List Task) (k : Nat) (w : World) : Live (Except JsError Unit) :=
  saveLoopLive tasks [0, 1, 2] k w

/-- The state such a run ends in. -/
def Live.state {α : Type} : Live α → World
  | .dead w => w
  | .alive _ w _ => w

/-- The files that a save leaves when the process is terminated once `k` of
its file calls have completed. -/
def crashFiles (tasks : List Task) (k : Nat) (w : World) : Files :=
  (saveLive tasks k w).state.files

/-! ## The serialization gate -/

/-- The class `AsyncMutex`: its flag and its queue, which holds the `resolve`
callbacks of the waiting callers, here each named by its caller, oldest
first. -/
structure AsyncMutex where
  isLocked : Bool
  queue : List Nat
  deriving DecidableEq, Repr

/-- The constructor of `AsyncMutex`, the value of `fileMutex`. -/
def fileMutex : AsyncMutex :=
  ⟨false, []⟩

/-- The method `acquire`, called by `caller`: the new state, and whether the
promise is resolved at once. -/
def AsyncMutex.acquire (m : AsyncMutex) (caller : Nat) : AsyncMutex × Bool :=
  if !m.isLocked then ({ m with isLocked := true }, true)
  else ({ m with queue := m.queue ++ [caller] }, false)

/-- The method `release`: the new state, and the waiting caller whose promise
it resolves, if there is one. -/
def AsyncMutex.release (m : AsyncMutex) : AsyncMutex × Option Nat :=
  match m.queue with
  | next :: rest => ({ m with queue := rest }, some next)
  | [] => ({ m with isLocked := false }, none)

/-- A call to the gate. -/
inductive GateEvent where
  /-- A call of `acquire` by `caller`. -/
  | acquire (caller : Nat)
  /-- A call of `release`. -/
  | release
  deriving DecidableEq, Repr

/-- The gate with a record of its use: the callers of `acquire` in the order
of their calls, the callers whose promise was resolved in the order in which
that happened, and the number of `release` calls. -/
structure GateLog where
  gate : AsyncMutex
  arrivals : List Nat
  grants : List Nat
  releases : Nat
  deriving DecidableEq, Repr

/-- The unused gate. -/
def GateLog.start : GateLog :=
  ⟨fileMutex, [], [], 0⟩

/-- One call to the gate. -/
def GateLog.step (g : GateLog) : GateEvent → GateLog
  | .acquire caller =>
    match g.gate.acquire caller with
    | (m, true) => ⟨m, g.arrivals ++ [caller], g.grants ++ [caller], g.releases⟩
    | (m, false) => ⟨m, g.arrivals ++ [caller], g.grants, g.releases⟩
  | .release =>
    match g.gate.release with
    | (m, some next) => ⟨m, g.arrivals, g.grants ++ [next], g.releases + 1⟩
    | (m, none) => ⟨m, g.arrivals, g.grants, g.releases + 1⟩

/-- A sequence of calls to the gate. -/
def GateLog.run (g : GateLog) (events : List GateEvent) : GateLog :=
  events.foldl GateLog.step g

/-- The number of holders: callers whose `acquire` has resolved and who have
not called `release` yet. -/
def GateLog.holders (g : GateLog) : Nat :=
  g.grants.length - g.releases

/-- The calls follow the discipline of `withFileLock`: `release` is called
only by a holder. -/
def GateLog.disciplined : GateLog → List GateEvent → Bool
  | _, [] => true
  | g, .acquire caller :: events => disciplined (g.step (.acquire caller)) events
  | g, .release :: events => decide (0 < g.holders) && disciplined (g.step .release) events

/-- The `try` and `finally` of `withFileLock`, run by a caller once its
`acquire` has resolved: the operation runs, then `release` is called whether
the operation returned or threw, and the outcome of the operation is the
outcome of the call. The callers `during` call `acquire` while the operation
runs. -/
def lockedSection {α : Type} (operation : World → Outcome α) (during : List Nat)
    (g : GateLog) (w : World) : Outcome α × GateLog :=
  (operation w, ((g.run (during.map GateEvent.acquire)).step .release))

/-- The function `withFileLock`, called by `caller`: when `acquire` resolves
at once the locked section runs, otherwise the caller waits in the queue
(`none`) until a `release` resolves its promise. -/
def withFileLock {α : Type} (operation : World → Outcome α) (caller : Nat)
    (during : List Nat) (g : GateLog) (w : World) : Option (Outcome α) × GateLog :=
  match g.gate.acquire caller with
  | (_, true) =>
    match lockedSection operation during (g.step (.acquire caller)) w with
    | (r, g1) => (some r, g1)
  | (_, false) => (none, g.step (.acquire caller))

/-! ## Calls in flight at the same time -/

/-- What happens while several calls to the store are in flight. -/
inductive SysEvent where
  /-- The call of `caller` enters `withFileLock`, which calls `acquire`. -/
  | arrive (caller : Nat)
  /-- The operation of the caller that runs completes and the `finally` of its
  `withFileLock` calls `release`. -/
  | finish
  deriving DecidableEq, Repr

/-- The store with calls in flight: the gate; the caller whose operation runs,
between the moment its `acquire` resolved and its `release`; the state of the
files, `none` from the moment at which a second operation starts while one
runs, a case of which nothing is said here; the calls that are complete, in
the order of their completion, each with what it returned; and the callers in
the order in which they called `acquire`. -/
structure Sys (α : Type) where
  gate : AsyncMutex
  running : Option Nat
  world : Option World
  finished : List (Nat × Except JsError α)
  arrived : List Nat

/-- The store before any call. -/
def Sys.start {α : Type} (w : World) : Sys α :=
  ⟨fileMutex, none, some w, [], []⟩

/-- One event; `ops caller` is the operation that `caller` passes to
`withFileLock`. -/
def Sys.step {α : Type} (ops : Nat → World → Outcome α) (s : Sys α) : SysEvent → Sys α
  | .arrive caller =>
    match s.gate.acquire caller with
    | (m, true) =>
      { s with
        gate := m
        arrived := s.arrived ++ [caller]
        running := some caller
        world := match s.running with
          | none => s.world
          | some _ => none }
    | (m, false) => { s with gate := m, arrived := s.arrived ++ [caller] }
  | .finish =>
    match s.running, s.world with
    | some caller, some w =>
      { s with
        gate := s.gate.release.1
        running := s.gate.release.2
        world := some (ops caller w).2
        finished := s.finished ++ [(caller, (ops caller w).1)] }
    | some _, none =>
      { s with gate := s.gate.release.1, running := s.gate.release.2 }
    | none, _ => s

/-- A sequence of events. -/
def Sys.run {α : Type} (ops : Nat → World → Outcome α) (s : Sys α)
    (events : List SysEvent) : Sys α :=
  events.foldl (Sys.step ops) s

/-- The operations of the callers run one at a time, in the order given:
what each returned, and the state at the end. -/
def seqRun {α : Type} (ops : Nat → World → Outcome α) :
    List Nat → World → List (Nat × Except JsError α) × World
  | [], w => ([], w)
  | caller :: rest, w =>
    ((caller, (ops caller w).1) :: (seqRun ops rest (ops caller w).2).1,
      (seqRun ops rest (ops caller w).2).2)

/-- What holds of the store with calls in flight, whatever has happened: the
files are in the state that the operations of the complete calls, run one at
a time in the order of their completion, leave; the complete calls returned
what they return in such a run; the complete calls, the running one and the
waiting ones are the callers in the order of their arrival; the gate is held
exactly while an operation runs. -/
def SysInv {α : Type} (ops : Nat → World → Outcome α) (w : World) (s : Sys α) : Prop :=
  s.world = some (seqRun ops (s.finished.map Prod.fst) w).2 ∧
  s.finished = (seqRun ops (s.finished.map Prod.fst) w).1 ∧
  s.finished.map Prod.fst ++ s.running.toList ++ s.gate.queue = s.arrived ∧
  s.gate.isLocked = s.running.isSome ∧
  (s.gate.queue ≠ [] → s.gate.isLocked = true)

/-- The operation of caller `caller` when each caller updates the record `id`
with a patch that carries only `completed`, caller `i` the value `v i`. -/
def setCompleted (id : Int) (v : Nat → JsVal) (caller : Nat) :
    World → Outcome (Option Task) :=
  update id ⟨none, some (v caller)⟩

/-- The store after the given events when it starts in `w` and each caller
updates `completed` of the record `id`. -/
def served (id : Int) (v : Nat → JsVal) (w : World) (events : List SysEvent) :
    Sys (Option Task) :=
  (Sys.start w).run (setCompleted id v) events

/-- The callers whose calls arrive during the events, in the order of their
arrival. -/
def callersOf : List SysEvent → List Nat
  | [] => []
  | .arrive caller :: events => caller :: callersOf events
  | .finish :: events => callersOf events

/-- The number of calls that complete during the events when `pending` calls
are in flight (running or waiting) before them: a `finish` is the completion
of a call when a call is in flight, and no event of the store otherwise. -/
def completions : Nat → List SysEvent → Nat
  | _, [] => 0
  | pending, .arrive _ :: events => completions (pending + 1) events
  | 0, .finish :: events => completions 0 events
  | pending + 1, .finish :: events => completions pending events + 1

/-! ## The handler that lists records (`src/server/index.js`) -/

/-- Status and payload of a response of `GET /api/todos`. -/
structure ListResponse where
  status : Nat
  tasks : Option (List Task)
  deriving DecidableEq, Repr

/-- The test `e.message && e.message.includes('JSON')`. The messages of
`JSON.parse` all hold the word; the message of a rejected file call is given
by the platform and may end in the path of the file: `fsText` tells whether
it holds `JSON`. -/
def mentionsJSON (fsText : Bool) : JsError → Bool
  | .fsError => fsText
  | .parseError => true
  | .typeError => false
  | .emptyFile => false
  | .invalidStructure => false
  | .tempValidation => false

/-- The handler `app.get('/api/todos', ...)` from the moment the call
`todoStore.getAll()` has settled with the outcome `r`: the answer on a
returned list, and the `catch` with its own write of the primary file. -/
def getTodosAfter (fsText : Bool) (r : Outcome (List Task)) : ListResponse × World :=
  match r with
  | (.ok tasks, w1) => (⟨200, some tasks⟩, w1)
  | (.error e, w1) =>
    if mentionsJSON fsText e then
      match writeFile .data (stringify []) w1 with
      | (.ok _, w2) => (⟨200, some []⟩, w2)
      | (.error _, w2) => (⟨500, none⟩, w2)
    else (⟨500, none⟩, w1)

/-- The handler `app.get('/api/todos', ...)`. -/
def getTodos (fsText : Bool) (w : World) : ListResponse × World :=
  getTodosAfter fsText (getAll w)

/-! ## Sample states -/

/-- A clock that advances by one millisecond between two readings. -/
def tickingClock : Nat → Time :=
  fun n => 1700000000000 + n

/-- A state whose primary file holds the given collection, with no backup, no
scheduled failure and a ticking clock. -/
def worldOf (c : List Task) : World :=
  ⟨⟨some (stringify c), none, none⟩, [], tickingClock, 0⟩

/-- A record with id 1. -/
def milk : Task :=
  ⟨1, "Buy milk", false, 1600000000000, 1600000000000⟩

/-- A record with id 4. -/
def bread : Task :=
  ⟨4, "Buy bread", true, 1600000000500, 1600000000900⟩

/-- A record whose id is 2 ^ 53, the first number whose successor is not a
JavaScript number. -/
def farTask : Task :=
  ⟨9007199254740992, "Pay rent", false, 1600000001000, 1600000001000⟩

/-- A state whose primary file has the given text while the backup holds the
record `milk`, with no scheduled failure. -/
def damagedWorld (raw : Raw) : World :=
  ⟨⟨some raw, some (stringify [milk]), none⟩, [], tickingClock, 0⟩

/-- A state whose primary file and backup both hold the given collection and
in which some of the coming file calls fail: the read of the first load
attempt, so that the primary file is restored from the backup, and calls of
the first two save attempts. -/
def failingWorld (c : List Task) : World :=
  ⟨⟨some (stringify c), some (stringify c), none⟩,
    [false, false, true, false, false, false, false, false, false, false, false, false, true,
      true, true, true, true, true],
    tickingClock, 0⟩

/-- A state with no primary file in which the directory cannot be written:
the first two file calls go their way, the third one, the write of the fresh
primary file, is rejected. -/
def unwritableWorld : World :=
  ⟨⟨none, none, none⟩, [false, false, true], tickingClock, 0⟩

/-- A state whose primary file holds the record `milk` and in which, after
the two calls of `ensureFile`, every file call of the load is rejected: the
three reads, the two looks at the backup and the write that resets the file. -/
def unreadableWorld : World :=
  ⟨⟨some (stringify [milk]), none, none⟩,
    [false, false, true, true, true, true, true, true], tickingClock, 0⟩

/-- A state whose primary file holds the record `milk` and in which the
rename of the first save attempt and the removal of the temporary file after
it are rejected. -/
def stickyTmpWorld : World :=
  ⟨⟨some (stringify [milk]), none, none⟩,
    [false, false, false, false, false, false, false, true, true], tickingClock, 0⟩

/-- A state whose primary file holds the record `milk` and in which each of
the next thirty file calls is rejected. -/
def brokenDiskWorld : World :=
  ⟨⟨some (stringify [milk]), none, none⟩, List.replicate 30 true, tickingClock, 0⟩

/-- The values of `completed` that the five requests of `rapid-test.js` send:
`true, false, true, false, true`. -/
def toggleStates : Nat → JsVal :=
  fun i => .bool (i % 2 == 0)

/-- Five requests in flight together: three arrive before the first
completes, the other two while the queue is served. -/
def rapidClicks : List SysEvent :=
  [.arrive 0, .arrive 1, .arrive 2, .finish, .arrive 3, .finish, .arrive 4, .finish,
    .finish, .finish]

/-! ## Runs without injected failures -/

theorem mathMax_mem (x : Int) (xs : List Int) : mathMax x xs ∈ x :: xs := by
  induction xs generalizing x with
  | nil => simp [mathMax]
  | cons y ys ih =>
    have h := ih (max x y)
    simp only [mathMax, List.foldl_cons] at h ⊢
    rcases List.mem_cons.1 h with h1 | h1
    · rw [h1]
      rcases max_choice x y with h2 | h2 <;> simp [h2]
    · simp [h1]

theorem le_mathMax (x : Int) (xs : List Int) : ∀ y ∈ x :: xs, y ≤ mathMax x xs := by
  induction xs generalizing x with
  | nil => simp [mathMax]
  | cons z zs ih =>
    intro y hy
    have h := ih (max x z)
    simp only [mathMax, List.foldl_cons] at h ⊢
    rcases List.mem_cons.1 hy with h1 | h1
    · exact le_trans (h1 ▸ le_max_left x z) (h _ (List.mem_cons_self _ _))
    · rcases List.mem_cons.1 h1 with h2 | h2
      · exact le_trans (h2 ▸ le_max_right x z) (h _ (List.mem_cons_self _ _))
      · exact h _ (List.mem_cons_of_mem _ h2)

theorem jsAddOne_exact (x : Int) (h1 : -twoPow53 ≤ x) (h2 : x < twoPow53) :
    jsAddOne x = x + 1 := by
  unfold jsAddOne
  rw [if_pos ⟨h1, h2⟩]

theorem nextId_max (c : List Task) (hc : c ≠ []) :
    ∃ t ∈ c, nextId c = jsAddOne t.id ∧ ∀ u ∈ c, u.id ≤ t.id := by
  cases c with
  | nil => exact absurd rfl hc
  | cons a as =>
    have hm := mathMax_mem a.id (as.map (fun t => t.id))
    have hle := le_mathMax a.id (as.map (fun t => t.id))
    have hm2 : mathMax a.id (as.map (fun t => t.id)) ∈ (a :: as).map (fun t => t.id) := by
      simpa using hm
    obtain ⟨t, ht, hid⟩ := List.mem_map.1 hm2
    refine ⟨t, ht, ?_, ?_⟩
    · simp only [nextId, List.map_cons]
      rw [← hid]
    · intro u hu
      rw [hid]
      apply hle
      have : u.id ∈ (a :: as).map (fun t => t.id) := List.mem_map.2 ⟨u, hu, rfl⟩
      simpa using this

theorem nextId_spec (c : List Task) (hc : c ≠ [])
    (hb : ∀ t ∈ c, -twoPow53 ≤ t.id ∧ t.id < twoPow53) :
    ∃ t ∈ c, nextId c = 1 + t.id ∧ ∀ u ∈ c, u.id ≤ t.id := by
  obtain ⟨t, ht, h1, h2⟩ := nextId_max c hc
  refine ⟨t, ht, ?_, h2⟩
  rw [h1, jsAddOne_exact t.id (hb t ht).1 (hb t ht).2]
  ring

theorem nextId_gt (c : List Task) (hb : ∀ t ∈ c, -twoPow53 ≤ t.id ∧ t.id < twoPow53) :
    ∀ u ∈ c, u.id < nextId c := by
  intro u hu
  have hc : c ≠ [] := List.ne_nil_of_mem hu
  obtain ⟨t, _, h1, h2⟩ := nextId_spec c hc hb
  have := h2 u hu
  omega

theorem room_le (j k : Nat) (l : List Task) (hjk : j ≤ k) (h : Room k l) : Room j l := by
  obtain ⟨h1, h2⟩ := h
  refine ⟨by omega, fun t ht => ⟨(h2 t ht).1, ?_⟩⟩
  have := (h2 t ht).2
  omega

theorem room_exact (k : Nat) (l : List Task) (h : Room (k + 1) l) :
    ∀ t ∈ l, -twoPow53 ≤ t.id ∧ t.id < twoPow53 := by
  intro t ht
  have := (h.2 t ht).2
  refine ⟨(h.2 t ht).1, ?_⟩
  push_cast at this
  omega

theorem room_push (k : Nat) (l : List Task) (t : Task) (h : Room (k + 1) l)
    (ht : t.id = nextId l) : Room k (l ++ [t]) := by
  have hk : ((k + 1 : Nat) : Int) ≤ twoPow53 := h.1
  push_cast at hk
  refine ⟨by omega, ?_⟩
  intro u hu
  rcases List.mem_append.1 hu with hu | hu
  · exact (room_le k (k + 1) l (Nat.le_succ k) h).2 u hu
  · rw [List.mem_singleton] at hu
    subst hu
    rw [ht]
    cases l with
    | nil =>
      have h1 : nextId [] = 1 := rfl
      rw [h1]
      unfold twoPow53 at hk ⊢
      omega
    | cons a as =>
      obtain ⟨m, hm, h1, _⟩ := nextId_spec (a :: as) (List.cons_ne_nil _ _) (room_exact k _ h)
      have h2 := h.2 m hm
      rw [h1]
      push_cast at h2
      omega

theorem room_set (k : Nat) (l : List Task) (i : Nat) (prev r : Task)
    (hp : l[i]? = some prev) (hr : r.id = prev.id) (h : Room k l) : Room k (l.set i r) := by
  refine ⟨h.1, ?_⟩
  intro t ht
  rcases List.mem_or_eq_of_mem_set ht with ht | ht
  · exact h.2 t ht
  · rw [ht, hr]
    exact h.2 prev (List.getElem?_mem hp)

theorem room_eraseIdx (k : Nat) (l : List Task) (i : Nat) (h : Room k l) :
    Room k (l.eraseIdx i) :=
  ⟨h.1, fun t ht => h.2 t (List.mem_of_mem_eraseIdx ht)⟩

theorem room_nil (k : Nat) (hk : (k : Int) ≤ twoPow53) : Room k [] :=
  ⟨hk, fun t ht => by cases ht⟩

theorem load_quiet (w : World) (hq : w.faults = []) :
    _loadInternal w = (.ok (persisted w), loaded w) := by
  obtain ⟨⟨d, b, t⟩, faults, clock, reads⟩ := w
  simp only at hq
  subst hq
  rcases d with _ | _ | _ | _ | _ | c <;> rfl

theorem loaded_valid (w : World) (c : List Task)
    (hd : w.files.data = some (.json (.tasks c))) : loaded w = w := by
  obtain ⟨⟨d, b, t⟩, faults, clock, reads⟩ := w
  simp only at hd
  subst hd
  rfl

theorem save_quiet (ts : List Task) (w : World) (d : JData) (hq : w.faults = [])
    (hd : w.files.data = some (.json d)) :
    _saveInternal ts w = (.ok (), saved ts w) := by
  obtain ⟨⟨d, b, t⟩, faults, clock, reads⟩ := w
  simp only at hq hd
  subst hq hd
  rfl

theorem create_quiet (task : NewTask) (w : World) (hq : w.faults = []) :
    create task w =
      (.ok ⟨nextId (persisted w), newTitle task, false, w.clock w.reads, w.clock (w.reads + 1)⟩,
        saved (persisted w ++
          [⟨nextId (persisted w), newTitle task, false, w.clock w.reads, w.clock (w.reads + 1)⟩])
          { loaded w with reads := w.reads + 2 }) := by
  unfold create
  rw [load_quiet w hq]
  simp only [now]
  rw [save_quiet _ _ (.tasks (persisted w)) (by simpa [loaded] using hq) (by simp [loaded, stringify])]
  rfl


theorem update_quiet (id : Int) (updates : Patch) (w : World) (hq : w.faults = []) :
    update id updates w =
      match findIndex (fun t => t.id == id) (persisted w) with
      | none => (.ok none, loaded w)
      | some idx =>
        match (persisted w)[idx]? with
        | none => (.ok none, loaded w)
        | some prev =>
          (.ok (some (applyPatch prev updates (w.clock w.reads))),
            saved ((persisted w).set idx (applyPatch prev updates (w.clock w.reads)))
              { loaded w with reads := w.reads + 1 }) := by
  unfold update
  rw [load_quiet w hq]
  simp only [now]
  cases findIndex (fun t => t.id == id) (persisted w) with
  | none => rfl
  | some idx =>
    simp only
    cases (persisted w)[idx]? with
    | none => rfl
    | some prev =>
      simp only
      rw [save_quiet _ _ (.tasks (persisted w)) (by simpa [loaded] using hq)
        (by simp [loaded, stringify])]
      rfl

theorem remove_quiet (id : Int) (w : World) (hq : w.faults = []) :
    remove id w =
      match findIndex (fun t => t.id == id) (persisted w) with
      | none => (.ok false, loaded w)
      | some idx => (.ok true, saved ((persisted w).eraseIdx idx) (loaded w)) := by
  unfold remove
  rw [load_quiet w hq]
  simp only
  cases findIndex (fun t => t.id == id) (persisted w) with
  | none => rfl
  | some idx =>
    simp only
    rw [save_quiet _ _ (.tasks (persisted w)) (by simpa [loaded] using hq)
      (by simp [loaded, stringify])]

theorem findIndex_none (p : Task → Bool) (c : List Task) (h : ∀ t ∈ c, p t = false) :
    findIndex p c = none := by
  induction c with
  | nil => rfl
  | cons a as ih =>
    simp only [findIndex, h a (List.mem_cons_self _ _), Bool.false_eq_true, if_false,
      ih (fun t ht => h t (List.mem_cons_of_mem _ ht)), Option.map_none']

theorem findIndex_first (p : Task → Bool) (l1 l2 : List Task) (t : Task)
    (h1 : ∀ x ∈ l1, p x = false) (ht : p t = true) :
    findIndex p (l1 ++ t :: l2) = some l1.length := by
  induction l1 with
  | nil => simp [findIndex, ht]
  | cons a as ih =>
    have h2 := ih (fun x hx => h1 x (List.mem_cons_of_mem _ hx))
    have h3 : findIndex p (a :: (as ++ t :: l2)) = some (as.length + 1) := by
      simp only [findIndex, h1 a (List.mem_cons_self _ _), Bool.false_eq_true, if_false, h2,
        Option.map_some']
    simpa using h3

theorem findIndex_some (p : Task → Bool) (c : List Task) (i : Nat)
    (h : findIndex p c = some i) :
    ∃ l1 t l2, c = l1 ++ t :: l2 ∧ l1.length = i ∧ p t = true ∧ ∀ x ∈ l1, p x = false := by
  induction c generalizing i with
  | nil => simp [findIndex] at h
  | cons a as ih =>
    by_cases ha : p a = true
    · simp only [findIndex, ha, if_true, Option.some.injEq] at h
      exact ⟨[], a, as, rfl, by simpa using h, ha, by simp⟩
    · simp only [findIndex, ha, Bool.false_eq_true, if_false] at h
      cases hf : findIndex p as with
      | none => simp [hf] at h
      | some j =>
        simp only [hf, Option.map_some', Option.some.injEq] at h
        obtain ⟨l1, t, l2, hc, hl, ht, hx⟩ := ih j hf
        refine ⟨a :: l1, t, l2, by simp [hc], by simp [hl, h], ht, ?_⟩
        intro x hx2
        rcases List.mem_cons.1 hx2 with h3 | h3
        · subst h3
          simpa using ha
        · exact hx x h3


@[simp] theorem persisted_saved (ts : List Task) (w : World) : persisted (saved ts w) = ts := rfl

@[simp] theorem faults_saved (ts : List Task) (w : World) : (saved ts w).faults = w.faults := rfl

@[simp] theorem faults_loaded (w : World) : (loaded w).faults = w.faults := rfl

@[simp] theorem persisted_loaded (w : World) : persisted (loaded w) = persisted w := rfl

theorem persisted_of_data (w : World) (c : List Task)
    (hd : w.files.data = some (.json (.tasks c))) : persisted w = c := by
  simp [persisted, hd]

theorem load_scheduled (w : World) (c : List Task)
    (hf : ∀ b ∈ w.faults.take 3, b = false)
    (hd : w.files.data = some (.json (.tasks c))) :
    _loadInternal w = (.ok c, { w with faults := w.faults.drop 3 }) := by
  obtain ⟨⟨d, b, t⟩, faults, clock, reads⟩ := w
  simp only at hf hd
  subst hd
  rcases faults with _ | ⟨b1, _ | ⟨b2, _ | ⟨b3, rest⟩⟩⟩
  · rfl
  · obtain rfl : b1 = false := hf b1 (by simp)
    rfl
  · obtain rfl : b1 = false := hf b1 (by simp)
    obtain rfl : b2 = false := hf b2 (by simp)
    rfl
  · obtain rfl : b1 = false := hf b1 (by simp)
    obtain rfl : b2 = false := hf b2 (by simp)
    obtain rfl : b3 = false := hf b3 (by simp)
    rfl

theorem ids_set (l : List Task) (i : Nat) (prev r : Task) (h : l[i]? = some prev)
    (hr : r.id = prev.id) : ids (l.set i r) = ids l := by
  induction l generalizing i with
  | nil => rfl
  | cons a as ih =>
    cases i with
    | zero =>
      simp only [List.getElem?_cons_zero, Option.some.injEq] at h
      subst h
      simp [ids, hr]
    | succ j =>
      simp only [List.getElem?_cons_succ] at h
      have := ih j h
      simp only [ids, List.set_cons_succ, List.map_cons, List.cons.injEq, true_and] at this ⊢
      exact this

theorem applyPatch_id (prev : Task) (updates : Patch) (t : Time) :
    (applyPatch prev updates t).id = prev.id := rfl

theorem op_run_quiet (op : Op) (w : World) (hq : w.faults = []) :
    (op.run w).faults = [] ∧
      (Room (creates [op]) (persisted w) →
        (ids (persisted w)).Nodup → (ids (persisted (op.run w))).Nodup) := by
  cases op with
  | create task =>
    simp only [Op.run, create_quiet task w hq, faults_saved, persisted_saved]
    refine ⟨by simpa [loaded] using hq, ?_⟩
    intro hr h
    simp only [ids, List.map_append, List.map_cons, List.map_nil]
    rw [List.nodup_append]
    refine ⟨h, List.nodup_singleton _, ?_⟩
    intro x hx hx2
    obtain ⟨u, hu, rfl⟩ := List.mem_map.1 hx
    have := nextId_gt (persisted w) (room_exact 0 _ hr) u hu
    simp only [List.mem_singleton] at hx2
    omega
  | update id updates =>
    simp only [Op.run, update_quiet id updates w hq]
    cases hfi : findIndex (fun t => t.id == id) (persisted w) with
    | none => exact ⟨by simpa using hq, by simp⟩
    | some idx =>
      simp only
      cases hg : (persisted w)[idx]? with
      | none => exact ⟨by simpa using hq, by simp⟩
      | some prev =>
        simp only [faults_saved, persisted_saved]
        refine ⟨by simpa [loaded] using hq, ?_⟩
        intro _ h
        rw [ids_set _ _ prev _ hg (applyPatch_id _ _ _)]
        exact h
  | remove id =>
    simp only [Op.run, remove_quiet id w hq]
    cases hfi : findIndex (fun t => t.id == id) (persisted w) with
    | none => exact ⟨by simpa using hq, by simp⟩
    | some idx =>
      simp only [faults_saved, persisted_saved, faults_loaded]
      refine ⟨hq, ?_⟩
      intro _ h
      exact List.Nodup.sublist (List.Sublist.map _ (List.eraseIdx_sublist _ _)) h

theorem op_run_room (op : Op) (w : World) (hq : w.faults = []) (k : Nat)
    (hr : Room (creates [op] + k) (persisted w)) : Room k (persisted (op.run w)) := by
  cases op with
  | create task =>
    simp only [Op.run, create_quiet task w hq, persisted_saved]
    have hr2 : Room (k + 1) (persisted w) := by
      have he : creates [Op.create task] + k = k + 1 := by simp [creates, Nat.add_comm]
      rw [he] at hr
      exact hr
    exact room_push k _ _ hr2 rfl
  | update id updates =>
    have hr2 : Room k (persisted w) := by
      have he : creates [Op.update id updates] + k = k := by simp [creates]
      rw [he] at hr
      exact hr
    simp only [Op.run, update_quiet id updates w hq]
    cases hfi : findIndex (fun t => t.id == id) (persisted w) with
    | none => exact hr2
    | some idx =>
      simp only
      cases hg : (persisted w)[idx]? with
      | none => exact hr2
      | some prev =>
        simp only [persisted_saved]
        exact room_set k _ idx prev _ hg (applyPatch_id _ _ _) hr2
  | remove id =>
    have hr2 : Room k (persisted w) := by
      have he : creates [Op.remove id] + k = k := by simp [creates]
      rw [he] at hr
      exact hr
    simp only [Op.run, remove_quiet id w hq]
    cases hfi : findIndex (fun t => t.id == id) (persisted w) with
    | none => exact hr2
    | some idx =>
      simp only [persisted_saved]
      exact room_eraseIdx k _ idx hr2

theorem creates_cons (op : Op) (ops : List Op) :
    creates (op :: ops) = creates [op] + creates ops := by
  cases op <;> simp [creates, Nat.add_comm]

theorem runOps_room (ops : List Op) (w : World) (hq : w.faults = []) (k : Nat)
    (hr : Room (creates ops + k) (persisted w)) : Room k (persisted (runOps ops w)) := by
  induction ops generalizing w with
  | nil =>
    have he : creates [] + k = k := by simp [creates]
    rw [he] at hr
    exact hr
  | cons op ops ih =>
    have h := op_run_quiet op w hq
    apply ih (op.run w) h.1
    apply op_run_room op w hq
    rw [creates_cons, Nat.add_assoc] at hr
    exact hr


/-! ## Runs under any schedule of failures -/

theorem access_cases (p : Path) (w : World) :
    (∃ w', access p w = (.error .fsError, w') ∧ w'.files = w.files) ∨
      ∃ w', access p w = (.ok (), w') ∧ w'.files = w.files := by
  unfold access World.nextFault
  cases w.faults.headD false
  · cases h : w.files.get p with
    | none => exact Or.inl ⟨{ w with faults := w.faults.tail }, by simp only [h], rfl⟩
    | some raw => exact Or.inr ⟨{ w with faults := w.faults.tail }, by simp only [h], rfl⟩
  · exact Or.inl ⟨_, rfl, rfl⟩

theorem mkdir_cases (w : World) :
    (∃ w', mkdir w = (.error .fsError, w') ∧ w'.files = w.files) ∨
      ∃ w', mkdir w = (.ok (), w') ∧ w'.files = w.files := by
  unfold mkdir World.nextFault
  cases w.faults.headD false
  · exact Or.inr ⟨_, rfl, rfl⟩
  · exact Or.inl ⟨_, rfl, rfl⟩

theorem readFile_cases (p : Path) (w : World) :
    (∃ w', readFile p w = (.error .fsError, w') ∧ w'.files = w.files) ∨
      ∃ raw w', readFile p w = (.ok raw, w') ∧ w'.files = w.files ∧
        w.files.get p = some raw := by
  unfold readFile World.nextFault
  cases w.faults.headD false
  · cases h : w.files.get p with
    | none => exact Or.inl ⟨{ w with faults := w.faults.tail }, by simp only [h], rfl⟩
    | some raw => exact Or.inr ⟨raw, { w with faults := w.faults.tail }, by simp only [h], rfl, rfl⟩
  · exact Or.inl ⟨_, rfl, rfl⟩

theorem writeFile_cases (p : Path) (raw : Raw) (w : World) :
    (∃ w', writeFile p raw w = (.error .fsError, w') ∧ w'.files = w.files) ∨
      ∃ w', writeFile p raw w = (.ok (), w') ∧ w'.files = w.files.set p (some raw) := by
  unfold writeFile World.nextFault
  cases w.faults.headD false
  · exact Or.inr ⟨_, rfl, rfl⟩
  · exact Or.inl ⟨_, rfl, rfl⟩

theorem copyFile_cases (src dst : Path) (w : World) :
    (∃ w', copyFile src dst w = (.error .fsError, w') ∧ w'.files = w.files) ∨
      ∃ raw w', copyFile src dst w = (.ok (), w') ∧ w.files.get src = some raw ∧
        w'.files = w.files.set dst (some raw) := by
  unfold copyFile World.nextFault
  cases w.faults.headD false
  · cases h : w.files.get src with
    | none => exact Or.inl ⟨{ w with faults := w.faults.tail }, by simp only [h], rfl⟩
    | some raw =>
      exact Or.inr ⟨raw, { w with faults := w.faults.tail, files := w.files.set dst (some raw) },
        by simp only [h], rfl, rfl⟩
  · exact Or.inl ⟨_, rfl, rfl⟩

theorem unlink_cases (p : Path) (w : World) :
    (∃ w', unlink p w = (.error .fsError, w') ∧ w'.files = w.files) ∨
      ∃ w', unlink p w = (.ok (), w') ∧ w'.files = w.files.set p none := by
  unfold unlink World.nextFault
  cases w.faults.headD false
  · cases h : w.files.get p with
    | none => exact Or.inl ⟨{ w with faults := w.faults.tail }, by simp only [h], rfl⟩
    | some raw =>
      exact Or.inr ⟨{ w with faults := w.faults.tail, files := w.files.set p none },
        by simp only [h], rfl⟩
  · exact Or.inl ⟨_, rfl, rfl⟩

theorem rename_cases (src dst : Path) (w : World) :
    (∃ w', rename src dst w = (.error .fsError, w') ∧ w'.files = w.files) ∨
      ∃ raw w', rename src dst w = (.ok (), w') ∧ w.files.get src = some raw ∧
        w'.files = (w.files.set dst (some raw)).set src none := by
  unfold rename World.nextFault
  cases w.faults.headD false
  · cases h : w.files.get src with
    | none => exact Or.inl ⟨{ w with faults := w.faults.tail }, by simp only [h], rfl⟩
    | some raw =>
      exact Or.inr ⟨raw,
        { w with faults := w.faults.tail, files := (w.files.set dst (some raw)).set src none },
        by simp only [h], rfl, rfl⟩
  · exact Or.inl ⟨_, rfl, rfl⟩

theorem contentSat_none (P : List Task → Prop) : ContentSat P none := by
  intro l h
  cases h

theorem contentSat_stringify (P : List Task → Prop) (ts : List Task) (h : P ts) :
    ContentSat P (some (stringify ts)) := by
  intro l hl
  simp only [stringify, Option.some.injEq, Raw.json.injEq, JData.tasks.injEq] at hl
  exact hl ▸ h

theorem inv3_get (P : List Task → Prop) (f : Files) (p : Path) (h : Inv3 P f) :
    ContentSat P (f.get p) := by
  cases p
  · exact h.1
  · exact h.2.1
  · exact h.2.2

theorem inv3_set (P : List Task → Prop) (f : Files) (p : Path) (c : Option Raw)
    (h : Inv3 P f) (hc : ContentSat P c) : Inv3 P (f.set p c) := by
  cases p
  · exact ⟨hc, h.2.1, h.2.2⟩
  · exact ⟨h.1, hc, h.2.2⟩
  · exact ⟨h.1, h.2.1, hc⟩

theorem inv2_of_inv3 (P : List Task → Prop) (f : Files) (h : Inv3 P f) : Inv2 P f :=
  ⟨h.1, h.2.1⟩

theorem inv2_set_tmp (P : List Task → Prop) (f : Files) (c : Option Raw) (h : Inv2 P f) :
    Inv2 P (f.set .tmp c) := h

theorem inv3_set_tmp (P : List Task → Prop) (f : Files) (c : Option Raw) (h : Inv2 P f)
    (hc : ContentSat P c) : Inv3 P (f.set .tmp c) :=
  ⟨h.1, h.2, hc⟩

theorem inv2_set_data (P : List Task → Prop) (f : Files) (c : Option Raw) (h : Inv2 P f)
    (hc : ContentSat P c) : Inv2 P (f.set .data c) :=
  ⟨hc, h.2⟩

theorem inv2_set_backup (P : List Task → Prop) (f : Files) (c : Option Raw) (h : Inv2 P f)
    (hc : ContentSat P c) : Inv2 P (f.set .backup c) :=
  ⟨h.1, hc⟩

theorem restoreFromBackup_inv2 (P : List Task → Prop) (w : World) (h : Inv2 P w.files) :
    Inv2 P (restoreFromBackup w).2.files := by
  unfold restoreFromBackup
  rcases access_cases .backup w with ⟨w1, e1, f1⟩ | ⟨w1, e1, f1⟩ <;> rw [e1] <;> simp only
  · rw [f1]; exact h
  rcases readFile_cases .backup w1 with ⟨w2, e2, f2⟩ | ⟨raw, w2, e2, f2, g2⟩ <;> rw [e2] <;>
    simp only
  · rw [f2, f1]; exact h
  have h2 : Inv2 P w2.files := by rw [f2, f1]; exact h
  split
  · exact h2
  split
  · exact h2
  split
  · rcases copyFile_cases .backup .data w2 with ⟨w3, e3, f3⟩ | ⟨r3, w3, e3, g3, f3⟩ <;>
      rw [e3] <;> simp only
    · rw [f3]; exact h2
    · rw [f3]
      exact inv2_set_data P _ _ h2 (g3 ▸ h2.2)
  · exact h2


theorem ensureFileCheck_files (w : World) : (ensureFileCheck w).2.files = w.files := by
  unfold ensureFileCheck
  rcases access_cases .data w with ⟨w1, e1, f1⟩ | ⟨w1, e1, f1⟩ <;> rw [e1] <;> simp only
  · exact f1
  rcases readFile_cases .data w1 with ⟨w2, e2, f2⟩ | ⟨raw, w2, e2, f2, _⟩ <;> rw [e2] <;>
    simp only
  · rw [f2, f1]
  have h2 : w2.files = w.files := by rw [f2, f1]
  split
  · exact h2
  split
  · exact h2
  split <;> exact h2

theorem ensureFile_inv2 (P : List Task → Prop) (hnil : P []) (w : World)
    (h : Inv2 P w.files) : Inv2 P (ensureFile w).2.files := by
  unfold ensureFile
  have hc := ensureFileCheck_files w
  rcases hr : ensureFileCheck w with ⟨_ | _, w1⟩ <;> rw [hr] at hc <;> simp only at hc ⊢
  · rcases mkdir_cases w1 with ⟨w2, e2, f2⟩ | ⟨w2, e2, f2⟩ <;> rw [e2] <;> simp only
    · rw [f2, hc]; exact h
    have h2 : Inv2 P w2.files := by rw [f2, hc]; exact h
    rcases writeFile_cases .data (stringify []) w2 with ⟨w3, e3, f3⟩ | ⟨w3, e3, f3⟩ <;> rw [e3]
    · rw [f3]; exact h2
    · rw [f3]
      exact inv2_set_data P _ _ h2 (contentSat_stringify P [] hnil)
  · rw [hc]; exact h

theorem recover_spec (P : List Task → Prop) (hnil : P []) (attempt : Nat) (w : World)
    (h : Inv2 P w.files) :
    Inv2 P (recover attempt w).2.files ∧
      ∀ ts, (recover attempt w).1 = .ok (some ts) → P ts := by
  unfold recover
  split
  · exact ⟨restoreFromBackup_inv2 P w h, fun ts hts => by cases hts⟩
  · rcases writeFile_cases .data (stringify []) w with ⟨w3, e3, f3⟩ | ⟨w3, e3, f3⟩ <;>
      rw [e3] <;> simp only
    · exact ⟨by rw [f3]; exact h, fun ts hts => by cases hts⟩
    · refine ⟨?_, ?_⟩
      · rw [f3]
        exact inv2_set_data P _ _ h (contentSat_stringify P [] hnil)
      · intro ts hts
        simp only [Except.ok.injEq, Option.some.injEq] at hts
        exact hts ▸ hnil

theorem loadTry_spec (P : List Task → Prop) (hnil : P []) (attempt : Nat) (w : World)
    (h : Inv2 P w.files) :
    Inv2 P (loadTry attempt w).2.files ∧
      ∀ ts, (loadTry attempt w).1 = .ok (some ts) → P ts := by
  unfold loadTry
  rcases readFile_cases .data w with ⟨w1, e1, f1⟩ | ⟨raw, w1, e1, f1, g1⟩ <;> rw [e1] <;>
    simp only
  · exact ⟨by rw [f1]; exact h, fun ts hts => by cases hts⟩
  have h1 : Inv2 P w1.files := by rw [f1]; exact h
  split
  · exact recover_spec P hnil attempt w1 h1
  split
  · exact recover_spec P hnil attempt w1 h1
  · rename_i data hdata
    split
    · rename_i ts
      refine ⟨h1, ?_⟩
      intro ts2 hts2
      simp only [Except.ok.injEq, Option.some.injEq] at hts2
      subst hts2
      apply h.1
      have : raw = .json (.tasks ts) := by
        cases raw <;> simp [jsonParse] at hdata
        exact congrArg Raw.json hdata
      rw [← this]
      exact g1
    · exact recover_spec P hnil attempt w1 h1

theorem loadAttempt_spec (P : List Task → Prop) (hnil : P []) (attempt : Nat) (w : World)
    (h : Inv2 P w.files) :
    Inv2 P (loadAttempt attempt w).2.files ∧
      ∀ ts, (loadAttempt attempt w).1 = .ok (some ts) → P ts := by
  unfold loadAttempt
  have ht := loadTry_spec P hnil attempt w h
  rcases hr : loadTry attempt w with ⟨_ | _, w1⟩ <;> rw [hr] at ht <;> simp only at ht ⊢
  · exact recover_spec P hnil attempt w1 ht.1
  · exact ht

theorem loadLoop_spec (P : List Task → Prop) (hnil : P []) (attempts : List Nat) (w : World)
    (h : Inv2 P w.files) :
    Inv2 P (loadLoop attempts w).2.files ∧ ∀ ts, (loadLoop attempts w).1 = .ok ts → P ts := by
  induction attempts generalizing w with
  | nil =>
    refine ⟨h, ?_⟩
    intro ts hts
    simp only [loadLoop, Except.ok.injEq] at hts
    exact hts ▸ hnil
  | cons attempt rest ih =>
    unfold loadLoop
    have ha := loadAttempt_spec P hnil attempt w h
    rcases hr : loadAttempt attempt w with ⟨_ | _ | ts, w1⟩ <;> rw [hr] at ha <;>
      simp only at ha ⊢
    · exact ⟨ha.1, fun ts hts => by cases hts⟩
    · exact ih w1 ha.1
    · refine ⟨ha.1, ?_⟩
      intro ts2 hts2
      simp only [Except.ok.injEq] at hts2
      exact hts2 ▸ ha.2 ts rfl

theorem loadInternal_spec (P : List Task → Prop) (hnil : P []) (w : World)
    (h : Inv2 P w.files) :
    Inv2 P (_loadInternal w).2.files ∧ ∀ ts, (_loadInternal w).1 = .ok ts → P ts := by
  unfold _loadInternal
  have he := ensureFile_inv2 P hnil w h
  rcases hr : ensureFile w with ⟨_ | _, w1⟩ <;> rw [hr] at he <;> simp only at he ⊢
  · exact ⟨he, fun ts hts => by cases hts⟩
  · exact loadLoop_spec P hnil _ w1 he


theorem createBackup_inv2 (P : List Task → Prop) (w : World) (h : Inv2 P w.files) :
    Inv2 P (createBackup w).files := by
  unfold createBackup
  rcases access_cases .data w with ⟨w1, e1, f1⟩ | ⟨w1, e1, f1⟩ <;> rw [e1] <;> simp only
  · rw [f1]; exact h
  rcases readFile_cases .data w1 with ⟨w2, e2, f2⟩ | ⟨raw, w2, e2, f2, _⟩ <;> rw [e2] <;>
    simp only
  · rw [f2, f1]; exact h
  have h2 : Inv2 P w2.files := by rw [f2, f1]; exact h
  split
  · exact h2
  split
  · exact h2
  · rcases copyFile_cases .data .backup w2 with ⟨w3, e3, f3⟩ | ⟨r3, w3, e3, g3, f3⟩ <;>
      rw [e3] <;> simp only
    · rw [f3]; exact h2
    · rw [f3]
      exact inv2_set_backup P _ _ h2 (g3 ▸ h2.1)

theorem unlinkTarget_inv3 (P : List Task → Prop) (w : World) (h : Inv3 P w.files) :
    Inv3 P (unlinkTarget w).files := by
  unfold unlinkTarget
  rcases access_cases .data w with ⟨w1, e1, f1⟩ | ⟨w1, e1, f1⟩ <;> rw [e1] <;> simp only
  · rw [f1]; exact h
  rcases unlink_cases .data w1 with ⟨w2, e2, f2⟩ | ⟨w2, e2, f2⟩ <;> rw [e2] <;> simp only
  · rw [f2, f1]; exact h
  · rw [f2, f1]
    exact inv3_set P _ _ _ h (contentSat_none P)

theorem saveTry_inv2 (P : List Task → Prop) (tasks : List Task) (hP : P tasks) (w : World)
    (h : Inv2 P w.files) : Inv2 P (saveTry tasks w).2.files := by
  unfold saveTry
  simp only
  have h1 := createBackup_inv2 P w h
  generalize createBackup w = w1 at h1 ⊢
  split
  · exact h1
  rcases writeFile_cases .tmp (stringify tasks) w1 with ⟨w2, e2, f2⟩ | ⟨w2, e2, f2⟩ <;>
    rw [e2] <;> simp only
  · rw [f2]; exact h1
  have h2 : Inv3 P w2.files := by
    rw [f2]
    exact inv3_set_tmp P _ _ h1 (contentSat_stringify P tasks hP)
  rcases readFile_cases .tmp w2 with ⟨w3, e3, f3⟩ | ⟨raw, w3, e3, f3, _⟩ <;> rw [e3] <;>
    simp only
  · rw [f3]; exact inv2_of_inv3 P _ h2
  have h3 : Inv3 P w3.files := by rw [f3]; exact h2
  split
  · exact inv2_of_inv3 P _ h3
  split
  · exact inv2_of_inv3 P _ h3
  · exact inv2_of_inv3 P _ h3
  · have h4 := unlinkTarget_inv3 P w3 h3
    generalize unlinkTarget w3 = w4 at h4 ⊢
    rcases rename_cases .tmp .data w4 with ⟨w5, e5, f5⟩ | ⟨r5, w5, e5, g5, f5⟩ <;>
      rw [e5] <;> simp only
    · rw [f5]; exact inv2_of_inv3 P _ h4
    have h5 : Inv3 P w5.files := by
      rw [f5]
      exact inv3_set P _ _ _ (inv3_set P _ _ _ h4 (g5 ▸ inv3_get P _ .tmp h4))
        (contentSat_none P)
    rcases readFile_cases .data w5 with ⟨w6, e6, f6⟩ | ⟨raw6, w6, e6, f6, _⟩ <;> rw [e6] <;>
      simp only
    · rw [f6]; exact inv2_of_inv3 P _ h5
    have h6 : Inv2 P w6.files := by rw [f6]; exact inv2_of_inv3 P _ h5
    split <;> exact h6

theorem saveAttempt_inv2 (P : List Task → Prop) (tasks : List Task) (hP : P tasks)
    (attempt : Nat) (w : World) (h : Inv2 P w.files) :
    Inv2 P (saveAttempt tasks attempt w).2.files := by
  unfold saveAttempt
  have ht := saveTry_inv2 P tasks hP w h
  rcases hr : saveTry tasks w with ⟨_ | _, w1⟩ <;> rw [hr] at ht <;> simp only at ht ⊢
  · have hu : Inv2 P (unlink .tmp w1).2.files := by
      rcases unlink_cases .tmp w1 with ⟨w2, e2, f2⟩ | ⟨w2, e2, f2⟩ <;> rw [e2] <;> simp only
      · rw [f2]; exact ht
      · rw [f2]; exact inv2_set_tmp P _ _ ht
    split <;> exact hu
  · exact ht

theorem saveLoop_inv2 (P : List Task → Prop) (tasks : List Task) (hP : P tasks)
    (attempts : List Nat) (w : World) (h : Inv2 P w.files) :
    Inv2 P (saveLoop tasks attempts w).2.files := by
  induction attempts generalizing w with
  | nil => exact h
  | cons attempt rest ih =>
    unfold saveLoop
    have ha := saveAttempt_inv2 P tasks hP attempt w h
    rcases hr : saveAttempt tasks attempt w with ⟨_ | _ | _, w1⟩ <;> rw [hr] at ha <;>
      simp only at ha ⊢
    · exact ha
    · exact ih w1 ha
    · exact ha

theorem saveInternal_inv2 (P : List Task → Prop) (tasks : List Task) (hP : P tasks)
    (w : World) (h : Inv2 P w.files) : Inv2 P (_saveInternal tasks w).2.files :=
  saveLoop_inv2 P tasks hP _ w h


theorem distinct_nil : Distinct [] := List.Pairwise.nil

theorem distinct_push (l : List Task) (t : Task) (h : Distinct l) (hb : Room 1 l)
    (ht : t.id = nextId l) : Distinct (l ++ [t]) := by
  have h2 : (ids (l ++ [t])).Nodup := by
    simp only [ids, List.map_append, List.map_cons, List.map_nil]
    rw [List.nodup_append]
    refine ⟨h, List.nodup_singleton _, ?_⟩
    intro x hx hx2
    obtain ⟨u, hu, rfl⟩ := List.mem_map.1 hx
    have := nextId_gt l (room_exact 0 l hb) u hu
    simp only [List.mem_singleton] at hx2
    omega
  exact h2

theorem distinct_eraseIdx (l : List Task) (i : Nat) (h : Distinct l) :
    Distinct (l.eraseIdx i) :=
  List.Pairwise.sublist (List.Sublist.map _ (List.eraseIdx_sublist _ _)) h

theorem now_files (w : World) : (now w).2.files = w.files := rfl

theorem inv2_mono (P Q : List Task → Prop) (f : Files) (hPQ : ∀ l, P l → Q l)
    (h : Inv2 P f) : Inv2 Q f :=
  ⟨fun l hl => hPQ l (h.1 l hl), fun l hl => hPQ l (h.2 l hl)⟩

theorem create_inv2 (task : NewTask) (w : World) (k : Nat)
    (hk : ((k + 1 : Nat) : Int) ≤ twoPow53)
    (h : Inv2 (fun l => Distinct l ∧ Room (k + 1) l) w.files) :
    Inv2 (fun l => Distinct l ∧ Room k l) (create task w).2.files := by
  unfold create
  have hl := loadInternal_spec (fun l => Distinct l ∧ Room (k + 1) l)
    ⟨distinct_nil, room_nil (k + 1) hk⟩ w h
  have hmono : ∀ f, Inv2 (fun l => Distinct l ∧ Room (k + 1) l) f →
      Inv2 (fun l => Distinct l ∧ Room k l) f :=
    fun f hf => inv2_mono _ _ f
      (fun l hl2 => ⟨hl2.1, room_le k (k + 1) l (Nat.le_succ k) hl2.2⟩) hf
  rcases hr : _loadInternal w with ⟨_ | tasks, w1⟩ <;> rw [hr] at hl <;> simp only at hl ⊢
  · exact hmono _ hl.1
  · have hP := hl.2 tasks rfl
    have hs := saveInternal_inv2 (fun l => Distinct l ∧ Room k l)
      (tasks ++ [⟨nextId tasks, newTitle task, false, (now w1).1, (now (now w1).2).1⟩])
      ⟨distinct_push _ _ hP.1 (room_le 1 (k + 1) _ (Nat.succ_le_succ (Nat.zero_le k)) hP.2) rfl,
        room_push k _ _ hP.2 rfl⟩
      (now (now w1).2).2 (hmono _ hl.1)
    rcases hr2 : _saveInternal
      (tasks ++ [⟨nextId tasks, newTitle task, false, (now w1).1, (now (now w1).2).1⟩])
      (now (now w1).2).2 with ⟨_ | _, w4⟩ <;> simp only [hr2] at hs ⊢ <;> exact hs

theorem update_inv2 (id : Int) (updates : Patch) (w : World) (k : Nat)
    (hk : (k : Int) ≤ twoPow53)
    (h : Inv2 (fun l => Distinct l ∧ Room k l) w.files) :
    Inv2 (fun l => Distinct l ∧ Room k l) (update id updates w).2.files := by
  unfold update
  have hl := loadInternal_spec (fun l => Distinct l ∧ Room k l)
    ⟨distinct_nil, room_nil k hk⟩ w h
  rcases hr : _loadInternal w with ⟨_ | tasks, w1⟩ <;> rw [hr] at hl <;> simp only at hl ⊢
  · exact hl.1
  · split
    · exact hl.1
    · rename_i idx _
      split
      · exact hl.1
      · rename_i prev hprev
        have hP0 := hl.2 tasks rfl
        have hP : Distinct (tasks.set idx (applyPatch prev updates (now w1).1)) := by
          unfold Distinct
          rw [ids_set tasks idx prev _ hprev (applyPatch_id _ _ _)]
          exact hP0.1
        have hs := saveInternal_inv2 (fun l => Distinct l ∧ Room k l) _
          ⟨hP, room_set k tasks idx prev _ hprev (applyPatch_id _ _ _) hP0.2⟩ (now w1).2 hl.1
        rcases hr2 : _saveInternal (tasks.set idx (applyPatch prev updates (now w1).1))
          (now w1).2 with ⟨_ | _, w3⟩ <;> simp only [hr2] at hs ⊢ <;> exact hs

theorem remove_inv2 (id : Int) (w : World) (k : Nat) (hk : (k : Int) ≤ twoPow53)
    (h : Inv2 (fun l => Distinct l ∧ Room k l) w.files) :
    Inv2 (fun l => Distinct l ∧ Room k l) (remove id w).2.files := by
  unfold remove
  have hl := loadInternal_spec (fun l => Distinct l ∧ Room k l)
    ⟨distinct_nil, room_nil k hk⟩ w h
  rcases hr : _loadInternal w with ⟨_ | tasks, w1⟩ <;> rw [hr] at hl <;> simp only at hl ⊢
  · exact hl.1
  · split
    · exact hl.1
    · rename_i idx _
      have hP0 := hl.2 tasks rfl
      have hs := saveInternal_inv2 (fun l => Distinct l ∧ Room k l) _
        ⟨distinct_eraseIdx tasks idx hP0.1, room_eraseIdx k tasks idx hP0.2⟩ w1 hl.1
      rcases hr2 : _saveInternal (tasks.eraseIdx idx) w1 with ⟨_ | _, w3⟩ <;>
        simp only [hr2] at hs ⊢ <;> exact hs

theorem runOps_inv2 (ops : List Op) (w : World) (k : Nat)
    (hk : ((creates ops + k : Nat) : Int) ≤ twoPow53)
    (h : Inv2 (fun l => Distinct l ∧ Room (creates ops + k) l) w.files) :
    Inv2 (fun l => Distinct l ∧ Room k l) (runOps ops w).files := by
  induction ops generalizing w with
  | nil =>
    have he : creates [] + k = k := by simp [creates]
    rw [he] at h
    exact h
  | cons op ops ih =>
    cases op with
    | create task =>
      have he : creates (Op.create task :: ops) + k = (creates ops + k) + 1 := by
        simp only [creates]
        omega
      rw [he] at h hk
      exact ih (create task w).2 (by push_cast at hk ⊢; omega)
        (create_inv2 task w (creates ops + k) hk h)
    | update id updates =>
      exact ih (update id updates w).2 hk (update_inv2 id updates w (creates ops + k) hk h)
    | remove id =>
      exact ih (remove id w).2 hk (remove_inv2 id w (creates ops + k) hk h)

theorem sat_persisted (P : List Task → Prop) (hnil : P []) (w : World)
    (h : ContentSat P w.files.data) : P (persisted w) := by
  unfold persisted
  split
  · rename_i ts hts
    exact h ts hts
  · exact hnil

theorem contentSat_of_persisted (P : List Task → Prop) (w : World) (h : P (persisted w)) :
    ContentSat P w.files.data := by
  intro l hl
  rw [persisted_of_data w l hl] at h
  exact h


/-! ## The claims -/

/-- C1, as stated, fails: on the collection whose one record has the id
9007199254740992 (2 ^ 53) `create` gives the new record that same id, not
1 + the largest id present, and the persisted collection then carries the id
twice. -/
theorem create_id_at_number_limit_counterexample :
    (create ⟨some "Buy eggs"⟩ (worldOf [farTask])).1 =
        .ok ⟨9007199254740992, "Buy eggs", false, 1700000000000, 1700000000001⟩ ∧
      farTask.id = 9007199254740992 ∧
      (∀ r, (create ⟨some "Buy eggs"⟩ (worldOf [farTask])).1 = .ok r →
        r.id ≠ 1 + farTask.id) := by
  have h : create ⟨some "Buy eggs"⟩ (worldOf [farTask]) = _ :=
    create_quiet ⟨some "Buy eggs"⟩ (worldOf [farTask]) rfl
  have ht : newTitle ⟨some "Buy eggs"⟩ = "Buy eggs" := by decide
  have hn : nextId (persisted (worldOf [farTask])) = 9007199254740992 := by decide
  rw [h, ht, hn]
  refine ⟨rfl, rfl, ?_⟩
  intro r hr
  cases hr
  decide

/-- C1, amended: when no file call fails and every id present lies from
`-twoPow53` up to `twoPow53 - 1` (where the sum `Math.max(...) + 1` is
exact), the id that `create` gives the new record is 1 for an empty
collection and otherwise 1 + the largest id present (some record carries the
id one below it and none carries a larger one); holes left by removals play
no role, ids 1 and 4 give 5. -/
theorem create_id_is_one_plus_max (w : World) (c : List Task) (task : NewTask)
    (hq : w.faults = []) (hc : persisted w = c)
    (hb : ∀ t ∈ c, -twoPow53 ≤ t.id ∧ t.id < twoPow53) :
    ∃ r w', create task w = (.ok r, w') ∧ r.id = nextId c ∧
      (c = [] → r.id = 1) ∧
      (c ≠ [] → ∃ t ∈ c, r.id = 1 + t.id ∧ ∀ u ∈ c, u.id ≤ t.id) ∧
      (∀ a b : Task, a.id = 1 → b.id = 4 → nextId [a, b] = 5) := by
  subst hc
  refine ⟨_, _, create_quiet task w hq, rfl, ?_, ?_, ?_⟩
  · intro h
    simp [h, nextId]
  · intro h
    exact nextId_spec _ h hb
  · intro a b ha hb
    simp only [nextId, List.map_cons, List.map_nil, mathMax, List.foldl_cons, List.foldl_nil,
      ha, hb]
    decide

theorem create_id_is_one_plus_max_witness :
    ∃ r w', create ⟨some "Buy eggs"⟩ (worldOf [milk, bread]) = (.ok r, w') ∧
      r.id = nextId [milk, bread] ∧
      ([milk, bread] = [] → r.id = 1) ∧
      ([milk, bread] ≠ [] →
        ∃ t ∈ [milk, bread], r.id = 1 + t.id ∧ ∀ u ∈ [milk, bread], u.id ≤ t.id) ∧
      (∀ a b : Task, a.id = 1 → b.id = 4 → nextId [a, b] = 5) :=
  create_id_is_one_plus_max (worldOf [milk, bread]) [milk, bread] ⟨some "Buy eggs"⟩ rfl rfl
    (by decide)

theorem runOps_quiet (ops : List Op) (w : World) (hq : w.faults = [])
    (hd : Distinct (persisted w)) (hr : Room (creates ops) (persisted w)) :
    Distinct (persisted (runOps ops w)) := by
  induction ops generalizing w with
  | nil => exact hd
  | cons op ops ih =>
    have h := op_run_quiet op w hq
    rw [creates_cons] at hr
    exact ih (op.run w) h.1
      (h.2 (room_le _ _ _ (Nat.le_add_right _ _) hr) hd)
      (op_run_room op w hq (creates ops) hr)

/-- C2, as stated, fails: the collection whose one record has the id
9007199254740992 (2 ^ 53) has pairwise distinct ids, and after one `create`
the persisted collection holds that id twice. -/
theorem ids_repeat_at_number_limit_counterexample :
    (ids (persisted (worldOf [farTask]))).Pairwise (fun a b => a ≠ b) ∧
      ids (persisted (runOps [.create ⟨some "Buy eggs"⟩] (worldOf [farTask]))) =
        [9007199254740992, 9007199254740992] ∧
      ¬ (ids (persisted (runOps [.create ⟨some "Buy eggs"⟩] (worldOf [farTask])))).Pairwise
        (fun a b => a ≠ b) := by
  have h : create ⟨some "Buy eggs"⟩ (worldOf [farTask]) = _ :=
    create_quiet ⟨some "Buy eggs"⟩ (worldOf [farTask]) rfl
  have hn : nextId (persisted (worldOf [farTask])) = 9007199254740992 := by decide
  have hi : ids (persisted (runOps [.create ⟨some "Buy eggs"⟩] (worldOf [farTask]))) =
      [9007199254740992, 9007199254740992] := by
    simp only [runOps, Op.run]
    rw [h, hn]
    rfl
  rw [hi]
  exact ⟨by decide, rfl, by decide⟩

/-- C2, amended: distinctness of the ids is kept by every sequence of
`create`, `update` and `remove` calls whose `create` calls the ids leave room
for: from a primary file whose records have pairwise distinct ids, none below
`-twoPow53` and each at least the number of `create` calls of the sequence
below `twoPow53` (the empty collection among them, for up to `twoPow53`
calls of `create`), the records persisted after the sequence have pairwise
distinct ids. This holds when no file call fails, and under every schedule of
failing file calls when the backup file, where it holds a collection, has
pairwise distinct ids with the same room too. -/
theorem ids_stay_distinct (ops : List Op) (w : World)
    (hd : (ids (persisted w)).Pairwise (fun a b => a ≠ b))
    (hr : Room (creates ops) (persisted w))
    (hb : w.faults = [] ∨
      ∀ l, w.files.backup = some (.json (.tasks l)) →
        (ids l).Pairwise (fun a b => a ≠ b) ∧ Room (creates ops) l) :
    (ids (persisted (runOps ops w))).Pairwise (fun a b => a ≠ b) := by
  rcases hb with hq | hb
  · exact runOps_quiet ops w hq hd hr
  · have hk : ((creates ops + 0 : Nat) : Int) ≤ twoPow53 := hr.1
    have h2 : Inv2 (fun l => Distinct l ∧ Room (creates ops + 0) l) w.files :=
      ⟨contentSat_of_persisted (fun l => Distinct l ∧ Room (creates ops + 0) l) w ⟨hd, hr⟩, hb⟩
    exact (sat_persisted (fun l => Distinct l ∧ Room 0 l)
      ⟨distinct_nil, room_nil 0 (by decide)⟩ _ (runOps_inv2 ops w 0 hk h2).1).1

theorem ids_stay_distinct_witness :
    (ids (persisted (runOps
      [.create ⟨some "Buy eggs"⟩, .remove 4, .update 1 ⟨none, some (.bool true)⟩,
        .create ⟨none⟩]
      (failingWorld [milk, bread])))).Pairwise (fun a b => a ≠ b) :=
  ids_stay_distinct _ (failingWorld [milk, bread]) (by decide) (by unfold Room; decide)
    (Or.inr (fun l hl => by cases hl; exact ⟨by decide, by unfold Room; decide⟩))


/-- C3, as stated, fails: on the whitespace-only title `"   "` the store's
`create` does not fail, it returns a record titled `Untitled Task`, and the
persisted collection grows from no record to one. -/
theorem create_blank_title_counterexample :
    (∀ e, (create ⟨some "   "⟩ (worldOf [])).1 ≠ .error e) ∧
      (create ⟨some "   "⟩ (worldOf [])).1 =
        .ok ⟨1, "Untitled Task", false, 1700000000000, 1700000000001⟩ ∧
      (persisted (worldOf [])).length = 0 ∧
      (persisted (create ⟨some "   "⟩ (worldOf [])).2).length = 1 := by
  have h : create ⟨some "   "⟩ (worldOf []) = _ := create_quiet ⟨some "   "⟩ (worldOf []) rfl
  have ht : newTitle ⟨some "   "⟩ = "Untitled Task" := by decide
  rw [h, ht]
  refine ⟨?_, rfl, rfl, rfl⟩
  intro e he
  cases he

/-- C3, amended: a title that is missing, empty or only whitespace is
rejected by the handler of `POST /api/todos`, which answers 400 without
calling the store and so leaves every file as it was; the store's `create`
itself does not reject such a title: when no file call fails it appends a
record titled `Untitled Task`. -/
theorem blank_title_rejected_by_handler (w : World) (s : String)
    (hq : w.faults = []) (hs : trim s = "") :
    postTodos none w = (⟨400, none⟩, w) ∧
      postTodos (some .null) w = (⟨400, none⟩, w) ∧
      postTodos (some (.str s)) w = (⟨400, none⟩, w) ∧
      ∀ task : NewTask, task.title = none ∨ task.title = some s →
        ∃ r w', create task w = (.ok r, w') ∧ r.title = "Untitled Task" ∧
          persisted w' = persisted w ++ [r] := by
  refine ⟨rfl, rfl, ?_, ?_⟩
  · by_cases h : (JsVal.str s).truthy = true
    · simp [postTodos, h, hs]
    · simp [postTodos, h]
  · intro task ht
    refine ⟨_, _, create_quiet task w hq, ?_, rfl⟩
    rcases ht with ht | ht
    · simp [newTitle, ht]
    · simp [newTitle, ht, hs]

theorem blank_title_rejected_by_handler_witness :
    postTodos none (worldOf [milk]) = (⟨400, none⟩, worldOf [milk]) ∧
      postTodos (some .null) (worldOf [milk]) = (⟨400, none⟩, worldOf [milk]) ∧
      postTodos (some (.str " \t ")) (worldOf [milk]) = (⟨400, none⟩, worldOf [milk]) ∧
      ∀ task : NewTask, task.title = none ∨ task.title = some " \t " →
        ∃ r w', create task (worldOf [milk]) = (.ok r, w') ∧ r.title = "Untitled Task" ∧
          persisted w' = persisted (worldOf [milk]) ++ [r] :=
  blank_title_rejected_by_handler (worldOf [milk]) " \t " rfl (by decide)

/-- C4: on a primary file holding a collection in which no record carries
`id`, `update` returns `null` for every patch and `remove` returns `false`;
the only file calls made are the three reads of the load (they consume three
entries of the schedule, here scheduled to succeed), so nothing is saved and
the primary, backup and temporary files are as before. -/
theorem absent_id_not_found (w : World) (l : List Task) (id : Int)
    (hf : ∀ b ∈ w.faults.take 3, b = false)
    (hd : w.files.data = some (.json (.tasks l))) (hid : ∀ t ∈ l, t.id ≠ id) :
    (∀ p, update id p w = (.ok none, { w with faults := w.faults.drop 3 })) ∧
      remove id w = (.ok false, { w with faults := w.faults.drop 3 }) ∧
      (∀ p, (update id p w).2.files = w.files) ∧ (remove id w).2.files = w.files := by
  have hfi : findIndex (fun t => t.id == id) l = none :=
    findIndex_none _ l (fun t ht => by simpa using hid t ht)
  have hu : ∀ p, update id p w = (.ok none, { w with faults := w.faults.drop 3 }) := by
    intro p
    unfold update
    rw [load_scheduled w l hf hd]
    simp only [hfi]
  have hr : remove id w = (.ok false, { w with faults := w.faults.drop 3 }) := by
    unfold remove
    rw [load_scheduled w l hf hd]
    simp only [hfi]
  refine ⟨hu, hr, ?_, ?_⟩
  · intro p
    rw [hu p]
  · rw [hr]

theorem absent_id_not_found_witness :
    (∀ p, update 7 p { worldOf [milk, bread] with faults := [false, false, false, true] } =
        (.ok none, { worldOf [milk, bread] with faults := [true] })) ∧
      remove 7 { worldOf [milk, bread] with faults := [false, false, false, true] } =
        (.ok false, { worldOf [milk, bread] with faults := [true] }) ∧
      (∀ p, (update 7 p { worldOf [milk, bread] with
          faults := [false, false, false, true] }).2.files = (worldOf [milk, bread]).files) ∧
      (remove 7 { worldOf [milk, bread] with
          faults := [false, false, false, true] }).2.files = (worldOf [milk, bread]).files :=
  absent_id_not_found { worldOf [milk, bread] with faults := [false, false, false, true] }
    [milk, bread] 7 (by decide) rfl (by decide)


theorem update_first (w : World) (l1 l2 : List Task) (prev : Task) (updates : Patch)
    (hq : w.faults = [])
    (hd : w.files.data = some (.json (.tasks (l1 ++ prev :: l2))))
    (hfirst : ∀ x ∈ l1, x.id ≠ prev.id) :
    update prev.id updates w =
      (.ok (some (applyPatch prev updates (w.clock w.reads))),
        saved (l1 ++ applyPatch prev updates (w.clock w.reads) :: l2)
          { w with reads := w.reads + 1 }) := by
  have hp := persisted_of_data w _ hd
  have hfi : findIndex (fun t => t.id == prev.id) (l1 ++ prev :: l2) = some l1.length :=
    findIndex_first _ l1 l2 prev (fun x hx => by simpa using hfirst x hx) (by simp)
  have hg : (l1 ++ prev :: l2)[l1.length]? = some prev := by
    rw [List.getElem?_append_right (Nat.le_refl _)]
    simp
  rw [update_quiet prev.id updates w hq, hp, hfi]
  simp only [hg]
  rw [List.set_append_right _ _ (Nat.le_refl _), loaded_valid w _ hd]
  simp

theorem remove_first (w : World) (l1 l2 : List Task) (t : Task) (hq : w.faults = [])
    (hd : w.files.data = some (.json (.tasks (l1 ++ t :: l2))))
    (hfirst : ∀ x ∈ l1, x.id ≠ t.id) :
    remove t.id w = (.ok true, saved (l1 ++ l2) w) := by
  have hp := persisted_of_data w _ hd
  have hfi : findIndex (fun u => u.id == t.id) (l1 ++ t :: l2) = some l1.length :=
    findIndex_first _ l1 l2 t (fun x hx => by simpa using hfirst x hx) (by simp)
  rw [remove_quiet t.id w hq, hp, hfi]
  simp only
  rw [List.eraseIdx_append_of_length_le (Nat.le_refl _), loaded_valid w _ hd]
  simp

theorem getAll_saved (ts : List Task) (w : World) (hq : w.faults = []) :
    getAll (saved ts w) = (.ok ts, saved ts w) := by
  have h := load_quiet (saved ts w) (by simpa using hq)
  rw [loaded_valid (saved ts w) ts rfl] at h
  exact h

/-- C5: when no file call fails and `prev` is the first record carrying its
id, a patch with only `completed` gives a record with the id, title and
creation time of `prev`, `completed` the truthiness of the value given and
`updatedAt` the clock reading taken by the call; the record is persisted at
the position of `prev`, between the same records as before, and it is the one
returned and the one a following list shows. -/
theorem update_completed_only (w : World) (l1 l2 : List Task) (prev : Task) (v : JsVal)
    (hq : w.faults = [])
    (hd : w.files.data = some (.json (.tasks (l1 ++ prev :: l2))))
    (hfirst : ∀ x ∈ l1, x.id ≠ prev.id) :
    ∃ r w', update prev.id ⟨none, some v⟩ w = (.ok (some r), w') ∧
      r.id = prev.id ∧ r.title = prev.title ∧ r.createdAt = prev.createdAt ∧
      r.completed = v.truthy ∧ r.updatedAt = w.clock w.reads ∧
      persisted w' = l1 ++ r :: l2 ∧ getAll w' = (.ok (l1 ++ r :: l2), w') :=
  ⟨_, _, update_first w l1 l2 prev ⟨none, some v⟩ hq hd hfirst, rfl, rfl, rfl, rfl, rfl, rfl,
    getAll_saved _ _ hq⟩

theorem update_completed_only_witness :
    ∃ r w', update bread.id ⟨none, some (.num 1)⟩ (worldOf ([milk] ++ bread :: [])) =
        (.ok (some r), w') ∧
      r.id = bread.id ∧ r.title = bread.title ∧ r.createdAt = bread.createdAt ∧
      r.completed = (JsVal.num 1).truthy ∧
      r.updatedAt =
        (worldOf ([milk] ++ bread :: [])).clock (worldOf ([milk] ++ bread :: [])).reads ∧
      persisted w' = [milk] ++ r :: [] ∧ getAll w' = (.ok ([milk] ++ r :: []), w') :=
  update_completed_only (worldOf ([milk] ++ bread :: [])) [milk] [] bread (.num 1) rfl rfl
    (by decide)

theorem patchedTitle_ne_empty (v : JsVal) (prev : String) (h : prev ≠ "") :
    patchedTitle v prev ≠ "" := by
  unfold patchedTitle
  by_cases hs : trim (if v.truthy = true then v.toStr else "") = ""
  · simpa [hs] using h
  · simp [hs]

theorem newTitle_ne_empty (task : NewTask) : newTitle task ≠ "" := by
  unfold newTitle
  split
  · decide
  · split
    · decide
    · assumption

theorem applyPatch_title_ne_empty (prev : Task) (updates : Patch) (t : Time)
    (h : prev.title ≠ "") : (applyPatch prev updates t).title ≠ "" := by
  unfold applyPatch
  simp only
  split
  · exact patchedTitle_ne_empty _ _ h
  · exact h

/-- C6: when no file call fails and `prev` is the first record carrying its
id, a patch whose title is falsy or blank after trimming leaves the title of
`prev` in place, and a patch whose title is a string with content after
trimming stores the trimmed text; so, from any state in which every persisted
title is non-empty, every persisted title is non-empty after a `create` and
after an `update`. -/
theorem title_patch_never_clears (w : World) (l1 l2 : List Task) (prev : Task)
    (completed : Option JsVal) (hq : w.faults = [])
    (hd : w.files.data = some (.json (.tasks (l1 ++ prev :: l2))))
    (hfirst : ∀ x ∈ l1, x.id ≠ prev.id) :
    (∀ v : JsVal, (v.truthy = false ∨ ∃ s, v = .str s ∧ trim s = "") →
      ∃ r w', update prev.id ⟨some v, completed⟩ w = (.ok (some r), w') ∧
        r.title = prev.title ∧ persisted w' = l1 ++ r :: l2) ∧
    (∀ s : String, trim s ≠ "" →
      ∃ r w', update prev.id ⟨some (.str s), completed⟩ w = (.ok (some r), w') ∧
        r.title = trim s ∧ persisted w' = l1 ++ r :: l2) ∧
    (∀ w2 : World, w2.faults = [] → (∀ t ∈ persisted w2, t.title ≠ "") →
      (∀ task, ∀ t ∈ persisted (create task w2).2, t.title ≠ "") ∧
      (∀ id updates, ∀ t ∈ persisted (update id updates w2).2, t.title ≠ "")) := by
  refine ⟨?_, ?_, ?_⟩
  · intro v hv
    refine ⟨_, _, update_first w l1 l2 prev ⟨some v, completed⟩ hq hd hfirst, ?_, rfl⟩
    rcases hv with hv | ⟨s, rfl, hs⟩
    · simp [applyPatch, patchedTitle, hv, trim]
    · by_cases h : (JsVal.str s).truthy = true
      · simp [applyPatch, patchedTitle, h, JsVal.toStr, hs]
      · simp [applyPatch, patchedTitle, h, trim]
  · intro s hs
    refine ⟨_, _, update_first w l1 l2 prev ⟨some (.str s), completed⟩ hq hd hfirst, ?_, rfl⟩
    have h : (JsVal.str s).truthy = true := by
      by_contra hc
      apply hs
      have : s = "" := by simpa [JsVal.truthy] using hc
      subst this
      decide
    simp [applyPatch, patchedTitle, h, JsVal.toStr, hs]
  · intro w2 hq2 hall
    constructor
    · intro task t ht
      rw [create_quiet task w2 hq2] at ht
      simp only [persisted_saved, List.mem_append, List.mem_singleton] at ht
      rcases ht with ht | rfl
      · exact hall t ht
      · exact newTitle_ne_empty task
    · intro id updates t ht
      rw [update_quiet id updates w2 hq2] at ht
      cases hfi : findIndex (fun t => t.id == id) (persisted w2) with
      | none =>
        simp only [hfi, persisted_loaded] at ht
        exact hall t ht
      | some idx =>
        simp only [hfi] at ht
        cases hg : (persisted w2)[idx]? with
        | none =>
          simp only [hg, persisted_loaded] at ht
          exact hall t ht
        | some p =>
          simp only [hg, persisted_saved] at ht
          rcases List.mem_or_eq_of_mem_set ht with h1 | rfl
          · exact hall t h1
          · exact applyPatch_title_ne_empty _ _ _ (hall p (List.getElem?_mem hg))

theorem title_patch_never_clears_witness :
    (∀ v : JsVal, (v.truthy = false ∨ ∃ s, v = .str s ∧ trim s = "") →
      ∃ r w', update bread.id ⟨some v, some (.bool false)⟩ (worldOf ([milk] ++ bread :: [])) =
          (.ok (some r), w') ∧
        r.title = bread.title ∧ persisted w' = [milk] ++ r :: []) ∧
    (∀ s : String, trim s ≠ "" →
      ∃ r w', update bread.id ⟨some (.str s), some (.bool false)⟩
          (worldOf ([milk] ++ bread :: [])) = (.ok (some r), w') ∧
        r.title = trim s ∧ persisted w' = [milk] ++ r :: []) ∧
    (∀ w2 : World, w2.faults = [] → (∀ t ∈ persisted w2, t.title ≠ "") →
      (∀ task, ∀ t ∈ persisted (create task w2).2, t.title ≠ "") ∧
      (∀ id updates, ∀ t ∈ persisted (update id updates w2).2, t.title ≠ "")) :=
  title_patch_never_clears (worldOf ([milk] ++ bread :: [])) [milk] [] bread
    (some (.bool false)) rfl rfl (by decide)


theorem trim_spec (s : String) :
    ∃ pre post : List Char, s.data = pre ++ (trim s).data ++ post ∧
      (∀ ch ∈ pre, isJsSpace ch = true) ∧ (∀ ch ∈ post, isJsSpace ch = true) ∧
      (∀ ch, (trim s).data.head? = some ch → isJsSpace ch = false) ∧
      (∀ ch, (trim s).data.getLast? = some ch → isJsSpace ch = false) := by
  have ha : (s.data.dropWhile isJsSpace) =
      ((s.data.dropWhile isJsSpace).reverse.dropWhile isJsSpace).reverse ++
        ((s.data.dropWhile isJsSpace).reverse.takeWhile isJsSpace).reverse := by
    rw [← List.reverse_append, List.takeWhile_append_dropWhile, List.reverse_reverse]
  refine ⟨s.data.takeWhile isJsSpace,
    ((s.data.dropWhile isJsSpace).reverse.takeWhile isJsSpace).reverse, ?_, ?_, ?_, ?_, ?_⟩
  · show s.data = _ ++ ((s.data.dropWhile isJsSpace).reverse.dropWhile isJsSpace).reverse ++ _
    rw [List.append_assoc, ← ha, List.takeWhile_append_dropWhile]
  · intro ch hch
    exact List.mem_takeWhile_imp hch
  · intro ch hch
    exact List.mem_takeWhile_imp (List.mem_reverse.1 hch)
  · intro ch hch
    have hch2 : (((s.data.dropWhile isJsSpace).reverse.dropWhile isJsSpace).reverse).head?
        = some ch := hch
    have h1 : (s.data.dropWhile isJsSpace).head? = some ch := by
      rw [ha, List.head?_append, hch2]
      rfl
    have h2 := List.head?_dropWhile_not isJsSpace s.data
    rw [h1] at h2
    exact h2
  · intro ch hch
    have hch2 : (((s.data.dropWhile isJsSpace).reverse.dropWhile isJsSpace).reverse).getLast?
        = some ch := hch
    rw [List.getLast?_reverse] at hch2
    have h2 := List.head?_dropWhile_not isJsSpace (s.data.dropWhile isJsSpace).reverse
    rw [hch2] at h2
    exact h2

/-- C7: when no file call fails, `create` on a title with content after
trimming returns a record whose title is that text without the white space
before and after it and whose `completed` is `false`, and a following list
returns the records the primary file held, in their order, followed by the
new record. -/
theorem create_appends_trimmed (w : World) (l : List Task) (s : String)
    (hq : w.faults = []) (hd : w.files.data = some (.json (.tasks l)))
    (hs : trim s ≠ "") :
    ∃ r w', create ⟨some s⟩ w = (.ok r, w') ∧ r.title = trim s ∧ r.completed = false ∧
      getAll w' = (.ok (l ++ [r]), w') ∧
      ∃ pre post : List Char, s.data = pre ++ r.title.data ++ post ∧
        (∀ ch ∈ pre, isJsSpace ch = true) ∧ (∀ ch ∈ post, isJsSpace ch = true) ∧
        (∀ ch, r.title.data.head? = some ch → isJsSpace ch = false) ∧
        (∀ ch, r.title.data.getLast? = some ch → isJsSpace ch = false) := by
  have ht : newTitle ⟨some s⟩ = trim s := by simp [newTitle, hs]
  refine ⟨_, _, create_quiet ⟨some s⟩ w hq, ht, rfl, ?_, ?_⟩
  · rw [persisted_of_data w l hd]
    exact getAll_saved _ _ (by simpa using hq)
  · simp only [ht]
    exact trim_spec s

theorem create_appends_trimmed_witness :
    ∃ r w', create ⟨some "  Buy eggs \n"⟩ (worldOf [milk, bread]) = (.ok r, w') ∧
      r.title = trim "  Buy eggs \n" ∧ r.completed = false ∧
      getAll w' = (.ok ([milk, bread] ++ [r]), w') ∧
      ∃ pre post : List Char, "  Buy eggs \n".data = pre ++ r.title.data ++ post ∧
        (∀ ch ∈ pre, isJsSpace ch = true) ∧ (∀ ch ∈ post, isJsSpace ch = true) ∧
        (∀ ch, r.title.data.head? = some ch → isJsSpace ch = false) ∧
        (∀ ch, r.title.data.getLast? = some ch → isJsSpace ch = false) :=
  create_appends_trimmed (worldOf [milk, bread]) [milk, bread] "  Buy eggs \n" rfl rfl
    (by decide)

/-- C8 fails on the code: `create` reads the clock once for `createdAt` and
once more for `updatedAt`; with a clock that advances between the two
readings the record it returns, and the one a following list shows, has
`updatedAt` one millisecond after `createdAt`. -/
theorem create_timestamps_differ :
    (create ⟨some "Buy milk"⟩ (worldOf [])).1 =
        .ok ⟨1, "Buy milk", false, 1700000000000, 1700000000001⟩ ∧
      (getAll (create ⟨some "Buy milk"⟩ (worldOf [])).2).1 =
        .ok [⟨1, "Buy milk", false, 1700000000000, 1700000000001⟩] ∧
      (1700000000000 : Time) ≠ 1700000000001 := by
  have h : create ⟨some "Buy milk"⟩ (worldOf []) = _ :=
    create_quiet ⟨some "Buy milk"⟩ (worldOf []) rfl
  have ht : newTitle ⟨some "Buy milk"⟩ = "Buy milk" := by decide
  rw [h, ht]
  refine ⟨rfl, ?_, by decide⟩
  rw [getAll_saved _ _ rfl]
  rfl

/-- C9: when no file call fails and `t` is the first record carrying its id,
`remove` returns `true` and the primary file then holds the records before
`t` followed by the records after it, each unchanged and in the same order,
one record fewer; when the ids were pairwise distinct no record with the id
is left, and a following `update` or `remove` of the id reports it absent. -/
theorem remove_deletes_record (w : World) (l1 l2 : List Task) (t : Task)
    (hq : w.faults = [])
    (hd : w.files.data = some (.json (.tasks (l1 ++ t :: l2))))
    (hfirst : ∀ x ∈ l1, x.id ≠ t.id) :
    ∃ w', remove t.id w = (.ok true, w') ∧ persisted w' = l1 ++ l2 ∧
      (persisted w').length + 1 = (l1 ++ t :: l2).length ∧
      getAll w' = (.ok (l1 ++ l2), w') ∧
      ((ids (l1 ++ t :: l2)).Pairwise (fun a b => a ≠ b) →
        (∀ x ∈ persisted w', x.id ≠ t.id) ∧
        (∀ p, (update t.id p w').1 = .ok none) ∧ (remove t.id w').1 = .ok false) := by
  refine ⟨_, remove_first w l1 l2 t hq hd hfirst, rfl, ?_, getAll_saved _ _ hq, ?_⟩
  · simp only [persisted_saved, List.length_append, List.length_cons]
    omega
  · intro hnd
    have hx : ∀ x ∈ l1 ++ l2, x.id ≠ t.id := by
      intro x hx
      rcases List.mem_append.1 hx with h1 | h2
      · exact hfirst x h1
      · have h3 : (ids (t :: l2)).Pairwise (fun a b => a ≠ b) := by
          simp only [ids, List.map_append] at hnd
          exact (List.pairwise_append.1 hnd).2.1
        simp only [ids, List.map_cons, List.pairwise_cons] at h3
        exact fun h => h3.1 x.id (List.mem_map.2 ⟨x, h2, rfl⟩) h.symm
    have hfi : findIndex (fun u => u.id == t.id) (l1 ++ l2) = none :=
      findIndex_none _ _ (fun x hx2 => by simpa using hx x hx2)
    refine ⟨hx, ?_, ?_⟩
    · intro p
      rw [update_quiet t.id p _ (by simpa using hq)]
      simp only [persisted_saved, hfi]
    · rw [remove_quiet t.id _ (by simpa using hq)]
      simp only [persisted_saved, hfi]

theorem remove_deletes_record_witness :
    ∃ w', remove milk.id (worldOf ([] ++ milk :: [bread])) = (.ok true, w') ∧
      persisted w' = [] ++ [bread] ∧
      (persisted w').length + 1 = ([] ++ milk :: [bread]).length ∧
      getAll w' = (.ok ([] ++ [bread]), w') ∧
      ((ids ([] ++ milk :: [bread])).Pairwise (fun a b => a ≠ b) →
        (∀ x ∈ persisted w', x.id ≠ milk.id) ∧
        (∀ p, (update milk.id p w').1 = .ok none) ∧ (remove milk.id w').1 = .ok false) :=
  remove_deletes_record (worldOf ([] ++ milk :: [bread])) [] [bread] milk rfl rfl (by simp)

/-- C10 fails on the code: with a primary file that is blank, unparsable or
parsed to a value without a `tasks` array, and a backup holding one record,
the list operation returns no record and leaves an empty collection in the
primary file, because `ensureFile` rewrites the primary file before the loop
of `_loadInternal` could restore it from the backup; the backup is not read,
and the save of the next `create` replaces it by the empty collection. -/
theorem invalid_primary_not_restored :
    getAll (damagedWorld .blank) = (.ok [], damagedWorld (stringify [])) ∧
      getAll (damagedWorld .malformed) = (.ok [], damagedWorld (stringify [])) ∧
      getAll (damagedWorld (.json .null)) = (.ok [], damagedWorld (stringify [])) ∧
      getAll (damagedWorld (.json .other)) = (.ok [], damagedWorld (stringify [])) ∧
      (damagedWorld (stringify [])).files.data ≠ (damagedWorld (stringify [])).files.backup ∧
      (damagedWorld (stringify [])).files.backup = some (stringify [milk]) ∧
      (create ⟨some "Buy eggs"⟩ (damagedWorld (stringify []))).2.files.backup =
        some (stringify []) :=
  ⟨rfl, rfl, rfl, rfl, by decide, rfl, rfl⟩

/-! ## What a load that returns leaves in the primary file -/

theorem recover_returns (attempt : Nat) (w : World) :
    (∀ ts, (recover attempt w).1 = .ok (some ts) →
      (recover attempt w).2.files.data = some (stringify ts)) ∧
    ((recover attempt w).1 = .ok none → attempt < 2) := by
  unfold recover
  split
  · rename_i h
    exact ⟨fun ts hts => (by cases hts), fun _ => h⟩
  · rcases writeFile_cases .data (stringify []) w with ⟨w3, e3, f3⟩ | ⟨w3, e3, f3⟩ <;>
      rw [e3] <;> simp only
    · exact ⟨fun ts hts => (by cases hts), fun h => (by cases h)⟩
    · refine ⟨?_, fun h => (by cases h)⟩
      intro ts hts
      simp only [Except.ok.injEq, Option.some.injEq] at hts
      subst hts
      rw [f3]
      rfl

theorem loadTry_returns (attempt : Nat) (w : World) :
    (∀ ts, (loadTry attempt w).1 = .ok (some ts) →
      (loadTry attempt w).2.files.data = some (stringify ts)) ∧
    ((loadTry attempt w).1 = .ok none → attempt < 2) := by
  unfold loadTry
  rcases readFile_cases .data w with ⟨w1, e1, f1⟩ | ⟨raw, w1, e1, f1, g1⟩ <;> rw [e1] <;>
    simp only
  · exact ⟨fun ts hts => (by cases hts), fun h => (by cases h)⟩
  split
  · exact recover_returns attempt w1
  split
  · exact recover_returns attempt w1
  · rename_i data hdata
    split
    · rename_i ts
      refine ⟨?_, fun h => (by cases h)⟩
      intro ts2 hts2
      simp only [Except.ok.injEq, Option.some.injEq] at hts2
      subst hts2
      have : raw = .json (.tasks ts) := by
        cases raw <;> simp [jsonParse] at hdata
        exact congrArg Raw.json hdata
      show w1.files.data = some (.json (.tasks ts))
      rw [f1, ← this]
      exact g1
    · exact recover_returns attempt w1

theorem loadAttempt_returns (attempt : Nat) (w : World) :
    (∀ ts, (loadAttempt attempt w).1 = .ok (some ts) →
      (loadAttempt attempt w).2.files.data = some (stringify ts)) ∧
    ((loadAttempt attempt w).1 = .ok none → attempt < 2) := by
  unfold loadAttempt
  have ht := loadTry_returns attempt w
  rcases hr : loadTry attempt w with ⟨_ | _, w1⟩ <;> rw [hr] at ht <;> simp only at ht ⊢
  · exact recover_returns attempt w1
  · exact ht

theorem loadLoop_returns (w : World) (ts : List Task)
    (h : (loadLoop [0, 1, 2] w).1 = .ok ts) :
    (loadLoop [0, 1, 2] w).2.files.data = some (stringify ts) := by
  have h0 := loadAttempt_returns 0 w
  unfold loadLoop at h ⊢
  rcases hr0 : loadAttempt 0 w with ⟨_ | _ | ts0, w1⟩ <;> rw [hr0] at h h0 <;>
    simp only at h ⊢
  · cases h
  · have h1 := loadAttempt_returns 1 w1
    unfold loadLoop at h ⊢
    rcases hr1 : loadAttempt 1 w1 with ⟨_ | _ | ts1, w2⟩ <;> rw [hr1] at h h1 <;>
      simp only at h ⊢
    · cases h
    · have h2 := loadAttempt_returns 2 w2
      unfold loadLoop at h ⊢
      rcases hr2 : loadAttempt 2 w2 with ⟨_ | _ | ts2, w3⟩ <;> rw [hr2] at h h2 <;>
        simp only at h ⊢
      · cases h
      · exact absurd (h2.2 rfl) (by decide)
      · simp only [Except.ok.injEq] at h
        subst h
        exact h2.1 ts2 rfl
    · simp only [Except.ok.injEq] at h
      subst h
      exact h1.1 ts1 rfl
  · simp only [Except.ok.injEq] at h
    subst h
    exact h0.1 ts0 rfl

theorem loadInternal_returns (w : World) (ts : List Task)
    (h : (_loadInternal w).1 = .ok ts) :
    (_loadInternal w).2.files.data = some (stringify ts) := by
  unfold _loadInternal at h ⊢
  rcases hr : ensureFile w with ⟨_ | _, w1⟩ <;> rw [hr] at h <;> simp only at h ⊢
  · cases h
  · exact loadLoop_returns w1 ts h

/-- C12: when no file call fails, `load` returns a list of records from every
state of the files: the records of the primary file, in file order, when that
file holds a collection (then no file and nothing else of the state changes)
and no record otherwise; in both cases the primary file holds a collection,
the one returned, when `load` is back. Under any schedule of failing calls a
load that returns leaves the records it returns in the primary file. -/
theorem load_returns_collection (w : World) (hq : w.faults = []) :
    (∃ ts w', load w = (.ok ts, w') ∧ ts = persisted w ∧
      w'.files.data = some (.json (.tasks ts)) ∧ w'.files.backup = w.files.backup ∧
      (∀ l, w.files.data = some (.json (.tasks l)) → ts = l ∧ w' = w) ∧
      ((∀ l, w.files.data ≠ some (.json (.tasks l))) → ts = [])) ∧
    (∀ (v : World) (ts : List Task), (load v).1 = .ok ts →
      (load v).2.files.data = some (.json (.tasks ts))) := by
  refine ⟨⟨persisted w, loaded w, load_quiet w hq, rfl, rfl, rfl, ?_, ?_⟩, ?_⟩
  · intro l hl
    exact ⟨persisted_of_data w l hl, loaded_valid w l hl⟩
  · intro hl
    unfold persisted
    split
    · rename_i ts hts
      exact absurd hts (hl ts)
    · rfl
  · intro v ts h
    exact loadInternal_returns v ts h

theorem load_returns_collection_witness :
    (∃ ts w', load (damagedWorld .malformed) = (.ok ts, w') ∧
      ts = persisted (damagedWorld .malformed) ∧
      w'.files.data = some (.json (.tasks ts)) ∧
      w'.files.backup = (damagedWorld .malformed).files.backup ∧
      (∀ l, (damagedWorld .malformed).files.data = some (.json (.tasks l)) →
        ts = l ∧ w' = damagedWorld .malformed) ∧
      ((∀ l, (damagedWorld .malformed).files.data ≠ some (.json (.tasks l))) → ts = [])) ∧
    (∀ (v : World) (ts : List Task), (load v).1 = .ok ts →
      (load v).2.files.data = some (.json (.tasks ts))) :=
  load_returns_collection (damagedWorld .malformed) rfl

/-- C13: when no file call fails and the primary file holds the collection
`c0`, a save of `c` returns, a following load returns `c`, the temporary file
is gone and the backup holds `c0`, what the primary file held before the
save; so the record that `remove` deletes is still in the backup written by
the save of that removal. -/
theorem save_round_trip (w : World) (c c0 : List Task) (hq : w.faults = [])
    (hd : w.files.data = some (.json (.tasks c0))) :
    (∃ w', _saveInternal c w = (.ok (), w') ∧ load w' = (.ok c, w') ∧
      w'.files.data = some (.json (.tasks c)) ∧ w'.files.tmp = none ∧
      w'.files.backup = some (.json (.tasks c0))) ∧
    (∀ l1 l2 t, c0 = l1 ++ t :: l2 → (∀ x ∈ l1, x.id ≠ t.id) →
      ∃ w2, remove t.id w = (.ok true, w2) ∧ persisted w2 = l1 ++ l2 ∧
        w2.files.backup = some (.json (.tasks (l1 ++ t :: l2)))) := by
  refine ⟨⟨saved c w, save_quiet c w _ hq hd, getAll_saved c w hq, rfl, rfl, hd⟩, ?_⟩
  intro l1 l2 t hc hfirst
  subst hc
  exact ⟨_, remove_first w l1 l2 t hq hd hfirst, rfl, hd⟩

theorem save_round_trip_witness :
    (∃ w', _saveInternal [bread] (worldOf [milk, bread]) = (.ok (), w') ∧
      load w' = (.ok [bread], w') ∧
      w'.files.data = some (.json (.tasks [bread])) ∧ w'.files.tmp = none ∧
      w'.files.backup = some (.json (.tasks [milk, bread]))) ∧
    (∀ l1 l2 t, [milk, bread] = l1 ++ t :: l2 → (∀ x ∈ l1, x.id ≠ t.id) →
      ∃ w2, remove t.id (worldOf [milk, bread]) = (.ok true, w2) ∧
        persisted w2 = l1 ++ l2 ∧
        w2.files.backup = some (.json (.tasks (l1 ++ t :: l2)))) :=
  save_round_trip (worldOf [milk, bread]) [bread] [milk, bread] rfl rfl

/-- C14 fails on the code: with no primary file and a directory that cannot
be written, the write of the fresh file in `ensureFile`, which no `try`
encloses, is rejected and the list operation throws that error; and when
every call of the retry loop is rejected, the write that resets the file in
the `catch` of the last attempt is rejected too and the list operation throws
again. -/
theorem list_throws_on_failed_write :
    (getAll unwritableWorld).1 = .error .fsError ∧
      (getAll unwritableWorld).2.files = unwritableWorld.files ∧
      (getAll unreadableWorld).1 = .error .fsError ∧
      (getAll unreadableWorld).2.files = unreadableWorld.files :=
  ⟨rfl, rfl, rfl, rfl⟩

theorem saveInternal_unfold (tasks : List Task) (w : World) :
    _saveInternal tasks w =
      match saveTry tasks w with
      | (.ok _, w1) => (.ok (), w1)
      | (.error _, _) =>
        match saveTry tasks (attemptStart tasks w 1) with
        | (.ok _, w2) => (.ok (), w2)
        | (.error _, _) =>
          match saveTry tasks (attemptStart tasks w 2) with
          | (.ok _, w3) => (.ok (), w3)
          | (.error e, _) => (.error e, attemptStart tasks w 3) := by
  simp only [_saveInternal, saveLoop, saveAttempt, attemptStart]
  rcases h0 : saveTry tasks w with ⟨e0 | _, w1⟩
  · simp only [Nat.lt_irrefl, if_true, if_false, Nat.zero_lt_succ, Nat.one_lt_two,
      Nat.zero_lt_two]
    rcases h1 : saveTry tasks (unlink .tmp w1).2 with ⟨e1 | _, w2⟩
    · simp only [Nat.lt_irrefl, if_true, if_false, Nat.one_lt_two]
      rcases h2 : saveTry tasks (unlink .tmp w2).2 with ⟨e2 | _, w3⟩
      · simp only [Nat.lt_irrefl, if_false]
      · rfl
    · rfl
  · rfl

theorem cleanup_tmp (w : World) :
    (unlink .tmp w).2.files.tmp = none ∨ w.faults.head? = some true := by
  obtain ⟨⟨d, b, t⟩, faults, clock, reads⟩ := w
  rcases faults with _ | ⟨_ | _, rest⟩
  · cases t <;> exact Or.inl rfl
  · cases t <;> exact Or.inl rfl
  · exact Or.inr rfl

/-- C15, as stated, fails in its last part: when the rename of the first
attempt and the removal of the temporary file in the `catch` are both
rejected, the first attempt has failed and the temporary file it wrote is
still there when the second attempt starts; the second attempt then
completes and the save returns. -/
theorem leftover_tmp_counterexample :
    (saveAttempt [milk, bread] 0 stickyTmpWorld).1 = .ok false ∧
      (saveAttempt [milk, bread] 0 stickyTmpWorld).2.files.tmp =
        some (stringify [milk, bread]) ∧
      (attemptStart [milk, bread] stickyTmpWorld 1).files.tmp =
        some (stringify [milk, bread]) ∧
      (_saveInternal [milk, bread] stickyTmpWorld).1 = .ok () :=
  ⟨rfl, rfl, rfl, rfl⟩

/-- C15, amended: a save runs at most the three attempts 0, 1 and 2, each
from the state the failed attempt before it left; it returns with the state
of the first attempt that completes and runs no attempt after it, it throws
exactly when the three attempts fail, and then the error of the third one;
after a failed attempt the temporary file is gone unless the call that
removes it was itself rejected, a failure the code swallows. -/
theorem save_retries_three_times (tasks : List Task) (w : World) :
    ((saveTry tasks w).1 = .ok () → _saveInternal tasks w = (.ok (), (saveTry tasks w).2)) ∧
    (∀ e0, (saveTry tasks w).1 = .error e0 →
      (saveTry tasks (attemptStart tasks w 1)).1 = .ok () →
      _saveInternal tasks w = (.ok (), (saveTry tasks (attemptStart tasks w 1)).2)) ∧
    (∀ e0 e1, (saveTry tasks w).1 = .error e0 →
      (saveTry tasks (attemptStart tasks w 1)).1 = .error e1 →
      (saveTry tasks (attemptStart tasks w 2)).1 = .ok () →
      _saveInternal tasks w = (.ok (), (saveTry tasks (attemptStart tasks w 2)).2)) ∧
    (∀ e0 e1 e2, (saveTry tasks w).1 = .error e0 →
      (saveTry tasks (attemptStart tasks w 1)).1 = .error e1 →
      (saveTry tasks (attemptStart tasks w 2)).1 = .error e2 →
      _saveInternal tasks w = (.error e2, attemptStart tasks w 3)) ∧
    ((∃ e, (_saveInternal tasks w).1 = .error e) ↔
      ∀ i, i < 3 → ∃ e, (saveTry tasks (attemptStart tasks w i)).1 = .error e) ∧
    (∀ i, (attemptStart tasks w (i + 1)).files.tmp = none ∨
      (saveTry tasks (attemptStart tasks w i)).2.faults.head? = some true) := by
  have hu := saveInternal_unfold tasks w
  refine ⟨?_, ?_, ?_, ?_, ?_, ?_⟩
  · intro h0
    rcases hr0 : saveTry tasks w with ⟨_ | _, w1⟩ <;> rw [hr0] at h0 hu
    · cases h0
    · exact hu
  · intro e0 h0 h1
    rcases hr0 : saveTry tasks w with ⟨_ | _, w1⟩ <;> rw [hr0] at h0 hu
    · rcases hr1 : saveTry tasks (attemptStart tasks w 1) with ⟨_ | _, w2⟩ <;>
        rw [hr1] at h1 hu
      · cases h1
      · exact hu
    · cases h0
  · intro e0 e1 h0 h1 h2
    rcases hr0 : saveTry tasks w with ⟨_ | _, w1⟩ <;> rw [hr0] at h0 hu
    · rcases hr1 : saveTry tasks (attemptStart tasks w 1) with ⟨_ | _, w2⟩ <;>
        rw [hr1] at h1 hu
      · rcases hr2 : saveTry tasks (attemptStart tasks w 2) with ⟨_ | _, w3⟩ <;>
          rw [hr2] at h2 hu
        · cases h2
        · exact hu
      · cases h1
    · cases h0
  · intro e0 e1 e2 h0 h1 h2
    rcases hr0 : saveTry tasks w with ⟨_ | _, w1⟩ <;> rw [hr0] at h0 hu
    · rcases hr1 : saveTry tasks (attemptStart tasks w 1) with ⟨_ | _, w2⟩ <;>
        rw [hr1] at h1 hu
      · rcases hr2 : saveTry tasks (attemptStart tasks w 2) with ⟨_ | _, w3⟩ <;>
          rw [hr2] at h2 hu
        · simp only [Except.error.injEq] at h2
          subst h2
          exact hu
        · cases h2
      · cases h1
    · cases h0
  · constructor
    · rintro ⟨e, he⟩ i hi
      rcases hr0 : saveTry tasks w with ⟨e0 | _, w1⟩ <;> rw [hr0] at hu
      · rcases hr1 : saveTry tasks (attemptStart tasks w 1) with ⟨e1 | _, w2⟩ <;>
          rw [hr1] at hu
        · rcases hr2 : saveTry tasks (attemptStart tasks w 2) with ⟨e2 | _, w3⟩ <;>
            rw [hr2] at hu
          · have h3 : i = 0 ∨ i = 1 ∨ i = 2 := by omega
            rcases h3 with rfl | rfl | rfl
            · exact ⟨e0, by rw [attemptStart, hr0]⟩
            · exact ⟨e1, by rw [hr1]⟩
            · exact ⟨e2, by rw [hr2]⟩
          · rw [hu] at he
            cases he
        · rw [hu] at he
          cases he
      · rw [hu] at he
        cases he
    · intro h
      obtain ⟨e0, h0⟩ := h 0 (by decide)
      obtain ⟨e1, h1⟩ := h 1 (by decide)
      obtain ⟨e2, h2⟩ := h 2 (by decide)
      rw [attemptStart] at h0
      rcases hr0 : saveTry tasks w with ⟨_ | _, w1⟩ <;> rw [hr0] at h0 hu
      · rcases hr1 : saveTry tasks (attemptStart tasks w 1) with ⟨_ | _, w2⟩ <;>
          rw [hr1] at h1 hu
        · rcases hr2 : saveTry tasks (attemptStart tasks w 2) with ⟨_ | _, w3⟩ <;>
            rw [hr2] at h2 hu
          · exact ⟨_, by rw [hu]⟩
          · cases h2
        · cases h1
      · cases h0
  · intro i
    exact cleanup_tmp _

theorem save_retries_three_times_witness :
    _saveInternal [milk, bread] brokenDiskWorld =
      (.error .fsError, attemptStart [milk, bread] brokenDiskWorld 3) :=
  (save_retries_three_times [milk, bread] brokenDiskWorld).2.2.2.1
    .fsError .fsError .fsError rfl rfl rfl

theorem runOps_faults (ops : List Op) (w : World) (hq : w.faults = []) :
    (runOps ops w).faults = [] := by
  induction ops generalizing w with
  | nil => exact hq
  | cons op ops ih => exact ih (op.run w) (op_run_quiet op w hq).1

theorem update_quiet_ids (id : Int) (updates : Patch) (w : World) (hq : w.faults = []) :
    (update id updates w).2.faults = [] ∧
      ids (persisted (update id updates w).2) = ids (persisted w) := by
  rw [update_quiet id updates w hq]
  cases hfi : findIndex (fun t => t.id == id) (persisted w) with
  | none => exact ⟨hq, rfl⟩
  | some idx =>
    simp only
    cases hg : (persisted w)[idx]? with
    | none => exact ⟨hq, rfl⟩
    | some prev =>
      simp only [faults_saved, persisted_saved]
      exact ⟨hq, ids_set _ _ prev _ hg (applyPatch_id _ _ _)⟩

theorem createdIds_increasing (ops : List Op) (w : World) (hq : w.faults = [])
    (hr : Room (creates ops) (persisted w))
    (hn : ∀ op ∈ ops, ∀ id, op ≠ .remove id) :
    (createdIds ops w).Pairwise (fun a b => a < b) ∧
      ∀ i ∈ createdIds ops w, ∀ j ∈ ids (persisted w), j < i := by
  induction ops generalizing w with
  | nil => exact ⟨List.Pairwise.nil, fun i hi => by cases hi⟩
  | cons op ops ih =>
    have hn2 : ∀ op ∈ ops, ∀ id, op ≠ .remove id :=
      fun o ho => hn o (List.mem_cons_of_mem _ ho)
    cases op with
    | create task =>
      have hc := create_quiet task w hq
      have hr1 : Room (creates ops + 1) (persisted w) := hr
      have ih2 := ih (create task w).2 (by rw [hc]; exact hq)
        (by rw [hc]; exact room_push (creates ops) _ _ hr1 rfl) hn2
      simp only [createdIds]
      rw [hc] at ih2 ⊢
      simp only [persisted_saved, ids, List.map_append, List.map_cons, List.map_nil,
        List.mem_append, List.mem_singleton] at ih2
      refine ⟨List.Pairwise.cons (fun i hi => ih2.2 i hi _ (Or.inr rfl)) ih2.1, ?_⟩
      intro i hi j hj
      rcases List.mem_cons.1 hi with rfl | hi
      · obtain ⟨u, hu, rfl⟩ := List.mem_map.1 hj
        exact nextId_gt (persisted w) (room_exact (creates ops) _ hr1) u hu
      · exact ih2.2 i hi j (Or.inl hj)
    | update id updates =>
      have hu := update_quiet_ids id updates w hq
      have hr1 : Room (creates ops) (persisted w) := hr
      have ih2 := ih (update id updates w).2 hu.1
        (op_run_room (.update id updates) w hq (creates ops)
          (by rw [← creates_cons]; exact hr1)) hn2
      simp only [createdIds]
      rw [hu.2] at ih2
      exact ih2
    | remove id => exact absurd rfl (hn (.remove id) (List.mem_cons_self _ _) id)

/-- C19, as stated, fails: from the empty collection the calls create,
remove 1, create give the id 1 twice, the second create does not return an id
above the one of the first. -/
theorem id_reused_counterexample :
    createdIds [.create ⟨some "Buy milk"⟩, .remove 1, .create ⟨some "Buy bread"⟩]
      (worldOf []) = [1, 1] ∧
    ¬ (createdIds [.create ⟨some "Buy milk"⟩, .remove 1, .create ⟨some "Buy bread"⟩]
      (worldOf [])).Pairwise (fun a b => a < b) := by
  have h : createdIds [.create ⟨some "Buy milk"⟩, .remove 1, .create ⟨some "Buy bread"⟩]
      (worldOf []) = [1, 1] := rfl
  rw [h]
  exact ⟨rfl, by decide⟩

/-- C19, amended: when no file call fails and the ids leave room for the
`create` calls (none below `-twoPow53`, each at least the number of `create`
calls, the last one included, below `twoPow53`, where the sum
`Math.max(...) + 1` is exact), after every sequence of `create`, `update` and
`remove` calls a `create` returns an id strictly greater than the id of every
record persisted at that time; in a sequence without `remove` each `create`
returns an id strictly greater than the id returned by every earlier
`create`. (After the removal of the record with the largest id that id is
assigned again.) -/
theorem created_id_above_present (ops : List Op) (w : World) (task : NewTask)
    (hq : w.faults = []) (hr : Room (creates ops + 1) (persisted w)) :
    (∃ r w', create task (runOps ops w) = (.ok r, w') ∧
      ∀ t ∈ persisted (runOps ops w), t.id < r.id) ∧
    ((∀ op ∈ ops, ∀ id, op ≠ .remove id) →
      (createdIds ops w).Pairwise (fun a b => a < b)) := by
  refine ⟨⟨_, _, create_quiet task _ (runOps_faults ops w hq), ?_⟩, ?_⟩
  · intro t ht
    exact nextId_gt _ (room_exact 0 _ (runOps_room ops w hq 1 hr)) t ht
  · intro hn
    exact (createdIds_increasing ops w hq
      (room_le _ _ _ (Nat.le_succ _) hr) hn).1

theorem created_id_above_present_witness :
    (∃ r w', create ⟨some "Buy eggs"⟩
        (runOps [.create ⟨none⟩, .update 5 ⟨none, some (.bool true)⟩] (worldOf [milk, bread]))
        = (.ok r, w') ∧
      ∀ t ∈ persisted
        (runOps [.create ⟨none⟩, .update 5 ⟨none, some (.bool true)⟩] (worldOf [milk, bread])),
        t.id < r.id) ∧
    ((∀ op ∈ [Op.create ⟨none⟩, .update 5 ⟨none, some (.bool true)⟩], ∀ id, op ≠ .remove id) →
      (createdIds [.create ⟨none⟩, .update 5 ⟨none, some (.bool true)⟩]
        (worldOf [milk, bread])).Pairwise (fun a b => a < b)) :=
  created_id_above_present [.create ⟨none⟩, .update 5 ⟨none, some (.bool true)⟩]
    (worldOf [milk, bread]) ⟨some "Buy eggs"⟩ rfl (by unfold Room; decide)

/-! ## What the backup file can come to hold -/

theorem each3_get (Q : Option Raw → Prop) (f : Files) (p : Path) (h : Each3 Q f) :
    Q (f.get p) := by
  cases p
  · exact h.1
  · exact h.2.1
  · exact h.2.2

theorem each3_set (Q : Option Raw → Prop) (f : Files) (p : Path) (c : Option Raw)
    (h : Each3 Q f) (hc : Q c) : Each3 Q (f.set p c) := by
  cases p
  · exact ⟨hc, h.2.1, h.2.2⟩
  · exact ⟨h.1, hc, h.2.2⟩
  · exact ⟨h.1, h.2.1, hc⟩

theorem createBackup_each2 (Q : Option Raw → Prop) (w : World) (h : Each2 Q w.files) :
    Each2 Q (createBackup w).files := by
  unfold createBackup
  rcases access_cases .data w with ⟨w1, e1, f1⟩ | ⟨w1, e1, f1⟩ <;> rw [e1] <;> simp only
  · rw [f1]; exact h
  rcases readFile_cases .data w1 with ⟨w2, e2, f2⟩ | ⟨raw, w2, e2, f2, _⟩ <;> rw [e2] <;>
    simp only
  · rw [f2, f1]; exact h
  have h2 : Each2 Q w2.files := by rw [f2, f1]; exact h
  split
  · exact h2
  split
  · exact h2
  · rcases copyFile_cases .data .backup w2 with ⟨w3, e3, f3⟩ | ⟨r3, w3, e3, g3, f3⟩ <;>
      rw [e3] <;> simp only
    · rw [f3]; exact h2
    · rw [f3]
      exact ⟨h2.1, g3 ▸ h2.1⟩

theorem unlinkTarget_each3 (Q : Option Raw → Prop) (hnone : Q none) (w : World)
    (h : Each3 Q w.files) : Each3 Q (unlinkTarget w).files := by
  unfold unlinkTarget
  rcases access_cases .data w with ⟨w1, e1, f1⟩ | ⟨w1, e1, f1⟩ <;> rw [e1] <;> simp only
  · rw [f1]; exact h
  rcases unlink_cases .data w1 with ⟨w2, e2, f2⟩ | ⟨w2, e2, f2⟩ <;> rw [e2] <;> simp only
  · rw [f2, f1]; exact h
  · rw [f2, f1]
    exact each3_set Q _ _ _ h hnone

theorem saveTry_each2 (Q : Option Raw → Prop) (hnone : Q none) (tasks : List Task)
    (hts : Q (some (stringify tasks))) (w : World) (h : Each2 Q w.files) :
    Each2 Q (saveTry tasks w).2.files := by
  unfold saveTry
  simp only
  have h1 := createBackup_each2 Q w h
  generalize createBackup w = w1 at h1 ⊢
  split
  · exact h1
  rcases writeFile_cases .tmp (stringify tasks) w1 with ⟨w2, e2, f2⟩ | ⟨w2, e2, f2⟩ <;>
    rw [e2] <;> simp only
  · rw [f2]; exact h1
  have h2 : Each3 Q w2.files := by
    rw [f2]
    exact ⟨h1.1, h1.2, hts⟩
  rcases readFile_cases .tmp w2 with ⟨w3, e3, f3⟩ | ⟨raw, w3, e3, f3, _⟩ <;> rw [e3] <;>
    simp only
  · rw [f3]; exact ⟨h2.1, h2.2.1⟩
  have h3 : Each3 Q w3.files := by rw [f3]; exact h2
  split
  · exact ⟨h3.1, h3.2.1⟩
  split
  · exact ⟨h3.1, h3.2.1⟩
  · exact ⟨h3.1, h3.2.1⟩
  · have h4 := unlinkTarget_each3 Q hnone w3 h3
    generalize unlinkTarget w3 = w4 at h4 ⊢
    rcases rename_cases .tmp .data w4 with ⟨w5, e5, f5⟩ | ⟨r5, w5, e5, g5, f5⟩ <;>
      rw [e5] <;> simp only
    · rw [f5]; exact ⟨h4.1, h4.2.1⟩
    have h5 : Each3 Q w5.files := by
      rw [f5]
      exact each3_set Q _ _ _ (each3_set Q _ _ _ h4 (g5 ▸ each3_get Q _ .tmp h4)) hnone
    rcases readFile_cases .data w5 with ⟨w6, e6, f6⟩ | ⟨raw6, w6, e6, f6, _⟩ <;> rw [e6] <;>
      simp only
    · rw [f6]; exact ⟨h5.1, h5.2.1⟩
    have h6 : Each2 Q w6.files := by rw [f6]; exact ⟨h5.1, h5.2.1⟩
    split <;> exact h6

theorem saveAttempt_each2 (Q : Option Raw → Prop) (hnone : Q none) (tasks : List Task)
    (hts : Q (some (stringify tasks))) (attempt : Nat) (w : World) (h : Each2 Q w.files) :
    Each2 Q (saveAttempt tasks attempt w).2.files := by
  unfold saveAttempt
  have ht := saveTry_each2 Q hnone tasks hts w h
  rcases hr : saveTry tasks w with ⟨_ | _, w1⟩ <;> rw [hr] at ht <;> simp only at ht ⊢
  · have hu : Each2 Q (unlink .tmp w1).2.files := by
      rcases unlink_cases .tmp w1 with ⟨w2, e2, f2⟩ | ⟨w2, e2, f2⟩ <;> rw [e2] <;> simp only
      · rw [f2]; exact ht
      · rw [f2]; exact ht
    split <;> exact hu
  · exact ht

theorem saveLoop_each2 (Q : Option Raw → Prop) (hnone : Q none) (tasks : List Task)
    (hts : Q (some (stringify tasks))) (attempts : List Nat) (w : World)
    (h : Each2 Q w.files) : Each2 Q (saveLoop tasks attempts w).2.files := by
  induction attempts generalizing w with
  | nil => exact h
  | cons attempt rest ih =>
    unfold saveLoop
    have ha := saveAttempt_each2 Q hnone tasks hts attempt w h
    rcases hr : saveAttempt tasks attempt w with ⟨_ | _ | _, w1⟩ <;> rw [hr] at ha <;>
      simp only at ha ⊢
    · exact ha
    · exact ih w1 ha
    · exact ha

theorem saveInternal_each2 (Q : Option Raw → Prop) (hnone : Q none) (tasks : List Task)
    (hts : Q (some (stringify tasks))) (w : World) (h : Each2 Q w.files) :
    Each2 Q (_saveInternal tasks w).2.files :=
  saveLoop_each2 Q hnone tasks hts _ w h

theorem shaped_none : Shaped none := Or.inl rfl

theorem shaped_stringify (ts : List Task) : Shaped (some (stringify ts)) :=
  Or.inr ⟨ts, rfl⟩

theorem restoreFromBackup_backup (w : World) :
    (restoreFromBackup w).2.files.backup = w.files.backup := by
  unfold restoreFromBackup
  rcases access_cases .backup w with ⟨w1, e1, f1⟩ | ⟨w1, e1, f1⟩ <;> rw [e1] <;> simp only
  · rw [f1]
  rcases readFile_cases .backup w1 with ⟨w2, e2, f2⟩ | ⟨raw, w2, e2, f2, g2⟩ <;> rw [e2] <;>
    simp only
  · rw [f2, f1]
  have h2 : w2.files.backup = w.files.backup := by rw [f2, f1]
  split
  · exact h2
  split
  · exact h2
  split
  · rcases copyFile_cases .backup .data w2 with ⟨w3, e3, f3⟩ | ⟨r3, w3, e3, g3, f3⟩ <;>
      rw [e3] <;> simp only
    · rw [f3]; exact h2
    · rw [f3]; exact h2
  · exact h2

theorem ensureFile_backup (w : World) : (ensureFile w).2.files.backup = w.files.backup := by
  unfold ensureFile
  have hc := ensureFileCheck_files w
  rcases hr : ensureFileCheck w with ⟨_ | _, w1⟩ <;> rw [hr] at hc <;> simp only at hc ⊢
  · rcases mkdir_cases w1 with ⟨w2, e2, f2⟩ | ⟨w2, e2, f2⟩ <;> rw [e2] <;> simp only
    · rw [f2, hc]
    rcases writeFile_cases .data (stringify []) w2 with ⟨w3, e3, f3⟩ | ⟨w3, e3, f3⟩ <;> rw [e3]
    · rw [f3, f2, hc]
    · rw [f3, f2, hc]; rfl
  · rw [hc]

theorem recover_backup (attempt : Nat) (w : World) :
    (recover attempt w).2.files.backup = w.files.backup := by
  unfold recover
  split
  · exact restoreFromBackup_backup w
  · rcases writeFile_cases .data (stringify []) w with ⟨w3, e3, f3⟩ | ⟨w3, e3, f3⟩ <;>
      rw [e3] <;> simp only
    · rw [f3]
    · rw [f3]; rfl

theorem loadTry_backup (attempt : Nat) (w : World) :
    (loadTry attempt w).2.files.backup = w.files.backup := by
  unfold loadTry
  rcases readFile_cases .data w with ⟨w1, e1, f1⟩ | ⟨raw, w1, e1, f1, g1⟩ <;> rw [e1] <;>
    simp only
  · rw [f1]
  have h1 : ∀ r : Outcome (Option (List Task)), r = recover attempt w1 →
      r.2.files.backup = w.files.backup := by
    intro r hr
    rw [hr, recover_backup, f1]
  split
  · exact h1 _ rfl
  split
  · exact h1 _ rfl
  · split
    · simp only [f1]
    · exact h1 _ rfl

theorem loadAttempt_backup (attempt : Nat) (w : World) :
    (loadAttempt attempt w).2.files.backup = w.files.backup := by
  unfold loadAttempt
  have ht := loadTry_backup attempt w
  rcases hr : loadTry attempt w with ⟨_ | _, w1⟩ <;> rw [hr] at ht <;> simp only at ht ⊢
  · rw [recover_backup, ht]
  · exact ht

theorem loadLoop_backup (attempts : List Nat) (w : World) :
    (loadLoop attempts w).2.files.backup = w.files.backup := by
  induction attempts generalizing w with
  | nil => rfl
  | cons attempt rest ih =>
    unfold loadLoop
    have ha := loadAttempt_backup attempt w
    rcases hr : loadAttempt attempt w with ⟨_ | _ | ts, w1⟩ <;> rw [hr] at ha <;>
      simp only at ha ⊢
    · exact ha
    · rw [ih w1, ha]
    · exact ha

theorem loadInternal_backup (w : World) :
    (_loadInternal w).2.files.backup = w.files.backup := by
  unfold _loadInternal
  have he := ensureFile_backup w
  rcases hr : ensureFile w with ⟨_ | _, w1⟩ <;> rw [hr] at he <;> simp only at he ⊢
  · exact he
  · rw [loadLoop_backup, he]

theorem createBackup_source (w : World) :
    (createBackup w).files = w.files ∨
      ∃ d, w.files.data = some (.json d) ∧
        (createBackup w).files = { w.files with backup := w.files.data } := by
  unfold createBackup
  rcases access_cases .data w with ⟨w1, e1, f1⟩ | ⟨w1, e1, f1⟩ <;> rw [e1] <;> simp only
  · exact Or.inl f1
  rcases readFile_cases .data w1 with ⟨w2, e2, f2⟩ | ⟨raw, w2, e2, f2, g2⟩ <;> rw [e2] <;>
    simp only
  · exact Or.inl (by rw [f2, f1])
  have h2 : w2.files = w.files := by rw [f2, f1]
  split
  · exact Or.inl h2
  split
  · exact Or.inl h2
  · rename_i d hd
    rcases copyFile_cases .data .backup w2 with ⟨w3, e3, f3⟩ | ⟨r3, w3, e3, g3, f3⟩ <;>
      rw [e3] <;> simp only
    · exact Or.inl (by rw [f3, h2])
    · have hraw : raw = .json d := by
        cases raw <;> simp [jsonParse] at hd
        exact congrArg Raw.json hd
      subst hraw
      rw [f1] at g2
      have g2' : w.files.data = some (.json d) := g2
      refine Or.inr ⟨d, g2', ?_⟩
      rw [h2] at g3
      have g3' : w.files.data = some r3 := g3
      rw [f3, h2, ← g3']
      rfl

theorem save_after_load_shaped (tasks ts : List Task) (w0 w1 w2 : World)
    (hl : _loadInternal w0 = (.ok ts, w1)) (hb : Shaped w0.files.backup)
    (hf : w2.files = w1.files) : Each2 Shaped (_saveInternal tasks w2).2.files := by
  apply saveInternal_each2 Shaped shaped_none tasks (shaped_stringify tasks)
  rw [hf]
  have h1 := loadInternal_returns w0 ts (by rw [hl])
  have h2 := loadInternal_backup w0
  rw [hl] at h1 h2
  exact ⟨h1 ▸ shaped_stringify ts, by rw [h2]; exact hb⟩

theorem create_backup_shaped (task : NewTask) (w : World) (hb : Shaped w.files.backup) :
    Shaped (create task w).2.files.backup := by
  unfold create
  have h2 := loadInternal_backup w
  rcases hr : _loadInternal w with ⟨_ | tasks, w1⟩ <;> rw [hr] at h2 <;> simp only at h2 ⊢
  · rw [h2]; exact hb
  · have hs := save_after_load_shaped
      (tasks ++ [⟨nextId tasks, newTitle task, false, (now w1).1, (now (now w1).2).1⟩])
      tasks w w1 (now (now w1).2).2 hr hb rfl
    rcases hr2 : _saveInternal
      (tasks ++ [⟨nextId tasks, newTitle task, false, (now w1).1, (now (now w1).2).1⟩])
      (now (now w1).2).2 with ⟨_ | _, w4⟩ <;> simp only [hr2] at hs ⊢ <;> exact hs.2

theorem update_backup_shaped (id : Int) (updates : Patch) (w : World)
    (hb : Shaped w.files.backup) : Shaped (update id updates w).2.files.backup := by
  unfold update
  have h2 := loadInternal_backup w
  rcases hr : _loadInternal w with ⟨_ | tasks, w1⟩ <;> rw [hr] at h2 <;> simp only at h2 ⊢
  · rw [h2]; exact hb
  · split
    · rw [h2]; exact hb
    · rename_i idx _
      split
      · rw [h2]; exact hb
      · rename_i prev hprev
        have hs := save_after_load_shaped
          (tasks.set idx (applyPatch prev updates (now w1).1)) tasks w w1 (now w1).2 hr hb rfl
        rcases hr2 : _saveInternal (tasks.set idx (applyPatch prev updates (now w1).1))
          (now w1).2 with ⟨_ | _, w3⟩ <;> rw [hr2] at hs <;> exact hs.2

theorem remove_backup_shaped (id : Int) (w : World) (hb : Shaped w.files.backup) :
    Shaped (remove id w).2.files.backup := by
  unfold remove
  have h2 := loadInternal_backup w
  rcases hr : _loadInternal w with ⟨_ | tasks, w1⟩ <;> rw [hr] at h2 <;> simp only at h2 ⊢
  · rw [h2]; exact hb
  · split
    · rw [h2]; exact hb
    · rename_i idx _
      have hs := save_after_load_shaped (tasks.eraseIdx idx) tasks w w1 w1 hr hb rfl
      rcases hr2 : _saveInternal (tasks.eraseIdx idx) w1 with ⟨_ | _, w3⟩ <;>
        rw [hr2] at hs <;> exact hs.2

theorem runOps_backup_shaped (ops : List Op) (w : World) (hb : Shaped w.files.backup) :
    Shaped (runOps ops w).files.backup := by
  induction ops generalizing w with
  | nil => exact hb
  | cons op ops ih =>
    apply ih
    cases op with
    | create task => exact create_backup_shaped task w hb
    | update id updates => exact update_backup_shaped id updates w hb
    | remove id => exact remove_backup_shaped id w hb

/-- C20, as stated, fails: on a primary file whose text parses to a value
without a `tasks` array, or to `null`, the backup step copies the file, and
the collection that the backup held is replaced by that value. -/
theorem shapeless_primary_backed_up :
    (createBackup (damagedWorld (.json .other))).files.backup = some (.json .other) ∧
      (createBackup (damagedWorld (.json .null))).files.backup = some (.json .null) ∧
      (damagedWorld (.json .other)).files.backup = some (stringify [milk]) ∧
      ¬ Shaped (createBackup (damagedWorld (.json .other))).files.backup := by
  refine ⟨rfl, rfl, rfl, ?_⟩
  rintro (h | ⟨l, h⟩) <;> cases h

/-- C20, amended: the backup step copies the primary file only if it has
content that parses as JSON, whatever the parsed value, and when no file call
fails it copies every such file; a missing, blank or unparsable primary file
leaves the backup as it was. In the store's operations the step runs after a
load that returned, when the primary file holds a collection: across every
sequence of `create`, `update` and `remove` calls and across a list call,
under any schedule of failing file calls, a backup that is absent or a
collection stays absent or a collection. -/
theorem backup_step_checks_parse_only (w : World) (hq : w.faults = []) :
    (∀ d, w.files.data = some (.json d) →
      (createBackup w).files = { w.files with backup := w.files.data }) ∧
    ((w.files.data = none ∨ w.files.data = some .blank ∨ w.files.data = some .malformed) →
      (createBackup w).files = w.files) ∧
    (∀ v : World, (createBackup v).files = v.files ∨
      ∃ d, v.files.data = some (.json d) ∧
        (createBackup v).files = { v.files with backup := v.files.data }) ∧
    (∀ (v : World) (ops : List Op), Shaped v.files.backup →
      Shaped (runOps ops v).files.backup ∧ Shaped (getAll v).2.files.backup) := by
  refine ⟨?_, ?_, createBackup_source, ?_⟩
  · intro d hd
    obtain ⟨⟨dt, b, t⟩, faults, clock, reads⟩ := w
    simp only at hq hd
    subst hq hd
    rfl
  · intro hd
    obtain ⟨⟨dt, b, t⟩, faults, clock, reads⟩ := w
    simp only at hq hd
    subst hq
    rcases hd with rfl | rfl | rfl <;> rfl
  · intro v ops hb
    refine ⟨runOps_backup_shaped ops v hb, ?_⟩
    show Shaped (_loadInternal v).2.files.backup
    rw [loadInternal_backup]
    exact hb

theorem backup_step_checks_parse_only_witness :
    (∀ d, (damagedWorld (.json .other)).files.data = some (.json d) →
      (createBackup (damagedWorld (.json .other))).files =
        { (damagedWorld (.json .other)).files with
          backup := (damagedWorld (.json .other)).files.data }) ∧
    (((damagedWorld (.json .other)).files.data = none ∨
        (damagedWorld (.json .other)).files.data = some .blank ∨
        (damagedWorld (.json .other)).files.data = some .malformed) →
      (createBackup (damagedWorld (.json .other))).files =
        (damagedWorld (.json .other)).files) ∧
    (∀ v : World, (createBackup v).files = v.files ∨
      ∃ d, v.files.data = some (.json d) ∧
        (createBackup v).files = { v.files with backup := v.files.data }) ∧
    (∀ (v : World) (ops : List Op), Shaped v.files.backup →
      Shaped (runOps ops v).files.backup ∧ Shaped (getAll v).2.files.backup) :=
  backup_step_checks_parse_only (damagedWorld (.json .other)) rfl

/-! ## The terminated save agrees with the save -/

theorem callLive_zero {α : Type} (op : World → Outcome α) (w : World) :
    callLive op 0 w = .dead w := rfl

theorem callLive_succ {α : Type} (op : World → Outcome α) (k : Nat) (w : World) :
    callLive op (k + 1) w = .alive (op w).1 (op w).2 k := rfl

theorem jsonParse_stringify (tasks : List Task) :
    jsonParse (stringify tasks) = .ok (.tasks tasks) := rfl

theorem createBackupLive_alive (k : Nat) (w : World) (u : Unit) (w' : World) (k' : Nat)
    (h : createBackupLive k w = .alive u w' k') : createBackup w = w' := by
  unfold createBackupLive at h
  unfold createBackup
  cases k with
  | zero => simp [callLive_zero] at h
  | succ k1 =>
    simp only [callLive_succ] at h
    rcases h1 : access .data w with ⟨_ | _, w1⟩ <;> rw [h1] at h <;> simp only at h ⊢
    · simp only [Live.alive.injEq] at h
      exact h.2.1
    · cases k1 with
      | zero => simp [callLive_zero] at h
      | succ k2 =>
        simp only [callLive_succ] at h
        rcases h2 : readFile .data w1 with ⟨_ | raw, w2⟩ <;> rw [h2] at h <;>
          simp only at h ⊢
        · simp only [Live.alive.injEq] at h
          exact h.2.1
        · rcases raw with _ | _ | d
          · simp only [isBlank, if_true, Live.alive.injEq] at h ⊢
            exact h.2.1
          · simp only [isBlank, jsonParse, Bool.false_eq_true, if_false,
              Live.alive.injEq] at h ⊢
            exact h.2.1
          · simp only [isBlank, jsonParse, Bool.false_eq_true, if_false] at h ⊢
            cases k2 with
            | zero => simp [callLive_zero] at h
            | succ k3 =>
              simp only [callLive_succ, Live.alive.injEq] at h
              exact h.2.1

theorem unlinkTargetLive_alive (k : Nat) (w : World) (u : Unit) (w' : World) (k' : Nat)
    (h : unlinkTargetLive k w = .alive u w' k') : unlinkTarget w = w' := by
  unfold unlinkTargetLive at h
  unfold unlinkTarget
  cases k with
  | zero => simp [callLive_zero] at h
  | succ k1 =>
    simp only [callLive_succ] at h
    rcases h1 : access .data w with ⟨_ | _, w1⟩ <;> rw [h1] at h <;> simp only at h ⊢
    · simp only [Live.alive.injEq] at h
      exact h.2.1
    · cases k1 with
      | zero => simp [callLive_zero] at h
      | succ k2 =>
        simp only [callLive_succ, Live.alive.injEq] at h
        exact h.2.1

theorem saveTryLive_alive (tasks : List Task) (k : Nat) (w : World) (r : Except JsError Unit)
    (w' : World) (k' : Nat) (h : saveTryLive tasks k w = .alive r w' k') :
    saveTry tasks w = (r, w') := by
  unfold saveTryLive at h
  unfold saveTry
  rcases hb : createBackupLive k w with w1 | ⟨u, w1, k1⟩ <;> rw [hb] at h <;>
    simp only at h
  · cases h
  rw [createBackupLive_alive k w u w1 k1 hb]
  simp only [jsonParse_stringify] at h ⊢
  cases k1 with
  | zero => simp [callLive_zero] at h
  | succ k2 =>
    simp only [callLive_succ] at h
    rcases h2 : writeFile .tmp (stringify tasks) w1 with ⟨e2 | _, w2⟩ <;>
      rw [h2] at h <;> simp only at h ⊢
    · simp only [Live.alive.injEq] at h
      rw [← h.1, ← h.2.1]
    cases k2 with
    | zero => simp [callLive_zero] at h
    | succ k3 =>
      simp only [callLive_succ] at h
      rcases h3 : readFile .tmp w2 with ⟨e3 | tempContent, w3⟩ <;> rw [h3] at h <;>
        simp only at h ⊢
      · simp only [Live.alive.injEq] at h
        rw [← h.1, ← h.2.1]
      rcases hp : jsonParse tempContent with e | verifyData <;> rw [hp] at h <;>
        simp only at h ⊢
      · simp only [Live.alive.injEq] at h
        rw [← h.1, ← h.2.1]
      rcases hf : tasksField verifyData with e | _ | ts <;> rw [hf] at h <;>
        simp only at h ⊢
      · simp only [Live.alive.injEq] at h
        rw [← h.1, ← h.2.1]
      · simp only [Live.alive.injEq] at h
        rw [← h.1, ← h.2.1]
      rcases hu : unlinkTargetLive k3 w3 with w4 | ⟨u4, w4, k4⟩ <;> rw [hu] at h <;>
        simp only at h
      · cases h
      rw [unlinkTargetLive_alive k3 w3 u4 w4 k4 hu]
      cases k4 with
      | zero => simp [callLive_zero] at h
      | succ k5 =>
        simp only [callLive_succ] at h
        rcases h5 : rename .tmp .data w4 with ⟨e5 | _, w5⟩ <;> rw [h5] at h <;>
          simp only at h ⊢
        · simp only [Live.alive.injEq] at h
          rw [← h.1, ← h.2.1]
        cases k5 with
        | zero => simp [callLive_zero] at h
        | succ k6 =>
          simp only [callLive_succ] at h
          rcases h6 : readFile .data w5 with ⟨e6 | finalContent, w6⟩ <;> rw [h6] at h <;>
            simp only at h ⊢
          · simp only [Live.alive.injEq] at h
            rw [← h.1, ← h.2.1]
          rcases hp6 : jsonParse finalContent with e | _ <;> rw [hp6] at h <;>
            simp only at h ⊢
          · simp only [Live.alive.injEq] at h
            rw [← h.1, ← h.2.1]
          · simp only [Live.alive.injEq] at h
            rw [← h.1, ← h.2.1]

theorem saveAttemptLive_alive (tasks : List Task) (attempt k : Nat) (w : World)
    (r : Except JsError Bool) (w' : World) (k' : Nat)
    (h : saveAttemptLive tasks attempt k w = .alive r w' k') :
    saveAttempt tasks attempt w = (r, w') := by
  unfold saveAttemptLive at h
  unfold saveAttempt
  rcases ht : saveTryLive tasks k w with w1 | ⟨_ | _, w1, k1⟩ <;> rw [ht] at h <;>
    simp only at h
  · cases h
  · rw [saveTryLive_alive tasks k w _ w1 k1 ht]
    simp only
    cases k1 with
    | zero => simp [callLive_zero] at h
    | succ k2 =>
      simp only [callLive_succ] at h
      split at h <;> rename_i ha <;> simp only [ha, if_true, if_false] <;>
        simp only [Live.alive.injEq] at h <;> rw [← h.1, ← h.2.1]
  · rw [saveTryLive_alive tasks k w _ w1 k1 ht]
    simp only [Live.alive.injEq] at h ⊢
    rw [← h.1, ← h.2.1]

theorem saveLoopLive_alive (tasks : List Task) (attempts : List Nat) (k : Nat) (w : World)
    (r : Except JsError Unit) (w' : World) (k' : Nat)
    (h : saveLoopLive tasks attempts k w = .alive r w' k') :
    saveLoop tasks attempts w = (r, w') := by
  induction attempts generalizing k w with
  | nil =>
    simp only [saveLoopLive, Live.alive.injEq] at h
    simp only [saveLoop]
    rw [← h.1, ← h.2.1]
  | cons attempt rest ih =>
    unfold saveLoopLive at h
    unfold saveLoop
    rcases ha : saveAttemptLive tasks attempt k w with w1 | ⟨_ | _ | _, w1, k1⟩ <;>
      rw [ha] at h <;> simp only at h
    · cases h
    · rw [saveAttemptLive_alive tasks attempt k w _ w1 k1 ha]
      simp only [Live.alive.injEq] at h ⊢
      rw [← h.1, ← h.2.1]
    · rw [saveAttemptLive_alive tasks attempt k w _ w1 k1 ha]
      exact ih k1 w1 h
    · rw [saveAttemptLive_alive tasks attempt k w _ w1 k1 ha]
      simp only [Live.alive.injEq] at h ⊢
      rw [← h.1, ← h.2.1]

theorem saveLive_alive (tasks : List Task) (k : Nat) (w : World) (r : Except JsError Unit)
    (w' : World) (k' : Nat) (h : saveLive tasks k w = .alive r w' k') :
    _saveInternal tasks w = (r, w') :=
  saveLoopLive_alive tasks _ k w r w' k' h

theorem saveLive_quiet (tasks : List Task) (w : World) (d : JData) (n : Nat)
    (hq : w.faults = []) (hd : w.files.data = some (.json d)) :
    saveLive tasks (n + 9) w = .alive (.ok ()) (saved tasks w) n := by
  obtain ⟨⟨dt, b, t⟩, faults, clock, reads⟩ := w
  simp only at hq hd
  subst hq hd
  rfl

theorem crash_then_list (w : World) (c c0 : List Task) (k : Nat) (hq : w.faults = [])
    (hd : w.files.data = some (.json (.tasks c0))) :
    (k ≤ 6 → (getAll { w with files := crashFiles c k w }).1 = .ok c0) ∧
    (k = 7 → crashFiles c k w = ⟨none, some (stringify c0), some (stringify c)⟩ ∧
      (getAll { w with files := crashFiles c k w }).1 = .ok []) ∧
    (8 ≤ k → (getAll { w with files := crashFiles c k w }).1 = .ok c) := by
  obtain ⟨⟨dt, b, t⟩, faults, clock, reads⟩ := w
  simp only at hq hd
  subst hq hd
  rcases k with _ | _ | _ | _ | _ | _ | _ | _ | _ | n
  · exact ⟨fun _ => rfl, fun h => (by omega), fun h => (by omega)⟩
  · exact ⟨fun _ => rfl, fun h => (by omega), fun h => (by omega)⟩
  · exact ⟨fun _ => rfl, fun h => (by omega), fun h => (by omega)⟩
  · exact ⟨fun _ => rfl, fun h => (by omega), fun h => (by omega)⟩
  · exact ⟨fun _ => rfl, fun h => (by omega), fun h => (by omega)⟩
  · exact ⟨fun _ => rfl, fun h => (by omega), fun h => (by omega)⟩
  · exact ⟨fun _ => rfl, fun h => (by omega), fun h => (by omega)⟩
  · exact ⟨fun h => (by omega), fun _ => ⟨rfl, rfl⟩, fun h => (by omega)⟩
  · exact ⟨fun h => (by omega), fun h => (by omega), fun _ => rfl⟩
  · refine ⟨fun h => (by omega), fun h => (by omega), fun _ => ?_⟩
    have hs := saveLive_quiet c ⟨⟨some (.json (.tasks c0)), b, t⟩, [], clock, reads⟩
      (.tasks c0) n rfl rfl
    have h9 : n + 1 + 1 + 1 + 1 + 1 + 1 + 1 + 1 + 1 = n + 9 := rfl
    unfold crashFiles
    rw [h9, hs]
    rfl

/-- C11 fails on the code: with the record `milk` in the primary file and a
save of `milk` and `bread`, a process terminated once seven file calls of the
save have completed (the backup, the write and the check of the temporary
file, and the removal of the primary file that precedes the rename) leaves no
primary file, and the list operation of the restarted process returns no
record, neither the old collection nor the new one. Terminated after five or
six calls (temporary file written, primary not yet removed) the old
collection is listed, after eight calls (rename done) the new one. -/
theorem crash_before_rename_loses_primary :
    crashFiles [milk, bread] 7 (worldOf [milk]) =
        ⟨none, some (stringify [milk]), some (stringify [milk, bread])⟩ ∧
      (getAll { worldOf [milk] with files := crashFiles [milk, bread] 7 (worldOf [milk]) }).1
        = .ok [] ∧
      (getAll { worldOf [milk] with files := crashFiles [milk, bread] 5 (worldOf [milk]) }).1
        = .ok [milk] ∧
      (getAll { worldOf [milk] with files := crashFiles [milk, bread] 6 (worldOf [milk]) }).1
        = .ok [milk] ∧
      (getAll { worldOf [milk] with files := crashFiles [milk, bread] 8 (worldOf [milk]) }).1
        = .ok [milk, bread] ∧
      (crashFiles [milk, bread] 5 (worldOf [milk])).tmp = some (stringify [milk, bread]) ∧
      ([] : List Task) ≠ [milk] ∧ ([] : List Task) ≠ [milk, bread] :=
  ⟨rfl, rfl, rfl, rfl, rfl, rfl, by decide, by decide⟩

/-! ## The gate -/

theorem gate_step_inv (g : GateLog) (e : GateEvent)
    (h : (g.gate.queue ≠ [] → g.gate.isLocked = true) ∧ g.arrivals = g.grants ++ g.gate.queue) :
    ((g.step e).gate.queue ≠ [] → (g.step e).gate.isLocked = true) ∧
      (g.step e).arrivals = (g.step e).grants ++ (g.step e).gate.queue := by
  obtain ⟨⟨locked, queue⟩, arrivals, grants, releases⟩ := g
  simp only at h
  cases e with
  | acquire caller =>
    cases locked with
    | false =>
      have hq : queue = [] := by
        by_contra hne
        exact absurd (h.1 hne) (by decide)
      subst hq
      simp only [GateLog.step, AsyncMutex.acquire]
      simp only [List.append_nil] at h
      exact ⟨fun hne => absurd rfl hne, by simp [h.2]⟩
    | true =>
      simp only [GateLog.step, AsyncMutex.acquire]
      exact ⟨fun _ => rfl, by simp [h.2]⟩
  | release =>
    cases queue with
    | nil =>
      simp only [GateLog.step, AsyncMutex.release]
      exact ⟨fun hne => absurd rfl hne, h.2⟩
    | cons next rest =>
      simp only [GateLog.step, AsyncMutex.release]
      exact ⟨fun _ => h.1 (by simp), by simp [h.2]⟩

theorem gate_run_inv (events : List GateEvent) (g : GateLog)
    (h : (g.gate.queue ≠ [] → g.gate.isLocked = true) ∧ g.arrivals = g.grants ++ g.gate.queue) :
    ((g.run events).gate.queue ≠ [] → (g.run events).gate.isLocked = true) ∧
      (g.run events).arrivals = (g.run events).grants ++ (g.run events).gate.queue := by
  induction events generalizing g with
  | nil => exact h
  | cons e es ih => exact ih (g.step e) (gate_step_inv g e h)

theorem gate_run_holders (events : List GateEvent) (g : GateLog)
    (h : g.grants.length = g.releases + (if g.gate.isLocked then 1 else 0))
    (hd : g.disciplined events = true) :
    (g.run events).grants.length =
      (g.run events).releases + (if (g.run events).gate.isLocked then 1 else 0) := by
  induction events generalizing g with
  | nil => exact h
  | cons e es ih =>
    obtain ⟨⟨locked, queue⟩, arrivals, grants, releases⟩ := g
    simp only at h
    cases e with
    | acquire caller =>
      simp only [GateLog.disciplined] at hd
      apply ih _ _ hd
      cases locked with
      | false =>
        simp only [GateLog.step, AsyncMutex.acquire] at h ⊢
        simp at h ⊢
        omega
      | true =>
        simp only [GateLog.step, AsyncMutex.acquire] at h ⊢
        simpa using h
    | release =>
      simp only [GateLog.disciplined, Bool.and_eq_true, decide_eq_true_eq,
        GateLog.holders] at hd
      apply ih _ _ hd.2
      have hpos := hd.1
      cases locked with
      | false =>
        simp at h
        omega
      | true =>
        cases queue with
        | nil =>
          simp only [GateLog.step, AsyncMutex.release] at h ⊢
          simp at h ⊢
          omega
        | cons next rest =>
          simp only [GateLog.step, AsyncMutex.release] at h ⊢
          simp at h ⊢
          omega

/-- C16: the gate as a machine over its flag and its queue. `acquire` on a
free gate resolves at once and marks the gate held; on a held gate it puts
the caller at the end of the queue and does not resolve; `release` resolves
the caller at the head of the queue and leaves the flag as it is, held, when
the queue has a caller, and marks the gate free otherwise. In every state
reached from the unused gate a queue with a caller in it means the gate is
held, and the callers resolved so far followed by those in the queue are the
callers in the order of their `acquire` calls; when `release` is only called
by holders there is at most one holder, and one exactly when the gate is
held. -/
theorem gate_machine :
    (∀ (m : AsyncMutex) (caller : Nat), m.isLocked = false →
      m.acquire caller = ({ m with isLocked := true }, true)) ∧
    (∀ (m : AsyncMutex) (caller : Nat), m.isLocked = true →
      m.acquire caller = ({ m with queue := m.queue ++ [caller] }, false)) ∧
    (∀ (m : AsyncMutex) (next : Nat) (rest : List Nat), m.queue = next :: rest →
      m.release = ({ m with queue := rest }, some next) ∧
        m.release.1.isLocked = m.isLocked) ∧
    (∀ m : AsyncMutex, m.queue = [] → m.release = ({ m with isLocked := false }, none)) ∧
    (∀ events : List GateEvent,
      ((GateLog.start.run events).gate.queue ≠ [] →
        (GateLog.start.run events).gate.isLocked = true) ∧
      (GateLog.start.run events).arrivals =
        (GateLog.start.run events).grants ++ (GateLog.start.run events).gate.queue) ∧
    (∀ events : List GateEvent, GateLog.start.disciplined events = true →
      (GateLog.start.run events).holders ≤ 1 ∧
      ((GateLog.start.run events).gate.isLocked = true ↔
        (GateLog.start.run events).holders = 1)) := by
  refine ⟨?_, ?_, ?_, ?_, ?_, ?_⟩
  · intro m caller h
    simp [AsyncMutex.acquire, h]
  · intro m caller h
    simp [AsyncMutex.acquire, h]
  · intro m next rest h
    simp [AsyncMutex.release, h]
  · intro m h
    simp [AsyncMutex.release, h]
  · intro events
    exact gate_run_inv events GateLog.start ⟨fun h => absurd rfl h, rfl⟩
  · intro events hd
    have h := gate_run_holders events GateLog.start rfl hd
    unfold GateLog.holders
    cases hl : (GateLog.start.run events).gate.isLocked <;> rw [hl] at h <;> simp at h ⊢ <;>
      omega

theorem gate_machine_witness :
    (GateLog.start.run [.acquire 1, .acquire 2, .acquire 3, .release, .release]).holders ≤ 1 ∧
      ((GateLog.start.run
          [.acquire 1, .acquire 2, .acquire 3, .release, .release]).gate.isLocked = true ↔
        (GateLog.start.run
          [.acquire 1, .acquire 2, .acquire 3, .release, .release]).holders = 1) :=
  gate_machine.2.2.2.2.2 [.acquire 1, .acquire 2, .acquire 3, .release, .release] rfl

theorem run_acquires_held (during : List Nat) (g : GateLog) (hl : g.gate.isLocked = true) :
    g.run (during.map GateEvent.acquire) =
      ⟨⟨true, g.gate.queue ++ during⟩, g.arrivals ++ during, g.grants, g.releases⟩ := by
  induction during generalizing g with
  | nil =>
    obtain ⟨⟨locked, queue⟩, arrivals, grants, releases⟩ := g
    simp only at hl
    subst hl
    simp [GateLog.run]
  | cons c cs ih =>
    obtain ⟨⟨locked, queue⟩, arrivals, grants, releases⟩ := g
    simp only at hl
    subst hl
    have hs : (GateLog.mk ⟨true, queue⟩ arrivals grants releases).step (.acquire c) =
        ⟨⟨true, queue ++ [c]⟩, arrivals ++ [c], grants, releases⟩ := rfl
    simp only [List.map_cons, GateLog.run, List.foldl_cons]
    rw [hs]
    have := ih ⟨⟨true, queue ++ [c]⟩, arrivals ++ [c], grants, releases⟩ rfl
    simp only [GateLog.run] at this
    rw [this]
    simp

/-- C17: a caller that holds the gate and runs its operation through
`withFileLock` calls `release` exactly once, whether the operation returns a
value or throws, and the outcome of the operation, the error included, is the
outcome of the call. Afterwards the gate is free when nobody waits, so that
the next `acquire` resolves at once, and otherwise it stays held and is
handed to the caller that has waited longest. A call of `withFileLock` on a
free gate runs its operation at once in this way, a call on a held gate puts
the caller in the queue. -/
theorem lock_released_on_every_path {α : Type} (operation : World → Outcome α)
    (during : List Nat) (g : GateLog) (w : World) (hl : g.gate.isLocked = true) :
    (lockedSection operation during g w).1 = operation w ∧
    (∀ e w', operation w = (.error e, w') →
      (lockedSection operation during g w).1 = (.error e, w')) ∧
    (lockedSection operation during g w).2.releases = g.releases + 1 ∧
    (g.gate.queue ++ during = [] →
      (lockedSection operation during g w).2.gate = fileMutex ∧
      (lockedSection operation during g w).2.grants = g.grants ∧
      ∀ caller, ((lockedSection operation during g w).2.gate.acquire caller).2 = true) ∧
    (∀ next rest, g.gate.queue ++ during = next :: rest →
      (lockedSection operation during g w).2.gate = ⟨true, rest⟩ ∧
      (lockedSection operation during g w).2.grants = g.grants ++ [next]) ∧
    (∀ (caller : Nat) (f : GateLog), f.gate.isLocked = false →
      withFileLock operation caller during f w =
        (some (operation w),
          (lockedSection operation during (f.step (.acquire caller)) w).2) ∧
      (f.step (.acquire caller)).gate.isLocked = true) ∧
    (∀ (caller : Nat), withFileLock operation caller during g w =
      (none, ⟨⟨true, g.gate.queue ++ [caller]⟩, g.arrivals ++ [caller], g.grants,
        g.releases⟩)) := by
  have hrun := run_acquires_held during g hl
  refine ⟨rfl, fun e w' h => h ▸ rfl, ?_, ?_, ?_, ?_, ?_⟩
  · simp only [lockedSection, hrun, GateLog.step]
    cases g.gate.queue ++ during <;> rfl
  · intro hq
    have hs : (lockedSection operation during g w).2 =
        ⟨fileMutex, g.arrivals ++ during, g.grants, g.releases + 1⟩ := by
      simp only [lockedSection, hrun, GateLog.step, hq, AsyncMutex.release]
      rfl
    rw [hs]
    exact ⟨rfl, rfl, fun _ => rfl⟩
  · intro next rest hq
    have hs : (lockedSection operation during g w).2 =
        ⟨⟨true, rest⟩, g.arrivals ++ during, g.grants ++ [next], g.releases + 1⟩ := by
      simp only [lockedSection, hrun, GateLog.step, hq, AsyncMutex.release]
    rw [hs]
    exact ⟨rfl, rfl⟩
  · intro caller f hf
    obtain ⟨⟨locked, queue⟩, arrivals, grants, releases⟩ := f
    simp only at hf
    subst hf
    exact ⟨rfl, rfl⟩
  · intro caller
    obtain ⟨⟨locked, queue⟩, arrivals, grants, releases⟩ := g
    simp only at hl
    subst hl
    rfl

theorem lock_released_on_every_path_witness :
    (lockedSection (_saveInternal [milk, bread]) [3]
        (GateLog.start.run [.acquire 1, .acquire 2]) brokenDiskWorld).1 =
      _saveInternal [milk, bread] brokenDiskWorld ∧
    (∀ e w', _saveInternal [milk, bread] brokenDiskWorld = (.error e, w') →
      (lockedSection (_saveInternal [milk, bread]) [3]
        (GateLog.start.run [.acquire 1, .acquire 2]) brokenDiskWorld).1 = (.error e, w')) ∧
    (lockedSection (_saveInternal [milk, bread]) [3]
        (GateLog.start.run [.acquire 1, .acquire 2]) brokenDiskWorld).2.releases =
      (GateLog.start.run [.acquire 1, .acquire 2]).releases + 1 ∧
    ((GateLog.start.run [.acquire 1, .acquire 2]).gate.queue ++ [3] = [] →
      (lockedSection (_saveInternal [milk, bread]) [3]
        (GateLog.start.run [.acquire 1, .acquire 2]) brokenDiskWorld).2.gate = fileMutex ∧
      (lockedSection (_saveInternal [milk, bread]) [3]
        (GateLog.start.run [.acquire 1, .acquire 2]) brokenDiskWorld).2.grants =
        (GateLog.start.run [.acquire 1, .acquire 2]).grants ∧
      ∀ caller, ((lockedSection (_saveInternal [milk, bread]) [3]
        (GateLog.start.run [.acquire 1, .acquire 2]) brokenDiskWorld).2.gate.acquire
          caller).2 = true) ∧
    (∀ next rest, (GateLog.start.run [.acquire 1, .acquire 2]).gate.queue ++ [3] = next :: rest →
      (lockedSection (_saveInternal [milk, bread]) [3]
        (GateLog.start.run [.acquire 1, .acquire 2]) brokenDiskWorld).2.gate = ⟨true, rest⟩ ∧
      (lockedSection (_saveInternal [milk, bread]) [3]
        (GateLog.start.run [.acquire 1, .acquire 2]) brokenDiskWorld).2.grants =
        (GateLog.start.run [.acquire 1, .acquire 2]).grants ++ [next]) ∧
    (∀ (caller : Nat) (f : GateLog), f.gate.isLocked = false →
      withFileLock (_saveInternal [milk, bread]) caller [3] f brokenDiskWorld =
        (some (_saveInternal [milk, bread] brokenDiskWorld),
          (lockedSection (_saveInternal [milk, bread]) [3] (f.step (.acquire caller))
            brokenDiskWorld).2) ∧
      (f.step (.acquire caller)).gate.isLocked = true) ∧
    (∀ (caller : Nat), withFileLock (_saveInternal [milk, bread]) caller [3]
        (GateLog.start.run [.acquire 1, .acquire 2]) brokenDiskWorld =
      (none, ⟨⟨true, (GateLog.start.run [.acquire 1, .acquire 2]).gate.queue ++ [caller]⟩,
        (GateLog.start.run [.acquire 1, .acquire 2]).arrivals ++ [caller],
        (GateLog.start.run [.acquire 1, .acquire 2]).grants,
        (GateLog.start.run [.acquire 1, .acquire 2]).releases⟩)) :=
  lock_released_on_every_path (_saveInternal [milk, bread]) [3]
    (GateLog.start.run [.acquire 1, .acquire 2]) brokenDiskWorld rfl

/-! ## Calls in flight are served one at a time -/

theorem seqRun_append {α : Type} (ops : Nat → World → Outcome α) (cs : List Nat) (c : Nat)
    (w : World) :
    seqRun ops (cs ++ [c]) w =
      ((seqRun ops cs w).1 ++ [(c, (ops c (seqRun ops cs w).2).1)],
        (ops c (seqRun ops cs w).2).2) := by
  induction cs generalizing w with
  | nil => rfl
  | cons a as ih =>
    have h := ih (ops a w).2
    show seqRun ops (a :: (as ++ [c])) w = _
    simp only [seqRun, h, List.cons_append]

theorem sys_step_inv {α : Type} (ops : Nat → World → Outcome α) (w : World) (s : Sys α)
    (e : SysEvent) (h : SysInv ops w s) : SysInv ops w (s.step ops e) := by
  obtain ⟨⟨locked, queue⟩, running, world, finished, arrived⟩ := s
  obtain ⟨h1, h2, h3, h4, h5⟩ := h
  simp only at h1 h2 h3 h4 h5
  cases e with
  | arrive caller =>
    cases running with
    | none =>
      simp only [Option.isSome_none] at h4
      subst h4
      have hq : queue = [] := by
        by_contra hne
        exact absurd (h5 hne) (by decide)
      subst hq
      simp only [Option.toList_none, List.append_nil] at h3
      refine ⟨h1, h2, ?_, rfl, fun _ => rfl⟩
      simp [Sys.step, AsyncMutex.acquire, h3]
    | some r =>
      simp only [Option.isSome_some] at h4
      subst h4
      refine ⟨h1, h2, ?_, rfl, fun _ => rfl⟩
      simp only [Sys.step, AsyncMutex.acquire]
      simp [← h3]
  | finish =>
    cases running with
    | none => exact ⟨h1, h2, h3, h4, h5⟩
    | some r =>
      simp only [Option.isSome_some] at h4
      subst h4
      subst h1
      have hs := seqRun_append ops (finished.map Prod.fst) r w
      cases queue with
      | nil =>
        simp only [Option.toList_some, List.append_nil] at h3
        refine ⟨?_, ?_, ?_, rfl, fun hne => absurd rfl hne⟩
        · simp [Sys.step, AsyncMutex.release, hs]
        · simp only [Sys.step, AsyncMutex.release, List.map_append, List.map_cons,
            List.map_nil, hs]
          rw [← h2]
        · simp [Sys.step, AsyncMutex.release, h3]
      | cons next rest =>
        simp only [Option.toList_some] at h3
        refine ⟨?_, ?_, ?_, rfl, fun _ => rfl⟩
        · simp [Sys.step, AsyncMutex.release, hs]
        · simp only [Sys.step, AsyncMutex.release, List.map_append, List.map_cons,
            List.map_nil, hs]
          rw [← h2]
        · simp [Sys.step, AsyncMutex.release, ← h3]

theorem sys_run_inv {α : Type} (ops : Nat → World → Outcome α) (w : World)
    (events : List SysEvent) (s : Sys α) (h : SysInv ops w s) :
    SysInv ops w (s.run ops events) := by
  induction events generalizing s with
  | nil => exact h
  | cons e es ih => exact ih (s.step ops e) (sys_step_inv ops w s e h)

theorem sys_start_inv {α : Type} (ops : Nat → World → Outcome α) (w : World) :
    SysInv ops w (Sys.start w) :=
  ⟨rfl, rfl, rfl, rfl, fun h => absurd rfl h⟩

theorem sys_step_trace {α : Type} (ops : Nat → World → Outcome α) (w : World) (s : Sys α)
    (e : SysEvent) (events : List SysEvent) (h : SysInv ops w s) :
    (s.step ops e).arrived ++ callersOf events = s.arrived ++ callersOf (e :: events) ∧
    (s.step ops e).finished.length +
        completions ((s.step ops e).running.toList.length + (s.step ops e).gate.queue.length)
          events =
      s.finished.length +
        completions (s.running.toList.length + s.gate.queue.length) (e :: events) := by
  obtain ⟨⟨locked, queue⟩, running, world, finished, arrived⟩ := s
  obtain ⟨h1, h2, h3, h4, h5⟩ := h
  simp only at h1 h2 h3 h4 h5
  cases e with
  | arrive caller =>
    cases running with
    | none =>
      simp only [Option.isSome_none] at h4
      subst h4
      have hq : queue = [] := by
        by_contra hne
        exact absurd (h5 hne) (by decide)
      subst hq
      simp [Sys.step, AsyncMutex.acquire, callersOf, completions]
    | some r =>
      simp only [Option.isSome_some] at h4
      subst h4
      simp [Sys.step, AsyncMutex.acquire, callersOf, completions, Nat.add_assoc]
  | finish =>
    cases running with
    | none =>
      simp only [Option.isSome_none] at h4
      subst h4
      have hq : queue = [] := by
        by_contra hne
        exact absurd (h5 hne) (by decide)
      subst hq
      simp [Sys.step, callersOf, completions]
    | some r =>
      subst h1
      cases queue with
      | nil =>
        simp [Sys.step, AsyncMutex.release, callersOf, completions]
        omega
      | cons next rest =>
        simp only [Sys.step, AsyncMutex.release, callersOf, Option.toList_some,
          List.length_append, List.length_cons, List.length_nil, completions]
        refine ⟨trivial, ?_⟩
        show finished.length + (0 + 1) + completions (0 + 1 + rest.length) events =
          finished.length + (completions (0 + 1 + rest.length) events + 1)
        omega

theorem sys_run_trace {α : Type} (ops : Nat → World → Outcome α) (w : World)
    (events : List SysEvent) (s : Sys α) (h : SysInv ops w s) :
    (s.run ops events).arrived = s.arrived ++ callersOf events ∧
    (s.run ops events).finished.length =
      s.finished.length +
        completions (s.running.toList.length + s.gate.queue.length) events := by
  induction events generalizing s with
  | nil => simp [Sys.run, callersOf, completions]
  | cons e es ih =>
    have h2 := ih (s.step ops e) (sys_step_inv ops w s e h)
    have h3 := sys_step_trace ops w s e es h
    have hr : s.run ops (e :: es) = (s.step ops e).run ops es := rfl
    rw [hr, h2.1, h2.2]
    exact h3

theorem seq_updates (v : Nat → JsVal) (id : Int) (cs : List Nat) (w : World)
    (l1 l2 : List Task) (prev : Task) (hid : prev.id = id) (hq : w.faults = [])
    (hd : w.files.data = some (.json (.tasks (l1 ++ prev :: l2))))
    (hfirst : ∀ x ∈ l1, x.id ≠ id) :
    (∀ p ∈ (seqRun (setCompleted id v) cs w).1,
      ∃ t, p.2 = .ok (some t) ∧ t.id = id ∧ t.completed = (v p.1).truthy) ∧
    ∀ last, cs.getLast? = some last →
      (seqRun (setCompleted id v) cs w).2.files.data =
        some (.json (.tasks (l1 ++
          ⟨prev.id, prev.title, (v last).truthy, prev.createdAt,
            w.clock (w.reads + cs.length - 1)⟩ :: l2))) := by
  induction cs generalizing w prev with
  | nil => exact ⟨fun p hp => (by cases hp), fun last h => (by cases h)⟩
  | cons c rest ih =>
    subst hid
    have hu := update_first w l1 l2 prev ⟨none, some (v c)⟩ hq hd hfirst
    have hop : setCompleted prev.id v c w = _ := hu
    have ih2 := ih
      (saved (l1 ++ applyPatch prev ⟨none, some (v c)⟩ (w.clock w.reads) :: l2)
        { w with reads := w.reads + 1 })
      (applyPatch prev ⟨none, some (v c)⟩ (w.clock w.reads)) rfl hq rfl
    simp only [seqRun, hop]
    refine ⟨?_, ?_⟩
    · intro p hp
      rcases List.mem_cons.1 hp with rfl | hp
      · exact ⟨_, rfl, rfl, rfl⟩
      · exact ih2.1 p hp
    · intro last hlast
      cases rest with
      | nil =>
        simp only [List.getLast?_singleton, Option.some.injEq] at hlast
        subst hlast
        simp only [seqRun]
        rfl
      | cons c2 rest2 =>
        have hl : (c2 :: rest2).getLast? = some last := by
          simpa [List.getLast?_cons_cons] using hlast
        have h3 := ih2.2 last hl
        rw [h3]
        have hr : (saved (l1 ++ applyPatch prev ⟨none, some (v c)⟩ (w.clock w.reads) :: l2)
            { w with reads := w.reads + 1 }).reads + (c2 :: rest2).length - 1 =
            w.reads + (c :: c2 :: rest2).length - 1 := by
          simp only [saved, List.length_cons]
          omega
        rw [hr]
        rfl

/-- C18: with several `update` calls on the same record in flight, each
setting `completed`, whatever the order in which the calls arrive at the gate
and complete. Every call that arrives is recorded, none is lost: the calls
that are complete are the first arrivals, as many as completions took place,
in the order of their arrival; the next arrival, if any, is the one that
runs, and the later ones wait in that order. No operation starts while
another runs: the files are at every moment in the state that the operations
of the complete calls leave when run one at a time in the order of their
arrival, and every complete call has returned what it returns in that run,
the updated record with its caller's value of `completed`. When as many
completions took place as calls arrived, all calls are complete and the
record carries the `completed` value of the last caller to arrive and the
clock reading of its operation as `updatedAt`, with its id, title and
creation time unchanged and the other records as before. (No file call
fails; an operation is taken to run from the moment its `acquire` resolves to
its `release`.) -/
theorem concurrent_updates_serialized (w : World) (l1 l2 : List Task) (prev : Task)
    (v : Nat → JsVal) (events : List SysEvent) (hq : w.faults = [])
    (hd : w.files.data = some (.json (.tasks (l1 ++ prev :: l2))))
    (hfirst : ∀ x ∈ l1, x.id ≠ prev.id) :
    (served prev.id v w events).arrived = callersOf events ∧
    (served prev.id v w events).finished.map Prod.fst =
      (callersOf events).take (completions 0 events) ∧
    (served prev.id v w events).running = (callersOf events)[completions 0 events]? ∧
    (served prev.id v w events).gate.queue =
      (callersOf events).drop (completions 0 events + 1) ∧
    (served prev.id v w events).world =
      some (seqRun (setCompleted prev.id v)
        ((callersOf events).take (completions 0 events)) w).2 ∧
    (served prev.id v w events).finished =
      (seqRun (setCompleted prev.id v)
        ((callersOf events).take (completions 0 events)) w).1 ∧
    (∀ p ∈ (served prev.id v w events).finished,
      ∃ t, p.2 = .ok (some t) ∧ t.id = prev.id ∧ t.completed = (v p.1).truthy) ∧
    (completions 0 events = (callersOf events).length →
      (served prev.id v w events).finished.map Prod.fst = callersOf events ∧
      (served prev.id v w events).running = none ∧
      ∀ last, (callersOf events).getLast? = some last →
        ∃ w', (served prev.id v w events).world = some w' ∧
          persisted w' = l1 ++
            ⟨prev.id, prev.title, (v last).truthy, prev.createdAt,
              w.clock (w.reads + (callersOf events).length - 1)⟩ :: l2) := by
  have hinv : SysInv (setCompleted prev.id v) w (served prev.id v w events) :=
    sys_run_inv (setCompleted prev.id v) w events (Sys.start w)
      (sys_start_inv (setCompleted prev.id v) w)
  have htr := sys_run_trace (setCompleted prev.id v) w events (Sys.start w)
    (sys_start_inv (setCompleted prev.id v) w)
  have harr : (served prev.id v w events).arrived = callersOf events := by
    have := htr.1
    simpa [Sys.start] using this
  have hlen : (served prev.id v w events).finished.length = completions 0 events := by
    have := htr.2
    simpa [Sys.start, fileMutex] using this
  obtain ⟨h1, h2, h3, h4, h5⟩ := hinv
  rw [harr, List.append_assoc] at h3
  have hfin : (served prev.id v w events).finished.map Prod.fst =
      (callersOf events).take (completions 0 events) := by
    rw [← h3]
    exact (List.take_left' (by rw [List.length_map, hlen])).symm
  have hrest : (served prev.id v w events).running.toList ++
      (served prev.id v w events).gate.queue =
      (callersOf events).drop (completions 0 events) := by
    rw [← h3]
    exact (List.drop_left' (by rw [List.length_map, hlen])).symm
  have hrun : (served prev.id v w events).running = (callersOf events)[completions 0 events]? ∧
      (served prev.id v w events).gate.queue =
        (callersOf events).drop (completions 0 events + 1) := by
    have hh := congrArg List.head? hrest
    have ht := congrArg List.tail hrest
    rw [List.head?_drop] at hh
    rw [List.tail_drop] at ht
    cases hr : (served prev.id v w events).running with
    | none =>
      rw [hr] at hh ht h4
      have hq0 : (served prev.id v w events).gate.queue = [] := by
        by_contra hne
        have := h5 hne
        rw [h4] at this
        exact absurd this (by decide)
      rw [hq0] at hh ht ⊢
      exact ⟨by simpa using hh, by simpa using ht⟩
    | some r =>
      rw [hr] at hh ht
      exact ⟨by simpa using hh, by simpa using ht⟩
  rw [hfin] at h1 h2
  have hseq := seq_updates v prev.id ((callersOf events).take (completions 0 events)) w
    l1 l2 prev rfl hq hd hfirst
  refine ⟨harr, hfin, hrun.1, hrun.2, h1, h2, ?_, ?_⟩
  · intro p hp
    rw [h2] at hp
    exact hseq.1 p hp
  · intro hall
    have htake : (callersOf events).take (completions 0 events) = callersOf events := by
      rw [hall]
      exact List.take_length _
    refine ⟨by rw [hfin, htake], ?_, ?_⟩
    · rw [hrun.1, hall]
      exact List.getElem?_eq_none (Nat.le_refl _)
    · intro last hlast
      rw [htake] at h1 hseq
      exact ⟨_, h1, persisted_of_data _ _ (hseq.2 last hlast)⟩

theorem concurrent_updates_serialized_witness :
    (served milk.id toggleStates (worldOf ([] ++ milk :: [bread])) rapidClicks).arrived =
        [0, 1, 2, 3, 4] ∧
      (served milk.id toggleStates (worldOf ([] ++ milk :: [bread]))
        rapidClicks).finished.map Prod.fst = [0, 1, 2, 3, 4] ∧
      ∃ w', (served milk.id toggleStates (worldOf ([] ++ milk :: [bread])) rapidClicks).world
          = some w' ∧
        persisted w' = [] ++
          ⟨milk.id, milk.title, (toggleStates 4).truthy, milk.createdAt,
            (worldOf ([] ++ milk :: [bread])).clock
              ((worldOf ([] ++ milk :: [bread])).reads + (callersOf rapidClicks).length - 1)⟩
            :: [bread] :=
  ⟨(concurrent_updates_serialized (worldOf ([] ++ milk :: [bread])) [] [bread] milk
      toggleStates rapidClicks rfl rfl (by simp)).1,
    ((concurrent_updates_serialized (worldOf ([] ++ milk :: [bread])) [] [bread] milk
      toggleStates rapidClicks rfl rfl (by simp)).2.2.2.2.2.2.2 rfl).1,
    ((concurrent_updates_serialized (worldOf ([] ++ milk :: [bread])) [] [bread] milk
      toggleStates rapidClicks rfl rfl (by simp)).2.2.2.2.2.2.2 rfl).2.2 4 rfl⟩

/-! ## What the list operation can throw -/

theorem recover_throws (attempt : Nat) (w : World) (e : JsError)
    (h : (recover attempt w).1 = .error e) : e = .fsError := by
  unfold recover at h
  split at h
  · cases h
  · rcases writeFile_cases .data (stringify []) w with ⟨w3, e3, f3⟩ | ⟨w3, e3, f3⟩ <;>
      rw [e3] at h <;> simp only at h
    · simp only [Except.error.injEq] at h
      exact h.symm
    · cases h

theorem loadAttempt_throws (attempt : Nat) (w : World) (e : JsError)
    (h : (loadAttempt attempt w).1 = .error e) : e = .fsError := by
  unfold loadAttempt at h
  rcases hr : loadTry attempt w with ⟨_ | _, w1⟩ <;> rw [hr] at h <;> simp only at h
  · exact recover_throws attempt w1 e h
  · cases h

theorem loadLoop_throws (attempts : List Nat) (w : World) (e : JsError)
    (h : (loadLoop attempts w).1 = .error e) : e = .fsError := by
  induction attempts generalizing w with
  | nil => cases h
  | cons attempt rest ih =>
    unfold loadLoop at h
    have ha := loadAttempt_throws attempt w
    rcases hr : loadAttempt attempt w with ⟨e1 | _ | ts, w1⟩ <;> rw [hr] at h ha <;>
      simp only at h
    · simp only [Except.error.injEq] at h
      subst h
      exact ha e1 rfl
    · exact ih w1 h
    · cases h

theorem ensureFile_throws (w : World) (e : JsError) (h : (ensureFile w).1 = .error e) :
    e = .fsError := by
  unfold ensureFile at h
  rcases hr : ensureFileCheck w with ⟨_ | _, w1⟩ <;> rw [hr] at h <;> simp only at h
  · rcases mkdir_cases w1 with ⟨w2, e2, f2⟩ | ⟨w2, e2, f2⟩ <;> rw [e2] at h <;>
      simp only at h
    · simp only [Except.error.injEq] at h
      exact h.symm
    · rcases writeFile_cases .data (stringify []) w2 with ⟨w3, e3, f3⟩ | ⟨w3, e3, f3⟩ <;>
        rw [e3] at h
      · simp only [Except.error.injEq] at h
        exact h.symm
      · cases h
  · cases h

theorem getAll_throws (w : World) (e : JsError) (h : (getAll w).1 = .error e) :
    e = .fsError := by
  unfold getAll load _loadInternal at h
  have he := ensureFile_throws w
  rcases hr : ensureFile w with ⟨e1 | _, w1⟩ <;> rw [hr] at h he <;> simp only at h
  · simp only [Except.error.injEq] at h
    subst h
    exact he e1 rfl
  · exact loadLoop_throws _ w1 e h

/-- C21, as stated, fails: when `getAll` throws an error whose message holds
`JSON`, the handler writes the primary file itself, outside the store. With a
thrown `JSON.parse` error and the record `milk` in the primary file, the
handler replaces the file by the empty collection; and with no primary file,
a directory in which the store's write is rejected and a path that holds
`JSON`, the store throws and leaves no primary file, and the handler then
creates it and answers with the empty list. -/
theorem get_handler_writes_primary :
    (getTodosAfter false (.error .parseError, worldOf [milk])).1 = ⟨200, some []⟩ ∧
      (worldOf [milk]).files.data = some (stringify [milk]) ∧
      (getTodosAfter false (.error .parseError, worldOf [milk])).2.files.data =
        some (stringify []) ∧
      (getAll unwritableWorld).1 = .error .fsError ∧
      (getAll unwritableWorld).2.files.data = none ∧
      (getTodos true unwritableWorld).1 = ⟨200, some []⟩ ∧
      (getTodos true unwritableWorld).2.files.data = some (stringify []) :=
  ⟨rfl, rfl, rfl, rfl, rfl, rfl, rfl⟩

/-- C21, amended: when `getAll` returns a collection, and when it throws an
error whose message does not hold `JSON`, the handler of `GET /api/todos`
makes no file call of its own and leaves the state as the store left it; when
the thrown error's message holds `JSON` the handler itself writes the empty
collection to the primary file, outside the store and its gate, and answers
with the empty list, or with 500 when that write is rejected. The store's
`getAll` throws only errors of rejected file calls: when their messages do
not hold `JSON` the handler changes no file beyond what the store did, and
when no file call fails it answers with the records the store returned. -/
theorem get_handler_own_write (fsText : Bool) :
    (∀ tasks w1, getTodosAfter fsText (.ok tasks, w1) = (⟨200, some tasks⟩, w1)) ∧
    (∀ e w1, mentionsJSON fsText e = false →
      getTodosAfter fsText (.error e, w1) = (⟨500, none⟩, w1)) ∧
    (∀ e w1, mentionsJSON fsText e = true →
      (getTodosAfter fsText (.error e, w1)).2 = (writeFile .data (stringify []) w1).2 ∧
      (((getTodosAfter fsText (.error e, w1)).1 = ⟨200, some []⟩ ∧
          (getTodosAfter fsText (.error e, w1)).2.files = w1.files.set .data (some (stringify [])))
        ∨ ((getTodosAfter fsText (.error e, w1)).1 = ⟨500, none⟩ ∧
          (getTodosAfter fsText (.error e, w1)).2.files = w1.files))) ∧
    (∀ w e, (getAll w).1 = .error e → e = .fsError) ∧
    (∀ w, (getTodos false w).2 = (getAll w).2) ∧
    (∀ w, w.faults = [] → getTodos fsText w = (⟨200, some (persisted w)⟩, loaded w)) := by
  refine ⟨fun _ _ => rfl, ?_, ?_, getAll_throws, ?_, ?_⟩
  · intro e w1 h
    simp [getTodosAfter, h]
  · intro e w1 h
    have hg : getTodosAfter fsText (.error e, w1) =
        match writeFile .data (stringify []) w1 with
        | (.ok _, w2) => (⟨200, some []⟩, w2)
        | (.error _, w2) => (⟨500, none⟩, w2) := by
      simp only [getTodosAfter, h, if_true]
    rw [hg]
    rcases writeFile_cases .data (stringify []) w1 with ⟨w2, e2, f2⟩ | ⟨w2, e2, f2⟩ <;>
      rw [e2]
    · exact ⟨rfl, Or.inr ⟨rfl, f2⟩⟩
    · exact ⟨rfl, Or.inl ⟨rfl, f2⟩⟩
  · intro w
    unfold getTodos
    rcases hr : getAll w with ⟨e | tasks, w1⟩
    · have he := getAll_throws w e (by rw [hr])
      subst he
      rfl
    · rfl
  · intro w hq
    unfold getTodos
    have h : getAll w = (.ok (persisted w), loaded w) := load_quiet w hq
    rw [h]
    rfl

theorem get_handler_own_write_witness :
    getTodos true (damagedWorld .malformed) =
      (⟨200, some (persisted (damagedWorld .malformed))⟩, loaded (damagedWorld .malformed)) :=
  (get_handler_own_write true).2.2.2.2.2 (damagedWorld .malformed) rfl

end TodoStore
